import Mathlib

/-!
The `context` data source: merge, descriptor evaluation, interpolation.

A shallow embedding of `internal/provider/context_data_source.go`
(`ContextDataSource.Read` and `Descriptor.Compute`).

Modelling conventions

* A Go `string` is its sequence of bytes (`Str`); `len` is `List.length`.
* A framework value (`types.Bool`, `types.String`, `types.Int64`) is null,
  unknown or known (`types.Val`); the `Value*` accessors return the zero
  value of the Go type on null and unknown, as the framework does.
* A Go `map[string]V` is an association list read by first match (`GoMap`).
  Go leaves the iteration order of `range` over a map unspecified, so every
  `range` over a map takes the list of keys to visit from a `Sched`; a
  schedule is valid when each of its lists enumerates the keys of the map it
  ranges over exactly once.
* The functions of Go's `strings` package whose result depends on Unicode
  tables or on rune decoding (`ToLower`, `ToUpper`, `Title`, `Trim`) are a
  parameter (`Strings`); `goStrings` is their behaviour on ASCII text.
  `strings.Trim` is also written out in full (`Trim`), on the rune decoders
  of `unicode/utf8`, for every string of bytes and every cutset.
* A run-time panic (a slice bound out of range) is the result `none`.
* Decoding the configuration (`GetAttribute`) and writing the state
  (`SetAttribute`) are the framework's: `Read` starts from the decoded `child`
  and `parent` and ends with the values it sets, the diagnostics that
  `Compute` returned and the lines printed.
-/

namespace Provider

/-! ## Strings -/

/-- A Go string: the sequence of its bytes. -/
abbrev Str := List (Fin 256)

/-- The bytes (UTF-8) of a string literal. -/
def str (s : String) : Str :=
  (s.data.flatMap String.utf8EncodeChar).map
    (fun b => ⟨b.toNat % 256, Nat.mod_lt _ (by decide)⟩)

/-- Go `strings.HasPrefix`. -/
def HasPrefix (s pre : Str) : Bool := pre.isPrefixOf s

/-- Go `strings.TrimPrefix`. -/
def TrimPrefix (s pre : Str) : Str :=
  if HasPrefix s pre then s.drop pre.length else s

/-- Go `strings.Join`. -/
def Join (elems : List Str) (sep : Str) : Str := sep.intercalate elems

/-- Scan of `strings.ReplaceAll`: `skip` bytes of a match found earlier are
still to be passed over; otherwise a match of `old` at the current position
is replaced by `new` and the scan resumes behind it. -/
def replaceScan (old new : Str) : Nat → Str → Str
  | _, [] => []
  | skip + 1, _ :: t => replaceScan old new skip t
  | 0, c :: t =>
    if old.isPrefixOf (c :: t) then new ++ replaceScan old new (old.length - 1) t
    else c :: replaceScan old new 0 t

/-- Go `strings.ReplaceAll(s, old, new)` for a non-empty `old` (the only use
in `Read` has `old` of the form `$\x7bname\x7d`): the non-overlapping
occurrences of `old`, found from the left, are replaced by `new`. -/
def ReplaceAll (s old new : Str) : Str := replaceScan old new 0 s

/-- The result of `fmt.Sprintf` with the format `$\x7b%s\x7d`. -/
def SprintfPlaceholder (name : Str) : Str := str "$\x7b" ++ name ++ str "\x7d"

/-- The result of `fmt.Sprintf` with the verb `%d`. -/
def SprintfInt (i : Int) : Str := str (toString i)

/-- The functions of Go's `strings` package that work on runes. -/
structure Strings where
  /-- Go `strings.ToLower`. -/
  ToLower : Str → Str
  /-- Go `strings.ToUpper`. -/
  ToUpper : Str → Str
  /-- Go `strings.Title`. -/
  Title : Str → Str
  /-- Go `strings.Trim(s, cutset)`. -/
  Trim : Str → Str → Str

/-- Lower-case of an ASCII byte. -/
def lowerByte (b : Fin 256) : Fin 256 :=
  if 65 ≤ b.val ∧ b.val ≤ 90 then ⟨(b.val + 32) % 256, Nat.mod_lt _ (by decide)⟩ else b

/-- Upper-case of an ASCII byte. -/
def upperByte (b : Fin 256) : Fin 256 :=
  if 97 ≤ b.val ∧ b.val ≤ 122 then ⟨(b.val - 32) % 256, Nat.mod_lt _ (by decide)⟩ else b

/-- Go `isSeparator` of `strings.Title` on an ASCII byte: everything but
letters, digits and the underscore. Bytes from 0x80 on are left to the
neighbouring rune and count as no separator. -/
def isSeparator (b : Fin 256) : Bool :=
  if 128 ≤ b.val then false
  else if 48 ≤ b.val ∧ b.val ≤ 57 then false
  else if 97 ≤ b.val ∧ b.val ≤ 122 then false
  else if 65 ≤ b.val ∧ b.val ≤ 90 then false
  else if b.val = 95 then false
  else true

/-- The loop of `strings.Title`: `prev` is the byte before the current one. -/
def titleScan : Fin 256 → Str → Str
  | _, [] => []
  | prev, c :: t => (if isSeparator prev then upperByte c else c) :: titleScan c t

/-- Byte-wise `strings.Trim`: leading and trailing bytes that occur in
`cutset` are removed. This is what Go does when `cutset` is ASCII. -/
def trimBytes (s cutset : Str) : Str :=
  ((s.dropWhile (fun b => decide (b ∈ cutset))).reverse.dropWhile
    (fun b => decide (b ∈ cutset))).reverse

/-- The `strings` package on ASCII text: case mapping of the ASCII letters,
title-casing of the first letter of every word (`prev` starts as a space),
trimming by bytes. -/
def goStrings : Strings where
  ToLower := fun s => s.map lowerByte
  ToUpper := fun s => s.map upperByte
  Title := fun s => titleScan 32 s
  Trim := trimBytes

/-! ## Runes: Go's `unicode/utf8` and `strings.Trim` -/

/-- Go `utf8.RuneError`, the rune U+FFFD that stands for a byte that is not
part of a well-formed UTF-8 sequence. -/
def RuneError : Nat := 65533

/-- Go `utf8.RuneStart`: the byte is not a continuation byte (`b&0xC0 != 0x80`). -/
def RuneStart (b : Fin 256) : Bool := !(decide (128 ≤ b.val) && decide (b.val ≤ 191))

/-- Go's table `first` of `unicode/utf8` for a byte from 0x80 on: the length of
the sequence the byte leads and the accepted range of the second byte
(`acceptRanges`), or nothing for a byte that leads no sequence (`xx`). -/
def first (b : Fin 256) : Option (Nat × Nat × Nat) :=
  if b.val < 194 then none
  else if b.val ≤ 223 then some (2, 128, 191)
  else if b.val = 224 then some (3, 160, 191)
  else if b.val ≤ 236 then some (3, 128, 191)
  else if b.val = 237 then some (3, 128, 159)
  else if b.val ≤ 239 then some (3, 128, 191)
  else if b.val = 240 then some (4, 144, 191)
  else if b.val ≤ 243 then some (4, 128, 191)
  else if b.val = 244 then some (4, 128, 143)
  else none

/-- Go `utf8.DecodeRuneInString`: the first rune of the string and its width
in bytes; `(RuneError, 0)` for the empty string and `(RuneError, 1)` for a
byte that starts no well-formed sequence. The masks and shifts of the source
are written with `%` and `*`. -/
def DecodeRuneInString (s : Str) : Nat × Nat :=
  match s with
  | [] => (RuneError, 0)
  | s0 :: t =>
    if s0.val < 128 then (s0.val, 1)
    else
      match first s0 with
      | none => (RuneError, 1)
      | some (sz, lo, hi) =>
        if s.length < sz then (RuneError, 1)
        else
          match t with
          | [] => (RuneError, 1)
          | s1 :: t1 =>
            if s1.val < lo ∨ hi < s1.val then (RuneError, 1)
            else if sz ≤ 2 then ((s0.val % 32) * 64 + s1.val % 64, 2)
            else
              match t1 with
              | [] => (RuneError, 1)
              | s2 :: t2 =>
                if s2.val < 128 ∨ 191 < s2.val then (RuneError, 1)
                else if sz ≤ 3 then
                  ((s0.val % 16) * 4096 + (s1.val % 64) * 64 + s2.val % 64, 3)
                else
                  match t2 with
                  | [] => (RuneError, 1)
                  | s3 :: _ =>
                    if s3.val < 128 ∨ 191 < s3.val then (RuneError, 1)
                    else
                      ((s0.val % 8) * 262144 + (s1.val % 64) * 4096
                        + (s2.val % 64) * 64 + s3.val % 64, 4)

/-- The backward scan of `utf8.DecodeLastRuneInString`, on the string
reversed: the number of bytes from `start` to the end, where `start` is the
nearest position before the last byte, at most `UTFMax = 4` bytes from the
end, that holds a rune start, and the limit of the scan when there is none. -/
def lastRuneSpan : Str → Nat
  | [] => 0
  | [_] => 1
  | _ :: b2 :: r2 =>
    if RuneStart b2 then 2
    else
      match r2 with
      | [] => 2
      | b3 :: r3 =>
        if RuneStart b3 then 3
        else
          match r3 with
          | [] => 3
          | _ :: _ => 4

/-- Go `utf8.DecodeLastRuneInString`: the last rune of the string and its
width in bytes. An ASCII last byte is the rune; otherwise the bytes from the
`start` of the backward scan are decoded, and they count only when the
decoded rune reaches the end of the string (`start+size == end`). -/
def DecodeLastRuneInString (s : Str) : Nat × Nat :=
  match s.reverse with
  | [] => (RuneError, 0)
  | b :: _ =>
    if b.val < 128 then (b.val, 1)
    else
      let span := lastRuneSpan s.reverse
      let rn := DecodeRuneInString (s.drop (s.length - span))
      if rn.2 ≠ span then (RuneError, 1) else rn

/-- The runes a `range` over the string yields, `fuel` bounding the number of
iterations. -/
def runesAux : Nat → Str → List Nat
  | 0, _ => []
  | fuel + 1, s =>
    if s = [] then []
    else (DecodeRuneInString s).1 :: runesAux fuel (s.drop (DecodeRuneInString s).2)

/-- The runes of a string, as a Go `range` over it yields them: a byte that
is not part of a well-formed sequence counts as `RuneError`. -/
def runes (s : Str) : List Nat := runesAux s.length s

/-- Go `strings.ContainsRune(s, r)` for a rune that a decoder returned (a
code point or `RuneError`): the rune is one of the runes of the string.
`IndexRune` looks for an ASCII rune as a byte, for `RuneError` by ranging
over the string, and for any other rune by the bytes of its encoding, which
can only stand in the string where a `range` decodes them. -/
def ContainsRune (s : Str) (r : Nat) : Bool := decide (r ∈ runes s)

/-- The loop of `trimLeftUnicode`: while the first rune is contained in
`cutset` its bytes are cut off. Every turn removes a byte at least, so the
length of the string is fuel enough. -/
def trimLeftUnicodeAux (cutset : Str) : Nat → Str → Str
  | 0, s => s
  | fuel + 1, s =>
    if s = [] then s
    else if ContainsRune cutset (DecodeRuneInString s).1 then
      trimLeftUnicodeAux cutset fuel (s.drop (DecodeRuneInString s).2)
    else s

/-- Go `strings.trimLeftUnicode`: leading runes contained in `cutset` are removed. -/
def trimLeftUnicode (s cutset : Str) : Str := trimLeftUnicodeAux cutset s.length s

/-- The loop of `trimRightUnicode`: while the last rune is contained in
`cutset` its bytes are cut off. -/
def trimRightUnicodeAux (cutset : Str) : Nat → Str → Str
  | 0, s => s
  | fuel + 1, s =>
    if s = [] then s
    else if ContainsRune cutset (DecodeLastRuneInString s).1 then
      trimRightUnicodeAux cutset fuel (s.take (s.length - (DecodeLastRuneInString s).2))
    else s

/-- Go `strings.trimRightUnicode`: trailing runes contained in `cutset` are removed. -/
def trimRightUnicode (s cutset : Str) : Str := trimRightUnicodeAux cutset s.length s

/-- The flag that Go `makeASCIISet` returns: every byte of `chars` is ASCII
(below `utf8.RuneSelf`). -/
def makeASCIISet (chars : Str) : Bool := chars.all (fun b => decide (b.val < 128))

/-- Go `strings.Trim(s, cutset)`: the string without its leading and trailing
runes contained in `cutset`. With an ASCII cutset (one byte or more) Go trims
byte by byte, which is `trimBytes`; otherwise rune by rune, the right end
first. -/
def Trim (s cutset : Str) : Str :=
  if s = [] ∨ cutset = [] then s
  else if makeASCIISet cutset then trimBytes s cutset
  else trimLeftUnicode (trimRightUnicode s cutset) cutset

/-! ## Framework values -/

namespace types

/-- A value of the plugin framework (`types.Bool`, `types.String`,
`types.Int64`): null (the zero value), unknown, or known. -/
inductive Val (α : Type) where
  | null
  | unknown
  | known (v : α)
  deriving DecidableEq

/-- Framework `IsNull`. -/
def Val.IsNull {α : Type} : Val α → Bool
  | .null => true
  | _ => false

/-- Framework `IsUnknown`. -/
def Val.IsUnknown {α : Type} : Val α → Bool
  | .unknown => true
  | _ => false

/-- Framework `ValueBool`: `false` unless known. -/
def Val.ValueBool : Val Bool → Bool
  | .known b => b
  | _ => false

/-- Framework `ValueString`: the empty string unless known. -/
def Val.ValueString : Val Str → Str
  | .known s => s
  | _ => []

/-- Framework `ValueInt64`: `0` unless known. -/
def Val.ValueInt64 : Val Int → Int
  | .known i => i
  | _ => 0

/-- Framework `types.BoolValue`. -/
def BoolValue (b : Bool) : Val Bool := .known b

/-- Framework `types.StringValue`. -/
def StringValue (s : Str) : Val Str := .known s

/-- Framework `types.Int64Value`. -/
def Int64Value (i : Int) : Val Int := .known i

end types

open types

/-! ## Go maps -/

/-- A Go `map[string]V`, as an association list read by first match. -/
abbrev GoMap (V : Type) := List (Str × V)

/-- The index expression `m[k]` with its `ok` result. -/
def GoMap.lookup {V : Type} : GoMap V → Str → Option V
  | [], _ => none
  | (k', v) :: t, k => if k' = k then some v else GoMap.lookup t k

/-- The assignment `m[k] = v`. -/
def GoMap.assign {V : Type} : GoMap V → Str → V → GoMap V
  | [], k, v => [(k, v)]
  | (k', v') :: t, k, v =>
    if k' = k then (k, v) :: t else (k', v') :: GoMap.assign t k v

/-- The loop `for k, v := range src \x7b dst[k] = f v \x7d`, visiting the keys
of `src` in the order `ks`. -/
def GoMap.assignAll {V W : Type} (f : V → W) (ks : List Str) (src : GoMap V)
    (dst : GoMap W) : GoMap W :=
  ks.foldl (fun acc k =>
    match GoMap.lookup src k with
    | some v => GoMap.assign acc k (f v)
    | none => acc) dst

/-- The list `ks` visits every key of `m` exactly once. -/
def GoMap.Traversal {V : Type} (m : GoMap V) (ks : List Str) : Prop :=
  ks.Nodup ∧ (∀ k ∈ ks, (GoMap.lookup m k).isSome = true) ∧ (∀ kv ∈ m, kv.1 ∈ ks)

instance {V : Type} (m : GoMap V) (ks : List Str) : Decidable (GoMap.Traversal m ks) := by
  unfold GoMap.Traversal
  infer_instance

/-! ## Data model -/

/-- Go `Descriptor`. -/
structure Descriptor where
  Order : List (Val Str)
  Delimiter : Val Str
  Upper : Val Bool
  Lower : Val Bool
  Title : Val Bool
  Reverse : Val Bool
  Limit : Val Int
  Value : Val Str
  deriving DecidableEq

/-- Go `Model`. A nil slice or map is the empty one. -/
structure Model where
  Enabled : Val Bool
  Attributes : List (Val Str)
  AttributesMap : GoMap (Val Str)
  Descriptors : GoMap Descriptor
  deriving DecidableEq

/-- Severity of a diagnostic. -/
inductive Severity where
  | warning
  | error
  deriving DecidableEq

/-- A diagnostic of the framework (`diag.Diagnostic`). -/
structure Diagnostic where
  Severity : Severity
  Summary : Str
  Detail : Str
  deriving DecidableEq

/-- Framework `Diagnostics.Append`: a diagnostic equal to one that is already
present is skipped. -/
def Diagnostics.Append (diags more : List Diagnostic) : List Diagnostic :=
  more.foldl (fun acc d => if d ∈ acc then acc else acc ++ [d]) diags

/-! ## `Descriptor.Compute` -/

/-- One iteration of the first loop of `Compute` (lines 270-282): the parts
collected so far and the lines printed so far, extended by the key `k`. -/
def Descriptor.resolveKey (attributesMap : GoMap Str) (attributes : List Str)
    (acc : List Str × List Str) (k : Val Str) : List Str × List Str :=
  let key := k.ValueString
  match GoMap.lookup attributesMap key with
  | some val => (acc.1 ++ [val], acc.2)
  | none =>
    if key = str "attributes" then (acc.1 ++ attributes, acc.2)
    else if HasPrefix key (str "$") then
      (acc.1 ++ [SprintfPlaceholder (TrimPrefix key (str "$"))], acc.2)
    else (acc.1, acc.2 ++ [str "warn - no key: " ++ key ++ str "\n"])

/-- The first loop of `Compute`: `parts` and the lines written by
`fmt.Println`. -/
def Descriptor.parts (d : Descriptor) (attributesMap : GoMap Str)
    (attributes : List Str) : List Str × List Str :=
  d.Order.foldl (Descriptor.resolveKey attributesMap attributes) ([], [])

/-- The body of the second loop of `Compute` for a non-empty part (lines
289-306): what is appended to `partsClean`. A part that starts with `$` is
appended as it is; any other part passes through `ToLower`, `ToUpper` and
`Title`, each when its flag is true. -/
def Descriptor.emit (lib : Strings) (d : Descriptor) (p : Str) : Str :=
  if HasPrefix p (str "$") then p
  else
    let p1 := if d.Lower.ValueBool then lib.ToLower p else p
    let p2 := if d.Upper.ValueBool then lib.ToUpper p1 else p1
    if d.Title.ValueBool then lib.Title p2 else p2

/-- One iteration of the second loop of `Compute` (lines 285-307). -/
def Descriptor.cleanPart (lib : Strings) (d : Descriptor) (partsClean : List Str)
    (p : Str) : List Str :=
  if p = [] then partsClean else partsClean ++ [d.emit lib p]

/-- The list `partsClean` of `Compute` after the reversal of lines 309-313
(the swap loop reverses the slice in place). -/
def Descriptor.partsClean (lib : Strings) (d : Descriptor) (attributesMap : GoMap Str)
    (attributes : List Str) : List Str :=
  let clean := (d.parts attributesMap attributes).1.foldl (d.cleanPart lib) []
  if d.Reverse.ValueBool then clean.reverse else clean

/-- The string `value` of `Compute` at line 315, before the limit applies. -/
def Descriptor.joined (lib : Strings) (d : Descriptor) (attributesMap : GoMap Str)
    (attributes : List Str) : Str :=
  Join (d.partsClean lib attributesMap attributes) d.Delimiter.ValueString

/-- The slice expression `value[:hi]`; out of range is a panic. -/
def sliceTo (value : Str) (hi : Int) : Option Str :=
  if 0 ≤ hi ∧ hi ≤ (value.length : Int) then some (value.take hi.toNat) else none

/-- What `Compute` leaves behind: the descriptor with its `Value` set, the
diagnostics it returns (`AddWarning` on the empty `diags` gives the one
warning), and the lines it prints. -/
structure Computed where
  d : Descriptor
  diags : List Diagnostic
  stdout : List Str
  deriving DecidableEq

/-- Go `(*Descriptor).Compute`. -/
def Descriptor.Compute (lib : Strings) (d : Descriptor) (attributesMap : GoMap Str)
    (attributes : List Str) : Option Computed :=
  let value := d.joined lib attributesMap attributes
  let limit := d.Limit.ValueInt64
  if !d.Limit.IsNull && !d.Limit.IsUnknown && decide ((value.length : Int) > d.Limit.ValueInt64) then
    match sliceTo value limit with
    | none => none
    | some cut =>
      some {
        d := { d with Value := StringValue cut }
        diags := [{
          Severity := Severity.warning
          Summary := str "Descriptor length exceeds limit. Output will be trimmed."
          Detail := str "Limit = " ++ SprintfInt limit ++ str ", Length = " ++
            SprintfInt value.length ++ str ", Value = " ++ value }]
        stdout := (d.parts attributesMap attributes).2 }
  else
    some {
      d := { d with Value := StringValue value }
      diags := []
      stdout := (d.parts attributesMap attributes).2 }

/-! ## `ContextDataSource.Read` -/

/-- The orders in which the `range` loops of `Read` visit their maps. -/
structure Sched where
  /-- Line 180, over `child.AttributesMap`. -/
  mergeAttributesMapOrder : List Str
  /-- Line 198, over `child.Descriptors`. -/
  mergeDescriptorsOrder : List Str
  /-- Line 231, over the merged `child.AttributesMap`. -/
  copyAttributesMapOrder : List Str
  /-- Line 239, over the merged `child.Descriptors`. -/
  computeOrder : List Str
  /-- Line 245, over the merged `child.Descriptors`. -/
  expandOuterOrder : List Str
  /-- Line 247, over the merged `child.Descriptors`, once for each key of the
  outer loop. -/
  expandInnerOrder : Str → List Str

/-- Lines 147-159: the merged `enabled`. -/
def mergeEnabled (childEnabled parentEnabled : Val Bool) : Val Bool :=
  let c := if childEnabled.IsUnknown || childEnabled.IsNull then BoolValue true else childEnabled
  let p := if parentEnabled.IsUnknown || parentEnabled.IsNull then BoolValue true else parentEnabled
  if c.ValueBool && p.ValueBool then BoolValue true else BoolValue false

/-- Line 166: the merged `attributes`. -/
def mergeAttributes (child parent : Model) : List (Val Str) :=
  parent.Attributes ++ child.Attributes

/-- Lines 180-183: the merged `attributes_map`. -/
def mergeAttributesMap (s : Sched) (child parent : Model) : GoMap (Val Str) :=
  GoMap.assignAll id s.mergeAttributesMapOrder child.AttributesMap parent.AttributesMap

/-- The literal of lines 205-213. -/
def defaultId : Descriptor where
  Delimiter := StringValue (str "-")
  Upper := BoolValue false
  Lower := BoolValue false
  Title := BoolValue false
  Reverse := BoolValue false
  Limit := Int64Value 64
  Order := [StringValue (str "attributes")]
  Value := Val.null

/-- Go `math.MaxInt64`. -/
def MaxInt64 : Int := 9223372036854775807

/-- The literal of lines 216-224. -/
def defaultNamespace : Descriptor where
  Delimiter := StringValue (str "-")
  Upper := BoolValue false
  Lower := BoolValue false
  Title := BoolValue false
  Reverse := BoolValue false
  Limit := Int64Value MaxInt64
  Order := []
  Value := Val.null

/-- Lines 204-225: the defaults of the first-class descriptors. -/
def injectDefaults (descs : GoMap Descriptor) : GoMap Descriptor :=
  let d1 :=
    match GoMap.lookup descs (str "id") with
    | some _ => descs
    | none => GoMap.assign descs (str "id") defaultId
  match GoMap.lookup d1 (str "namespace") with
  | some _ => d1
  | none => GoMap.assign d1 (str "namespace") defaultNamespace

/-- Lines 198-225: the merged descriptor definitions, defaults included. -/
def mergeDescriptors (s : Sched) (child parent : Model) : GoMap Descriptor :=
  injectDefaults (GoMap.assignAll id s.mergeDescriptorsOrder child.Descriptors parent.Descriptors)

/-- Lines 228-233: the local `attributesMap`. -/
def attributesMapOf (s : Sched) (child parent : Model) : GoMap Str :=
  GoMap.assignAll Val.ValueString s.copyAttributesMapOrder (mergeAttributesMap s child parent) []

/-- Lines 229-237: the local `attributes`. -/
def attributesOf (child parent : Model) : List Str :=
  (mergeAttributes child parent).map Val.ValueString

/-- The state of the loop of lines 239-242. -/
structure Evaluated where
  descs : GoMap Descriptor
  diags : List Diagnostic
  stdout : List Str
  deriving DecidableEq

/-- Lines 239-242: `Compute` on every descriptor, in the order `ks`. -/
def computeAll (lib : Strings) (attributesMap : GoMap Str) (attributes : List Str) :
    List Str → Evaluated → Option Evaluated
  | [], st => some st
  | k :: ks, st =>
    match GoMap.lookup st.descs k with
    | none => computeAll lib attributesMap attributes ks st
    | some d =>
      match d.Compute lib attributesMap attributes with
      | none => none
      | some c =>
        computeAll lib attributesMap attributes ks
          { descs := GoMap.assign st.descs k c.d
            diags := Diagnostics.Append st.diags c.diags
            stdout := st.stdout ++ c.stdout }

/-- One iteration of the inner loop, lines 248-249. -/
def expandStep (lib : Strings) (descs : GoMap Descriptor) (pd : Descriptor)
    (newValue : Str) (sk : Str) : Str :=
  match GoMap.lookup descs sk with
  | none => newValue
  | some sd =>
    lib.Trim (ReplaceAll newValue (SprintfPlaceholder sk) sd.Value.ValueString)
      pd.Delimiter.ValueString

/-- One iteration of the outer loop, lines 246-252; the inner loop reads the
map as the earlier outer iterations left it. -/
def expandOne (lib : Strings) (inner : Str → List Str) (descs : GoMap Descriptor)
    (pk : Str) : GoMap Descriptor :=
  match GoMap.lookup descs pk with
  | none => descs
  | some pd =>
    let newValue := (inner pk).foldl (expandStep lib descs pd) pd.Value.ValueString
    GoMap.assign descs pk { pd with Value := StringValue newValue }

/-- Lines 245-253: the interpolation pass. -/
def expandAll (lib : Strings) (outer : List Str) (inner : Str → List Str)
    (descs : GoMap Descriptor) : GoMap Descriptor :=
  outer.foldl (expandOne lib inner) descs

/-- The index expression `child.Descriptors[name].Value`: the zero value of
`Descriptor` has a null `Value`. -/
def valueOf (descs : GoMap Descriptor) (name : Str) : Val Str :=
  match GoMap.lookup descs name with
  | some d => d.Value
  | none => Val.null

/-- What `Read` writes: the state attributes set at lines 256-263, the
diagnostics appended by `Compute`, and the lines printed. -/
structure ReadResponse where
  Enabled : Val Bool
  Attributes : List (Val Str)
  AttributesMap : GoMap (Val Str)
  Descriptors : GoMap Descriptor
  Id : Val Str
  Namespace : Val Str
  Diagnostics : List Diagnostic
  Stdout : List Str
  deriving DecidableEq

/-- Lines 228-242 of `Read`: the merged descriptors after `Compute` has run
on each of them, that is before the interpolation pass. -/
def evaluate (lib : Strings) (s : Sched) (child parent : Model) : Option Evaluated :=
  computeAll lib (attributesMapOf s child parent) (attributesOf child parent) s.computeOrder
    { descs := mergeDescriptors s child parent, diags := [], stdout := [] }

/-- Go `(*ContextDataSource).Read`, on the decoded configuration: `child` is
the configuration at the root, `parent` the one under `context` (all null and
empty when `context` is absent). -/
def Read (lib : Strings) (s : Sched) (child parent : Model) : Option ReadResponse :=
  match evaluate lib s child parent with
  | none => none
  | some ev =>
    let descs := expandAll lib s.expandOuterOrder s.expandInnerOrder ev.descs
    some {
      Enabled := mergeEnabled child.Enabled parent.Enabled
      Attributes := mergeAttributes child parent
      AttributesMap := mergeAttributesMap s child parent
      Descriptors := descs
      Id := valueOf descs (str "id")
      Namespace := valueOf descs (str "namespace")
      Diagnostics := ev.diags
      Stdout := ev.stdout }

/-- The attributes of a data source as the `context` of another one: the
state that `Read` has set, read back as a configuration. -/
def ReadResponse.toModel (r : ReadResponse) : Model where
  Enabled := r.Enabled
  Attributes := r.Attributes
  AttributesMap := r.AttributesMap
  Descriptors := r.Descriptors

/-- The schedule of `Read` is valid for a configuration: every list visits
the keys of its map exactly once. -/
def Sched.Valid (s : Sched) (child parent : Model) : Prop :=
  GoMap.Traversal child.AttributesMap s.mergeAttributesMapOrder ∧
  GoMap.Traversal child.Descriptors s.mergeDescriptorsOrder ∧
  GoMap.Traversal (mergeAttributesMap s child parent) s.copyAttributesMapOrder ∧
  GoMap.Traversal (mergeDescriptors s child parent) s.computeOrder ∧
  GoMap.Traversal (mergeDescriptors s child parent) s.expandOuterOrder ∧
  ∀ pk, GoMap.Traversal (mergeDescriptors s child parent) (s.expandInnerOrder pk)

/-- The context that is absent: every field null or empty. -/
def Model.absent : Model where
  Enabled := Val.null
  Attributes := []
  AttributesMap := []
  Descriptors := []

/-! ## Vocabulary of the properties -/

/-- An enable flag with null and unknown read as `true`. -/
def flagOrTrue : Val Bool → Bool
  | .known b => b
  | _ => true

/-- The definition fields of a descriptor: everything but the computed
`Value`, which is put to null. -/
def Descriptor.definition (d : Descriptor) : Descriptor := { d with Value := Val.null }

/-- The limit of the descriptor is null, unknown, or not negative. -/
def Descriptor.LimitSane (d : Descriptor) : Prop :=
  match d.Limit with
  | .known l => 0 ≤ l
  | _ => True

instance (d : Descriptor) : Decidable d.LimitSane := by
  unfold Descriptor.LimitSane
  split <;> infer_instance

/-- Every descriptor of the map has a sane limit. -/
def SaneLimits (m : GoMap Descriptor) : Prop :=
  ∀ k d, GoMap.lookup m k = some d → d.LimitSane

/-- The keys of a map, in the order of its association list. -/
def GoMap.keys {V : Type} (m : GoMap V) : List Str := m.map Prod.fst

/-- The schedule that visits every map in the order of its association list. -/
def Sched.listOrder (child parent : Model) : Sched :=
  let s0 : Sched :=
    { mergeAttributesMapOrder := GoMap.keys child.AttributesMap
      mergeDescriptorsOrder := GoMap.keys child.Descriptors
      copyAttributesMapOrder := []
      computeOrder := []
      expandOuterOrder := []
      expandInnerOrder := fun _ => [] }
  let ds := GoMap.keys (mergeDescriptors s0 child parent)
  { s0 with
    copyAttributesMapOrder := GoMap.keys (mergeAttributesMap s0 child parent)
    computeOrder := ds
    expandOuterOrder := ds
    expandInnerOrder := fun _ => ds }

/-- The definition fields of `d` are those of `e`. -/
def Descriptor.SameFields (d e : Descriptor) : Prop :=
  d.Order = e.Order ∧ d.Delimiter = e.Delimiter ∧ d.Upper = e.Upper ∧ d.Lower = e.Lower ∧
    d.Title = e.Title ∧ d.Reverse = e.Reverse ∧ d.Limit = e.Limit

/-- The string begins with a character that occurs in `cutset`: its first rune
is one of the runes of `cutset`. -/
def beginsWithRuneOf (v cutset : Str) : Bool :=
  !v.isEmpty && ContainsRune cutset (DecodeRuneInString v).1

/-- The string ends with a character that occurs in `cutset`: its last rune is
one of the runes of `cutset`. -/
def endsWithRuneOf (v cutset : Str) : Bool :=
  !v.isEmpty && ContainsRune cutset (DecodeLastRuneInString v).1

/-! ## The evaluator as the specification words it -/

/-- The resolver as specified: a key of the attribute map gives its value;
otherwise `attributes` gives the whole attribute sequence; otherwise a key
that starts with `$` gives the placeholder of the rest of the key; any other
key gives nothing. -/
def specResolve (attributeMap : GoMap Str) (attributes : List Str) (key : Str) : List Str :=
  match GoMap.lookup attributeMap key with
  | some v => [v]
  | none =>
    if key = str "attributes" then attributes
    else if (str "$").isPrefixOf key then [str "$\x7b" ++ key.drop 1 ++ str "\x7d"]
    else []

/-- The evaluator as specified, without transforms and without limit: the
keys of `order` resolved left to right into one flat list, the empty strings
removed, the list reversed when `reverse` is set, and joined by the
delimiter. -/
def specEvaluate (d : Descriptor) (attributeMap : GoMap Str) (attributes : List Str) : Str :=
  let parts := (d.Order.map Val.ValueString).flatMap (specResolve attributeMap attributes)
  let cleaned := parts.filter (fun p => decide (p ≠ []))
  Join (if d.Reverse.ValueBool then cleaned.reverse else cleaned) d.Delimiter.ValueString

/-- The transforms as specified: lower, then upper, then title, each one
when its flag is set. -/
def specTransform (lib : Strings) (d : Descriptor) (p : Str) : Str :=
  let p1 := if d.Lower.ValueBool then lib.ToLower p else p
  let p2 := if d.Upper.ValueBool then lib.ToUpper p1 else p1
  if d.Title.ValueBool then lib.Title p2 else p2

/-- The cleaned parts as the code produces them, in the words of the
specification: the resolved parts in order, the empty ones dropped, every
part that starts with `$` as it is and every other part transformed. -/
def specCleanParts (lib : Strings) (d : Descriptor) (attributeMap : GoMap Str)
    (attributes : List Str) : List Str :=
  (((d.Order.map Val.ValueString).flatMap (specResolve attributeMap attributes)).filter
    (fun p => decide (p ≠ []))).map
    (fun p => if (str "$").isPrefixOf p then p else specTransform lib d p)

/-! ## Vocabulary of the interpolation pass -/

/-- Replacement of placeholders without any trimming: for each name of `ks`
in turn, every occurrence of the placeholder of the name is replaced by the
value that `cur` gives for the name; a name without a value is passed over. -/
def substitute (cur : Str → Option Str) (ks : List Str) (v : Str) : Str :=
  ks.foldl (fun v sk =>
    match cur sk with
    | none => v
    | some x => ReplaceAll v (SprintfPlaceholder sk) x) v

/-- The value string that a map of descriptors holds under a name. -/
def valueIn (descs : GoMap Descriptor) (sk : Str) : Option Str :=
  (GoMap.lookup descs sk).map (fun d => d.Value.ValueString)

/-- The evaluated value of a descriptor name: what `Compute` puts in `Value`
for the merged descriptor of that name. -/
def evaluatedValue (lib : Strings) (s : Sched) (child parent : Model) (sk : Str) :
    Option Str :=
  match GoMap.lookup (mergeDescriptors s child parent) sk with
  | none => none
  | some d =>
    (d.Compute lib (attributesMapOf s child parent) (attributesOf child parent)).map
      (fun c => c.d.Value.ValueString)

/-- The value that the name `sk` holds when the outer loop, going through
`outer`, visits `pk`: the final value if `sk` comes before `pk`, the
evaluated value otherwise. -/
def valueWhen (outer : List Str) (pk : Str) (evaluated final : Str → Option Str) (sk : Str) :
    Option Str :=
  if sk ∈ outer.takeWhile (fun k => decide (k ≠ pk)) then final sk else evaluated sk

/-- No descriptor that an order names with a `$` key has a `$` key in its
own order. -/
def referencesAreFlat (descs : GoMap Descriptor) : Bool :=
  descs.all (fun kv => kv.2.Order.all (fun k =>
    !HasPrefix k.ValueString (str "$") ||
      match GoMap.lookup descs (TrimPrefix k.ValueString (str "$")) with
      | none => true
      | some d => d.Order.all (fun k' => !HasPrefix k'.ValueString (str "$"))))

/-- The string `old` occurs in `s`: it is a prefix of `s` or of what follows
some byte of `s`. -/
def occursIn (old : Str) : Str → Bool
  | [] => old.isPrefixOf []
  | c :: t => old.isPrefixOf (c :: t) || occursIn old t

/-- The descriptor set is resolved: no value holds the placeholder of a name
of the set. -/
def Resolved (descs : GoMap Descriptor) : Prop :=
  ∀ p ∈ descs, ∀ q ∈ descs, occursIn (SprintfPlaceholder q.1) p.2.Value.ValueString = false

instance (descs : GoMap Descriptor) : Decidable (Resolved descs) := by
  unfold Resolved
  infer_instance

/-! ## Example configurations -/

/-- A child that sets `enabled = true`. -/
def exEnabledChild : Model := { Model.absent with Enabled := Val.known true }

/-- A parent that sets `enabled = false`. -/
def exEnabledParent : Model := { Model.absent with Enabled := Val.known false }

/-- A parent with a repeated and an empty attribute. -/
def exAttrsParent : Model :=
  { Model.absent with
    Attributes := [Val.known (str "a"), Val.known (str ""), Val.known (str "a")] }

/-- A child that repeats an attribute of its parent. -/
def exAttrsChild : Model :=
  { Model.absent with Attributes := [Val.known (str "a"), Val.known (str "b")] }

/-- A parent with the keys `x` and `y`. -/
def exMapParent : Model :=
  { Model.absent with
    AttributesMap := [(str "x", Val.known (str "1")), (str "y", Val.known (str "2"))] }

/-- A child with the keys `y` and `z`. -/
def exMapChild : Model :=
  { Model.absent with
    AttributesMap := [(str "y", Val.known (str "3")), (str "z", Val.known (str "4"))] }

/-- A parent whose descriptor `name` sets every field. -/
def exRecordParent : Model :=
  { Model.absent with
    Descriptors := [(str "name",
      { Order := [Val.known (str "attributes")]
        Delimiter := Val.known (str "-")
        Upper := Val.known true
        Lower := Val.known false
        Title := Val.known false
        Reverse := Val.known true
        Limit := Val.known 5
        Value := Val.known (str "old") })] }

/-- A child whose descriptor `name` sets the order only. -/
def exRecordChild : Model :=
  { Model.absent with
    Descriptors := [(str "name",
      { Order := [Val.known (str "attributes")]
        Delimiter := Val.null
        Upper := Val.null
        Lower := Val.null
        Title := Val.null
        Reverse := Val.null
        Limit := Val.null
        Value := Val.null })] }

/-- A descriptor whose limit is negative. -/
def exNegativeLimit : Descriptor where
  Order := [Val.known (str "attributes")]
  Delimiter := Val.known (str "-")
  Upper := Val.null
  Lower := Val.null
  Title := Val.null
  Reverse := Val.null
  Limit := Val.known (-1)
  Value := Val.null

/-- The descriptor `id` of the configuration `too_long` of the tests. -/
def exTooLong : Descriptor where
  Order := [Val.known (str "attributes")]
  Delimiter := Val.null
  Upper := Val.null
  Lower := Val.null
  Title := Val.null
  Reverse := Val.null
  Limit := Val.known 10
  Value := Val.null

/-- The descriptor `fqdn3_prefix` of the tests: the attributes, reversed,
joined by a dot. -/
def exFqdn3Prefix : Descriptor where
  Order := [Val.known (str "attributes")]
  Delimiter := Val.known (str ".")
  Upper := Val.null
  Lower := Val.null
  Title := Val.null
  Reverse := Val.known true
  Limit := Val.null
  Value := Val.null

/-- The descriptor `fqdn2` of the tests: a reference and a key of the map. -/
def exFqdn2 : Descriptor where
  Order := [Val.known (str "$fqdn2_prefix"), Val.known (str "domain")]
  Delimiter := Val.known (str ".")
  Upper := Val.null
  Lower := Val.null
  Title := Val.null
  Reverse := Val.null
  Limit := Val.null
  Value := Val.null

/-- A configuration whose `id` has the limit 8 and refers to the descriptor
`long`, the attributes joined by `-`. -/
def exOverflow : Model :=
  { Model.absent with
    Attributes := [Val.known (str "hello"), Val.known (str "world")]
    Descriptors := [
      (str "id",
        { Order := [Val.known (str "$long")]
          Delimiter := Val.known (str "-")
          Upper := Val.null
          Lower := Val.null
          Title := Val.null
          Reverse := Val.null
          Limit := Val.known 8
          Value := Val.null }),
      (str "long",
        { Order := [Val.known (str "attributes")]
          Delimiter := Val.known (str "-")
          Upper := Val.null
          Lower := Val.null
          Title := Val.null
          Reverse := Val.null
          Limit := Val.null
          Value := Val.null })] }

/-- A descriptor with the given order and delimiter, lower-casing, with the
limit 64, as `id`, `namespace` and `fqdn` of the tests. -/
def exLowerDescriptor (order : List String) (delimiter : String) : Descriptor where
  Order := order.map (fun k => Val.known (str k))
  Delimiter := Val.known (str delimiter)
  Upper := Val.known false
  Lower := Val.known true
  Title := Val.known false
  Reverse := Val.known false
  Limit := Val.known 64
  Value := Val.null

/-- A descriptor with the given order, delimiter and `reverse`, everything
else unset, as the `fqdn2` and `fqdn3` descriptors of the tests. -/
def exPlainDescriptor (order : List String) (delimiter : String) (reverse : Val Bool) :
    Descriptor where
  Order := order.map (fun k => Val.known (str k))
  Delimiter := Val.known (str delimiter)
  Upper := Val.null
  Lower := Val.null
  Title := Val.null
  Reverse := reverse
  Limit := Val.null
  Value := Val.null

/-- The configuration `base` of `TestDescriptors`. -/
def exBase : Model where
  Enabled := Val.null
  Attributes := []
  AttributesMap := [
    (str "project", Val.known (str "foo")),
    (str "stage", Val.known (str "dev")),
    (str "env", Val.known (str "bar")),
    (str "domain", Val.known (str "example.com"))]
  Descriptors := [
    (str "id", exLowerDescriptor ["stage", "env", "project", "attributes"] "-"),
    (str "namespace", exLowerDescriptor ["stage", "env", "project"] "-"),
    (str "fqdn", exLowerDescriptor ["attributes", "stage", "env", "project", "domain"] "."),
    (str "fqdn2_prefix", exPlainDescriptor ["attributes"] "-" Val.null),
    (str "fqdn2", exPlainDescriptor ["$fqdn2_prefix", "domain"] "." Val.null),
    (str "fqdn3_prefix", exPlainDescriptor ["attributes"] "." (Val.known true)),
    (str "fqdn3", exPlainDescriptor ["$fqdn3_prefix", "domain"] "." Val.null)]

/-- The outputs of `base`, as the `context` of another data source. -/
def exBaseOut : Model :=
  match Read goStrings (Sched.listOrder exBase Model.absent) exBase Model.absent with
  | some r => r.toModel
  | none => Model.absent

/-- The own configuration of `fizz` of `TestDescriptors`. -/
def exFizz : Model := { Model.absent with Attributes := [Val.known (str "fizz")] }

/-- A configuration whose only attribute starts with the delimiter of the
descriptor `prefix`; `host` refers to `prefix`. -/
def exLeadingDash : Model where
  Enabled := Val.null
  Attributes := [Val.known (str "-a")]
  AttributesMap := [(str "domain", Val.known (str "example.com"))]
  Descriptors := [
    (str "prefix", exPlainDescriptor ["attributes"] "-" Val.null),
    (str "host", exPlainDescriptor ["$prefix", "domain"] "." Val.null)]

/-- The own configuration of `buzz` of `TestDescriptors`, with its parent
`fizz` over `base` written out: the attributes `fizz`, `buzz` over the map
and the descriptors of `base`. -/
def exBuzz : Model := { exBase with Attributes := [Val.known (str "fizz"), Val.known (str "buzz")] }

/-- A descriptor whose order names `stage` and a key `missing` that nothing
defines. -/
def exMissingKey : Descriptor := exPlainDescriptor ["stage", "missing"] "-" Val.null

/-- A configuration with the descriptor `exMissingKey` under the name `id`. -/
def exMissingKeyModel : Model where
  Enabled := Val.null
  Attributes := []
  AttributesMap := [(str "stage", Val.known (str "dev"))]
  Descriptors := [(str "id", exMissingKey)]

/-- A descriptor with the given order and transform flags, joined by `-`,
everything else unset. -/
def exFlagsDescriptor (order : List String) (lower upper title : Bool) : Descriptor where
  Order := order.map (fun k => Val.known (str k))
  Delimiter := Val.known (str "-")
  Upper := Val.known upper
  Lower := Val.known lower
  Title := Val.known title
  Reverse := Val.null
  Limit := Val.null
  Value := Val.null

/-- A chain of references: `a` refers to `b`, `b` to `c`, and `c` is the
attributes. -/
def exChain : Model where
  Enabled := Val.null
  Attributes := [Val.known (str "x")]
  AttributesMap := []
  Descriptors := [
    (str "a", exPlainDescriptor ["$b"] "-" Val.null),
    (str "b", exPlainDescriptor ["$c"] "-" Val.null),
    (str "c", exPlainDescriptor ["attributes"] "-" Val.null)]

/-- A schedule for `exChain` whose inner loop goes `c`, `b`, `a` while the
outer loop goes `a`, `b`, `c`. -/
def exChainSched : Sched :=
  { Sched.listOrder exChain Model.absent with
    expandInnerOrder := fun _ => [str "c", str "b", str "a", str "id", str "namespace"] }

/-- A rank along which the references of `exChain` go down. -/
def exChainRank (k : Str) : Nat :=
  if k = str "a" then 2 else if k = str "b" then 1 else 0

/-- A schedule for `exLeadingDash` whose outer loop visits `host` before
`prefix`. -/
def exHostFirst : Sched :=
  { Sched.listOrder exLeadingDash Model.absent with
    expandOuterOrder := [str "host", str "prefix", str "id", str "namespace"] }

/-- The schedule in list order for `exBuzz`, except that the evaluation loop
goes through the descriptors backwards. -/
def exComputeReversed : Sched :=
  { Sched.listOrder exBuzz Model.absent with
    computeOrder := (Sched.listOrder exBuzz Model.absent).computeOrder.reverse }

/-- The outputs of `exLeadingDash` under the schedule in list order, as the
`context` of another data source. -/
def exLeadingDashOut : Model :=
  match Read goStrings (Sched.listOrder exLeadingDash Model.absent) exLeadingDash
    Model.absent with
  | some r => r.toModel
  | none => Model.absent

/-- A schedule for an empty child over the parent `exLeadingDash` whose outer
loop visits `host` before `prefix`. -/
def exParentHostFirst : Sched :=
  { Sched.listOrder Model.absent exLeadingDash with
    expandOuterOrder := [str "host", str "prefix", str "id", str "namespace"] }

/-- The `strings` package with `Trim` on runes; the case mappings are those
of `goStrings`, which `exAccent` does not use. -/
def goStringsRunes : Strings := { goStrings with Trim := Trim }

/-- A configuration whose descriptor `id` has the two-byte delimiter `é` and
joins the placeholder of the empty descriptor `p` with the name `èx`, whose
first byte is the first byte of the delimiter. -/
def exAccent : Model where
  Enabled := Val.null
  Attributes := []
  AttributesMap := [(str "name", Val.known (str "èx"))]
  Descriptors := [
    (str "p", exPlainDescriptor [] "-" Val.null),
    (str "id", exPlainDescriptor ["$p", "name"] "é" Val.null)]

/-! ## Lemmas on maps and on the phases of `Read` -/

theorem GoMap.lookup_assign {V : Type} (m : GoMap V) (k k' : Str) (v : V) :
    GoMap.lookup (GoMap.assign m k v) k' = if k = k' then some v else GoMap.lookup m k' := by
  induction m with
  | nil => simp [GoMap.assign, GoMap.lookup]
  | cons hd t ih =>
    obtain ⟨a, b⟩ := hd
    by_cases h : a = k
    · subst h
      by_cases h2 : a = k' <;> simp [GoMap.assign, GoMap.lookup, h2]
    · by_cases h2 : a = k'
      · subst h2
        have h3 : ¬ k = a := fun e => h e.symm
        simp [GoMap.assign, GoMap.lookup, h, h3]
      · simp [GoMap.assign, GoMap.lookup, h, h2, ih]

theorem GoMap.lookup_assignAll {V W : Type} (f : V → W) (ks : List Str) (src : GoMap V)
    (dst : GoMap W) (k : Str) :
    GoMap.lookup (GoMap.assignAll f ks src dst) k =
      if k ∈ ks then
        (match GoMap.lookup src k with
         | some v => some (f v)
         | none => GoMap.lookup dst k)
      else GoMap.lookup dst k := by
  induction ks generalizing dst with
  | nil => simp [GoMap.assignAll]
  | cons k0 ks ih =>
    have hstep : GoMap.assignAll f (k0 :: ks) src dst =
        GoMap.assignAll f ks src
          (match GoMap.lookup src k0 with
           | some v => GoMap.assign dst k0 (f v)
           | none => dst) := rfl
    rw [hstep, ih]
    by_cases hk : k = k0
    · subst hk
      cases hs : GoMap.lookup src k with
      | none => simp
      | some v => simp [GoMap.lookup_assign]
    · have hk2 : ¬ k0 = k := fun e => hk e.symm
      cases hs : GoMap.lookup src k0 with
      | none => simp [hk]
      | some v => simp [hk, hk2, GoMap.lookup_assign]

theorem GoMap.mem_of_lookup {V : Type} (m : GoMap V) (k : Str) (v : V)
    (h : GoMap.lookup m k = some v) : (k, v) ∈ m := by
  induction m with
  | nil => simp [GoMap.lookup] at h
  | cons hd t ih =>
    obtain ⟨a, b⟩ := hd
    by_cases hk : a = k
    · subst hk
      simp [GoMap.lookup] at h
      simp [h]
    · simp [GoMap.lookup, hk] at h
      exact List.mem_cons_of_mem _ (ih h)

theorem GoMap.Traversal.covers {V : Type} {m : GoMap V} {ks : List Str}
    (h : GoMap.Traversal m ks) {k : Str} {v : V} (hl : GoMap.lookup m k = some v) : k ∈ ks :=
  h.2.2 (k, v) (GoMap.mem_of_lookup m k v hl)

/-- In a merge loop over a traversal of `src`, the entries of `src` win. -/
theorem GoMap.lookup_assignAll_traversal {V W : Type} (f : V → W) {ks : List Str}
    {src : GoMap V} (h : GoMap.Traversal src ks) (dst : GoMap W) (k : Str) :
    GoMap.lookup (GoMap.assignAll f ks src dst) k =
      (match GoMap.lookup src k with
       | some v => some (f v)
       | none => GoMap.lookup dst k) := by
  rw [GoMap.lookup_assignAll]
  cases hs : GoMap.lookup src k with
  | none => simp
  | some v => simp [h.covers hs]

theorem Compute_definition (lib : Strings) (d : Descriptor) (am : GoMap Str) (at_ : List Str)
    (c : Computed) (h : d.Compute lib am at_ = some c) : c.d.definition = d.definition := by
  unfold Descriptor.Compute at h
  simp only at h
  split at h
  · split at h
    · simp at h
    · simp only [Option.some.injEq] at h
      subst h
      rfl
  · simp only [Option.some.injEq] at h
    subst h
    rfl

theorem Compute_isSome (lib : Strings) (d : Descriptor) (am : GoMap Str) (at_ : List Str)
    (h : d.LimitSane) : ∃ c, d.Compute lib am at_ = some c := by
  unfold Descriptor.Compute
  simp only
  split
  · rename_i hc
    simp only [Bool.and_eq_true, Bool.not_eq_true', decide_eq_true_eq] at hc
    obtain ⟨⟨h1, h2⟩, h3⟩ := hc
    cases hl : d.Limit with
    | null => simp [hl, Val.IsNull] at h1
    | unknown => simp [hl, Val.IsUnknown] at h2
    | known l =>
      have h0 : 0 ≤ l := by
        have := h
        simp only [Descriptor.LimitSane, hl] at this
        exact this
      simp only [hl, Val.ValueInt64] at h3 ⊢
      have : sliceTo (d.joined lib am at_) l = some ((d.joined lib am at_).take l.toNat) := by
        unfold sliceTo
        rw [if_pos]
        exact ⟨h0, by omega⟩
      rw [this]
      exact ⟨_, rfl⟩
  · exact ⟨_, rfl⟩

theorem definition_limitSane {d d' : Descriptor} (h : d'.definition = d.definition)
    (hs : d.LimitSane) : d'.LimitSane := by
  have : d'.definition.Limit = d.definition.Limit := congrArg Descriptor.Limit h
  simp only [Descriptor.definition] at this
  unfold Descriptor.LimitSane at hs ⊢
  rw [this]
  exact hs

theorem computeAll_isSome (lib : Strings) (am : GoMap Str) (at_ : List Str) (ks : List Str)
    (st : Evaluated) (h : SaneLimits st.descs) : ∃ st', computeAll lib am at_ ks st = some st' := by
  induction ks generalizing st with
  | nil => exact ⟨st, rfl⟩
  | cons k ks ih =>
    unfold computeAll
    cases hl : GoMap.lookup st.descs k with
    | none => simpa using ih st h
    | some d =>
      obtain ⟨c, hc⟩ := Compute_isSome lib d am at_ (h k d hl)
      simp only [hc]
      apply ih
      intro k' d' hk'
      simp only [GoMap.lookup_assign] at hk'
      split at hk'
      · simp only [Option.some.injEq] at hk'
        subst hk'
        exact definition_limitSane (Compute_definition lib d am at_ c hc) (h k d hl)
      · exact h k' d' hk'

theorem SaneLimits_injectDefaults {m : GoMap Descriptor} (h : SaneLimits m) :
    SaneLimits (injectDefaults m) := by
  have hid : defaultId.LimitSane := by decide
  have hns : defaultNamespace.LimitSane := by decide
  have h1 : SaneLimits (match GoMap.lookup m (str "id") with
      | some _ => m
      | none => GoMap.assign m (str "id") defaultId) := by
    split
    · exact h
    · intro k d hk
      rw [GoMap.lookup_assign] at hk
      split at hk
      · simp only [Option.some.injEq] at hk
        exact hk ▸ hid
      · exact h k d hk
  unfold injectDefaults
  simp only
  split
  · exact h1
  · intro k d hk
    rw [GoMap.lookup_assign] at hk
    split at hk
    · simp only [Option.some.injEq] at hk
      exact hk ▸ hns
    · exact h1 k d hk

theorem SaneLimits_mergeDescriptors (s : Sched) (child parent : Model)
    (hc : SaneLimits child.Descriptors) (hp : SaneLimits parent.Descriptors) :
    SaneLimits (mergeDescriptors s child parent) := by
  apply SaneLimits_injectDefaults
  intro k d hk
  rw [GoMap.lookup_assignAll] at hk
  split at hk
  · split at hk
    · rename_i v hv
      simp only [id, Option.some.injEq] at hk
      exact hk ▸ hc k v hv
    · exact hp k d hk
  · exact hp k d hk

theorem SaneLimits_of_entries {m : GoMap Descriptor} (h : ∀ kv ∈ m, kv.2.LimitSane) :
    SaneLimits m :=
  fun k d hk => h (k, d) (GoMap.mem_of_lookup m k d hk)

/-- With sane limits `Read` returns. -/
theorem Read_isSome (lib : Strings) (s : Sched) (child parent : Model)
    (hc : SaneLimits child.Descriptors) (hp : SaneLimits parent.Descriptors) :
    ∃ r, Read lib s child parent = some r := by
  obtain ⟨ev, hev⟩ := computeAll_isSome lib (attributesMapOf s child parent)
    (attributesOf child parent) s.computeOrder
    { descs := mergeDescriptors s child parent, diags := [], stdout := [] }
    (SaneLimits_mergeDescriptors s child parent hc hp)
  unfold Read evaluate
  rw [hev]
  exact ⟨_, rfl⟩

/-- What `Read` returns, in terms of its phases. -/
theorem Read_eq_some (lib : Strings) (s : Sched) (child parent : Model) (r : ReadResponse)
    (h : Read lib s child parent = some r) :
    ∃ ev, evaluate lib s child parent = some ev ∧
      r.Enabled = mergeEnabled child.Enabled parent.Enabled ∧
      r.Attributes = mergeAttributes child parent ∧
      r.AttributesMap = mergeAttributesMap s child parent ∧
      r.Descriptors = expandAll lib s.expandOuterOrder s.expandInnerOrder ev.descs ∧
      r.Id = valueOf r.Descriptors (str "id") ∧
      r.Namespace = valueOf r.Descriptors (str "namespace") ∧
      r.Diagnostics = ev.diags ∧ r.Stdout = ev.stdout := by
  unfold Read at h
  split at h
  · simp at h
  · rename_i ev hev
    simp only [Option.some.injEq] at h
    subst h
    exact ⟨ev, hev, rfl, rfl, rfl, rfl, rfl, rfl, rfl, rfl⟩

theorem computeAll_definition (lib : Strings) (am : GoMap Str) (at_ : List Str) (ks : List Str)
    (st st' : Evaluated) (h : computeAll lib am at_ ks st = some st') (k : Str) :
    (GoMap.lookup st'.descs k).map Descriptor.definition =
      (GoMap.lookup st.descs k).map Descriptor.definition := by
  induction ks generalizing st with
  | nil =>
    simp only [computeAll, Option.some.injEq] at h
    rw [h]
  | cons k0 ks ih =>
    unfold computeAll at h
    cases hl : GoMap.lookup st.descs k0 with
    | none =>
      simp only [hl] at h
      exact ih st h
    | some d =>
      simp only [hl] at h
      cases hc : d.Compute lib am at_ with
      | none => simp [hc] at h
      | some c =>
        simp only [hc] at h
        rw [ih _ h]
        simp only [GoMap.lookup_assign]
        split
        · rename_i hk
          subst hk
          simp [hl, Compute_definition lib d am at_ c hc]
        · rfl

theorem expandOne_lookup (lib : Strings) (inner : Str → List Str) (descs : GoMap Descriptor)
    (pk k : Str) :
    GoMap.lookup (expandOne lib inner descs pk) k =
      if pk = k then
        (GoMap.lookup descs pk).map (fun pd =>
          { pd with
            Value := StringValue ((inner pk).foldl (expandStep lib descs pd) pd.Value.ValueString) })
      else GoMap.lookup descs k := by
  unfold expandOne
  cases hl : GoMap.lookup descs pk with
  | none =>
    simp only [Option.map_none']
    split
    · rename_i hk
      subst hk
      exact hl
    · rfl
  | some pd =>
    simp only [GoMap.lookup_assign, Option.map_some']

theorem expandOne_definition (lib : Strings) (inner : Str → List Str) (descs : GoMap Descriptor)
    (pk k : Str) :
    (GoMap.lookup (expandOne lib inner descs pk) k).map Descriptor.definition =
      (GoMap.lookup descs k).map Descriptor.definition := by
  rw [expandOne_lookup]
  split
  · rename_i hk
    subst hk
    cases GoMap.lookup descs pk <;> rfl
  · rfl

theorem expandAll_definition (lib : Strings) (outer : List Str) (inner : Str → List Str)
    (descs : GoMap Descriptor) (k : Str) :
    (GoMap.lookup (expandAll lib outer inner descs) k).map Descriptor.definition =
      (GoMap.lookup descs k).map Descriptor.definition := by
  induction outer generalizing descs with
  | nil => rfl
  | cons pk outer ih =>
    have : expandAll lib (pk :: outer) inner descs =
        expandAll lib outer inner (expandOne lib inner descs pk) := rfl
    rw [this, ih, expandOne_definition]

/-- The definitions that `Read` returns are the merged ones. -/
theorem Read_definition (lib : Strings) (s : Sched) (child parent : Model) (r : ReadResponse)
    (h : Read lib s child parent = some r) (k : Str) :
    (GoMap.lookup r.Descriptors k).map Descriptor.definition =
      (GoMap.lookup (mergeDescriptors s child parent) k).map Descriptor.definition := by
  obtain ⟨ev, hev, -, -, -, hd, -⟩ := Read_eq_some lib s child parent r h
  rw [hd, expandAll_definition, computeAll_definition lib _ _ _ _ _ hev]

theorem lookup_injectDefaults (m : GoMap Descriptor) (k : Str) :
    GoMap.lookup (injectDefaults m) k =
      match GoMap.lookup m k with
      | some d => some d
      | none =>
        if k = str "id" then some defaultId
        else if k = str "namespace" then some defaultNamespace
        else none := by
  have hne : str "id" ≠ str "namespace" := by decide
  unfold injectDefaults
  simp only
  cases hid : GoMap.lookup m (str "id") with
  | some d0 =>
    simp only
    cases hns : GoMap.lookup m (str "namespace") with
    | some d1 =>
      simp only
      cases hk : GoMap.lookup m k with
      | some d => rfl
      | none =>
        simp only
        have h1 : k ≠ str "id" := fun e => by rw [e, hid] at hk; cases hk
        have h2 : k ≠ str "namespace" := fun e => by rw [e, hns] at hk; cases hk
        simp [h1, h2]
    | none =>
      simp only [GoMap.lookup_assign]
      by_cases h2 : str "namespace" = k
      · subst h2
        simp [hns, hne.symm]
      · have h2' : ¬ k = str "namespace" := fun e => h2 e.symm
        simp only [h2, if_false, h2']
        cases hk : GoMap.lookup m k with
        | some d => rfl
        | none =>
          have h1 : k ≠ str "id" := fun e => by rw [e, hid] at hk; cases hk
          simp [h1]
  | none =>
    simp only [GoMap.lookup_assign]
    have : (if str "id" = str "namespace" then some defaultId
        else GoMap.lookup m (str "namespace")) = GoMap.lookup m (str "namespace") := by
      simp [hne]
    rw [this]
    cases hns : GoMap.lookup m (str "namespace") with
    | some d1 =>
      simp only [GoMap.lookup_assign]
      by_cases h1 : str "id" = k
      · subst h1
        simp [hid]
      · have h1' : ¬ k = str "id" := fun e => h1 e.symm
        simp only [h1, if_false, h1']
        cases hk : GoMap.lookup m k with
        | some d => rfl
        | none =>
          have h2 : k ≠ str "namespace" := fun e => by rw [e, hns] at hk; cases hk
          simp [h2]
    | none =>
      simp only [GoMap.lookup_assign]
      by_cases h2 : str "namespace" = k
      · subst h2
        simp [hns, hne.symm]
      · have h2' : ¬ k = str "namespace" := fun e => h2 e.symm
        simp only [h2, if_false, h2']
        by_cases h1 : str "id" = k
        · subst h1
          simp [hid]
        · have h1' : ¬ k = str "id" := fun e => h1 e.symm
          simp only [h1, if_false, h1']
          cases hk : GoMap.lookup m k with
          | some d => rfl
          | none => rfl

theorem lookup_mergeDescriptors (s : Sched) (child parent : Model)
    (hv : GoMap.Traversal child.Descriptors s.mergeDescriptorsOrder) (k : Str) :
    GoMap.lookup (mergeDescriptors s child parent) k =
      match GoMap.lookup child.Descriptors k with
      | some d => some d
      | none =>
        match GoMap.lookup parent.Descriptors k with
        | some d => some d
        | none =>
          if k = str "id" then some defaultId
          else if k = str "namespace" then some defaultNamespace
          else none := by
  unfold mergeDescriptors
  rw [lookup_injectDefaults, GoMap.lookup_assignAll_traversal id hv]
  cases GoMap.lookup child.Descriptors k with
  | some d => rfl
  | none => cases GoMap.lookup parent.Descriptors k <;> rfl

theorem SameFields_of_definition {d e : Descriptor} (h : d.definition = e.definition) :
    d.SameFields e := by
  have h1 := congrArg Descriptor.Order h
  have h2 := congrArg Descriptor.Delimiter h
  have h3 := congrArg Descriptor.Upper h
  have h4 := congrArg Descriptor.Lower h
  have h5 := congrArg Descriptor.Title h
  have h6 := congrArg Descriptor.Reverse h
  have h7 := congrArg Descriptor.Limit h
  exact ⟨h1, h2, h3, h4, h5, h6, h7⟩

/-- The descriptor that `Read` returns under a name has the fields of the
merged definition of that name. -/
theorem Read_sameFields (lib : Strings) (s : Sched) (child parent : Model) (r : ReadResponse)
    (h : Read lib s child parent = some r) (k : Str) (e : Descriptor)
    (he : GoMap.lookup (mergeDescriptors s child parent) k = some e) :
    ∃ d, GoMap.lookup r.Descriptors k = some d ∧ d.SameFields e := by
  have hd := Read_definition lib s child parent r h k
  rw [he] at hd
  cases hl : GoMap.lookup r.Descriptors k with
  | none => simp [hl] at hd
  | some d =>
    refine ⟨d, rfl, SameFields_of_definition ?_⟩
    simpa [hl] using hd

/-- A schedule whose inner order is the outer order at every key is valid as
soon as its five lists are traversals. -/
theorem Sched.valid_of_inner_eq_outer {s : Sched} {child parent : Model}
    (h1 : GoMap.Traversal child.AttributesMap s.mergeAttributesMapOrder)
    (h2 : GoMap.Traversal child.Descriptors s.mergeDescriptorsOrder)
    (h3 : GoMap.Traversal (mergeAttributesMap s child parent) s.copyAttributesMapOrder)
    (h4 : GoMap.Traversal (mergeDescriptors s child parent) s.computeOrder)
    (h5 : GoMap.Traversal (mergeDescriptors s child parent) s.expandOuterOrder)
    (h6 : ∀ pk, s.expandInnerOrder pk = s.expandOuterOrder) : s.Valid child parent :=
  ⟨h1, h2, h3, h4, h5, fun pk => (h6 pk).symm ▸ h5⟩

theorem resolveKey_fst (am : GoMap Str) (at_ : List Str) (acc : List Str × List Str)
    (k : Val Str) :
    (Descriptor.resolveKey am at_ acc k).1 = acc.1 ++ specResolve am at_ k.ValueString := by
  unfold Descriptor.resolveKey specResolve
  simp only
  cases GoMap.lookup am k.ValueString with
  | some v => rfl
  | none =>
    simp only
    by_cases h1 : k.ValueString = str "attributes"
    · simp only [h1, if_true]
    · simp only [h1, if_false]
      by_cases h2 : (str "$").isPrefixOf k.ValueString = true
      · have h3 : HasPrefix k.ValueString (str "$") = true := h2
        have h4 : (str "$").length = 1 := by decide
        simp only [h2, h3, if_true, TrimPrefix, SprintfPlaceholder, h4]
      · have h3 : ¬ HasPrefix k.ValueString (str "$") = true := h2
        simp [h2, h3]

theorem foldl_resolveKey_fst (am : GoMap Str) (at_ : List Str) (order : List (Val Str))
    (acc : List Str × List Str) :
    (order.foldl (Descriptor.resolveKey am at_) acc).1 =
      acc.1 ++ (order.map Val.ValueString).flatMap (specResolve am at_) := by
  induction order generalizing acc with
  | nil => simp
  | cons k ks ih =>
    simp only [List.foldl_cons, List.map_cons, List.flatMap_cons]
    rw [ih, resolveKey_fst, List.append_assoc]

/-- The parts that the first loop of `Compute` collects. -/
theorem parts_fst (d : Descriptor) (am : GoMap Str) (at_ : List Str) :
    (d.parts am at_).1 = (d.Order.map Val.ValueString).flatMap (specResolve am at_) := by
  unfold Descriptor.parts
  rw [foldl_resolveKey_fst]
  rfl

theorem foldl_cleanPart (lib : Strings) (d : Descriptor) (ps acc : List Str) :
    ps.foldl (d.cleanPart lib) acc =
      acc ++ (ps.filter (fun p => decide (p ≠ []))).map (d.emit lib) := by
  induction ps generalizing acc with
  | nil => simp
  | cons p ps ih =>
    simp only [List.foldl_cons]
    rw [ih]
    unfold Descriptor.cleanPart
    by_cases hp : p = []
    · simp [hp]
    · simp [hp]

/-- The list that `Compute` joins: the non-empty parts, each as `emit` leaves
it, reversed when `reverse` is true. -/
theorem partsClean_eq (lib : Strings) (d : Descriptor) (am : GoMap Str) (at_ : List Str) :
    d.partsClean lib am at_ =
      (if d.Reverse.ValueBool then
        (((d.parts am at_).1.filter (fun p => decide (p ≠ []))).map (d.emit lib)).reverse
      else ((d.parts am at_).1.filter (fun p => decide (p ≠ []))).map (d.emit lib)) := by
  unfold Descriptor.partsClean
  simp only [foldl_cleanPart, List.nil_append]

theorem emit_no_transform (lib : Strings) (d : Descriptor) (p : Str)
    (hl : d.Lower.ValueBool = false) (hu : d.Upper.ValueBool = false)
    (ht : d.Title.ValueBool = false) : d.emit lib p = p := by
  unfold Descriptor.emit
  simp [hl, hu, ht]

/-- What `Compute` returns when the limit does not apply. -/
theorem Compute_of_not_exceeding (lib : Strings) (d : Descriptor) (am : GoMap Str)
    (at_ : List Str)
    (h : (!d.Limit.IsNull && !d.Limit.IsUnknown &&
      decide (((d.joined lib am at_).length : Int) > d.Limit.ValueInt64)) = false) :
    d.Compute lib am at_ = some
      { d := { d with Value := StringValue (d.joined lib am at_) }
        diags := []
        stdout := (d.parts am at_).2 } := by
  unfold Descriptor.Compute
  simp only [h]
  rfl

theorem resolveKey_congr (am am' : GoMap Str) (at_ : List Str)
    (h : ∀ k, GoMap.lookup am k = GoMap.lookup am' k) :
    Descriptor.resolveKey am at_ = Descriptor.resolveKey am' at_ := by
  funext acc k
  unfold Descriptor.resolveKey
  simp only [h]

theorem parts_congr (d : Descriptor) (am am' : GoMap Str) (at_ : List Str)
    (h : ∀ k, GoMap.lookup am k = GoMap.lookup am' k) :
    d.parts am at_ = d.parts am' at_ := by
  unfold Descriptor.parts
  rw [resolveKey_congr am am' at_ h]

/-- The result of `Compute` depends on the definition fields of the
descriptor only, and on the attribute map through its lookups only. -/
theorem Compute_congr (lib : Strings) (d d' : Descriptor) (am am' : GoMap Str)
    (at_ : List Str) (hd : d.definition = d'.definition)
    (h : ∀ k, GoMap.lookup am k = GoMap.lookup am' k) :
    d.Compute lib am at_ = d'.Compute lib am' at_ := by
  have hp : ∀ e : Descriptor, e.parts am at_ = e.parts am' at_ :=
    fun e => parts_congr e am am' at_ h
  obtain ⟨o, dl, u, l, t, r, lim, v⟩ := d
  obtain ⟨o', dl', u', l', t', r', lim', v'⟩ := d'
  simp only [Descriptor.definition, Descriptor.mk.injEq, and_true] at hd
  obtain ⟨h1, h2, h3, h4, h5, h6, h7⟩ := hd
  subst h1 h2 h3 h4 h5 h6 h7
  unfold Descriptor.Compute Descriptor.joined Descriptor.partsClean
  simp only [hp]
  rfl

theorem computeAll_lookup (lib : Strings) (am : GoMap Str) (at_ : List Str) (ks : List Str)
    (st st' : Evaluated) (hnd : ks.Nodup) (h : computeAll lib am at_ ks st = some st')
    (k : Str) :
    GoMap.lookup st'.descs k =
      match GoMap.lookup st.descs k with
      | none => none
      | some d => if k ∈ ks then (d.Compute lib am at_).map (fun c => c.d) else some d := by
  induction ks generalizing st with
  | nil =>
    simp only [computeAll, Option.some.injEq] at h
    subst h
    cases GoMap.lookup st.descs k <;> simp
  | cons k0 ks ih =>
    have hnd' : ks.Nodup := (List.nodup_cons.mp hnd).2
    have hk0 : k0 ∉ ks := (List.nodup_cons.mp hnd).1
    unfold computeAll at h
    cases hl : GoMap.lookup st.descs k0 with
    | none =>
      simp only [hl] at h
      rw [ih st hnd' h]
      cases hk : GoMap.lookup st.descs k with
      | none => rfl
      | some d =>
        have hne : k ≠ k0 := fun e => by rw [e, hl] at hk; cases hk
        simp [hne]
    | some d0 =>
      simp only [hl] at h
      cases hc : d0.Compute lib am at_ with
      | none => simp [hc] at h
      | some c =>
        simp only [hc] at h
        rw [ih _ hnd' h]
        simp only [GoMap.lookup_assign]
        by_cases hk : k0 = k
        · subst hk
          simp [hl, hk0, hc]
        · have hk' : ¬ k = k0 := fun e => hk e.symm
          simp only [hk, if_false, List.mem_cons, hk', false_or]

/-- When the loop of `Compute` calls returns, every call it made returned. -/
theorem computeAll_Compute_isSome (lib : Strings) (am : GoMap Str) (at_ : List Str)
    (ks : List Str) (st st' : Evaluated) (hnd : ks.Nodup)
    (h : computeAll lib am at_ ks st = some st') (k : Str) (hk : k ∈ ks) (d : Descriptor)
    (hd : GoMap.lookup st.descs k = some d) : ∃ c, d.Compute lib am at_ = some c := by
  have h1 := computeAll_lookup lib am at_ ks st st' hnd h k
  have h2 := computeAll_definition lib am at_ ks st st' h k
  rw [hd] at h1 h2
  simp only [hk, if_true] at h1
  cases hc : d.Compute lib am at_ with
  | some c => exact ⟨c, rfl⟩
  | none =>
    rw [hc] at h1
    simp only [Option.map_none'] at h1
    rw [h1] at h2
    simp at h2

/-- The loop of `Compute` calls returns when each call returns. -/
theorem computeAll_isSome_of_Compute (lib : Strings) (am : GoMap Str) (at_ : List Str)
    (ks : List Str) (st : Evaluated)
    (h : ∀ k d, GoMap.lookup st.descs k = some d → ∃ c, d.Compute lib am at_ = some c) :
    ∃ st', computeAll lib am at_ ks st = some st' := by
  induction ks generalizing st with
  | nil => exact ⟨st, rfl⟩
  | cons k ks ih =>
    unfold computeAll
    cases hl : GoMap.lookup st.descs k with
    | none => simpa using ih st h
    | some d =>
      obtain ⟨c, hc⟩ := h k d hl
      simp only [hc]
      apply ih
      intro k' d' hk'
      simp only [GoMap.lookup_assign] at hk'
      split at hk'
      · simp only [Option.some.injEq] at hk'
        subst hk'
        rw [Compute_congr lib c.d d am am at_ (Compute_definition lib d am at_ c hc)
          (fun _ => rfl)]
        exact ⟨c, hc⟩
      · exact h k' d' hk'

theorem expandStep_congr (lib : Strings) (D1 D2 : GoMap Descriptor)
    (h : ∀ k, GoMap.lookup D1 k = GoMap.lookup D2 k) (pd : Descriptor) :
    expandStep lib D1 pd = expandStep lib D2 pd := by
  funext v sk
  unfold expandStep
  rw [h]

theorem expandOne_congr (lib : Strings) (inner : Str → List Str) (D1 D2 : GoMap Descriptor)
    (h : ∀ k, GoMap.lookup D1 k = GoMap.lookup D2 k) (pk k : Str) :
    GoMap.lookup (expandOne lib inner D1 pk) k = GoMap.lookup (expandOne lib inner D2 pk) k := by
  rw [expandOne_lookup, expandOne_lookup, h, h]
  split
  · cases GoMap.lookup D2 pk with
    | none => rfl
    | some pd => simp only [Option.map_some', expandStep_congr lib D1 D2 h]
  · rfl

/-- The interpolation pass reads the map through its lookups only. -/
theorem expandAll_congr (lib : Strings) (outer : List Str) (inner : Str → List Str)
    (D1 D2 : GoMap Descriptor) (h : ∀ k, GoMap.lookup D1 k = GoMap.lookup D2 k) (k : Str) :
    GoMap.lookup (expandAll lib outer inner D1) k =
      GoMap.lookup (expandAll lib outer inner D2) k := by
  induction outer generalizing D1 D2 with
  | nil => exact h k
  | cons pk outer ih =>
    have e1 : expandAll lib (pk :: outer) inner D1 =
        expandAll lib outer inner (expandOne lib inner D1 pk) := rfl
    have e2 : expandAll lib (pk :: outer) inner D2 =
        expandAll lib outer inner (expandOne lib inner D2 pk) := rfl
    rw [e1, e2]
    exact ih _ _ (fun k' => expandOne_congr lib inner D1 D2 h pk k')

theorem mergeEnabled_eq (a b : Val Bool) :
    mergeEnabled a b = Val.known (flagOrTrue a && flagOrTrue b) := by
  cases a with
  | known x => cases b with
    | known y => cases x <;> cases y <;> rfl
    | null => cases x <;> rfl
    | unknown => cases x <;> rfl
  | null => cases b with
    | known y => cases y <;> rfl
    | null => rfl
    | unknown => rfl
  | unknown => cases b with
    | known y => cases y <;> rfl
    | null => rfl
    | unknown => rfl

theorem lookup_mergeAttributesMap (s : Sched) (child parent : Model)
    (hv : GoMap.Traversal child.AttributesMap s.mergeAttributesMapOrder) (k : Str) :
    GoMap.lookup (mergeAttributesMap s child parent) k =
      match GoMap.lookup child.AttributesMap k with
      | some v => some v
      | none => GoMap.lookup parent.AttributesMap k := by
  unfold mergeAttributesMap
  rw [GoMap.lookup_assignAll_traversal id hv]
  cases GoMap.lookup child.AttributesMap k <;> rfl

theorem lookup_attributesMapOf (s : Sched) (child parent : Model)
    (hv : GoMap.Traversal (mergeAttributesMap s child parent) s.copyAttributesMapOrder)
    (k : Str) :
    GoMap.lookup (attributesMapOf s child parent) k =
      (GoMap.lookup (mergeAttributesMap s child parent) k).map Val.ValueString := by
  unfold attributesMapOf
  rw [GoMap.lookup_assignAll_traversal Val.ValueString hv]
  cases GoMap.lookup (mergeAttributesMap s child parent) k <;> rfl

/-- The evaluated descriptors: `Compute` has run on each merged one. -/
theorem evaluate_lookup (lib : Strings) (s : Sched) (child parent : Model) (ev : Evaluated)
    (hv : GoMap.Traversal (mergeDescriptors s child parent) s.computeOrder)
    (h : evaluate lib s child parent = some ev) (k : Str) :
    GoMap.lookup ev.descs k =
      match GoMap.lookup (mergeDescriptors s child parent) k with
      | none => none
      | some d =>
        (d.Compute lib (attributesMapOf s child parent) (attributesOf child parent)).map
          (fun c => c.d) := by
  have h1 := computeAll_lookup lib _ _ _ _ _ hv.1 h k
  rw [h1]
  cases hl : GoMap.lookup (mergeDescriptors s child parent) k with
  | none => simp [hl]
  | some d => simp [hl, hv.covers hl]

/-- Two runs of `Read` over configurations that merge to the same flags,
attributes, map lookups and descriptor definitions, with the same orders of
the interpolation pass: when the second returns, so does the first, with the
same outputs. -/
theorem Read_congr (lib : Strings) (s1 s2 : Sched) (c1 p1 c2 p2 : Model) (r2 : ReadResponse)
    (hv1 : s1.Valid c1 p1) (hv2 : s2.Valid c2 p2)
    (hout : s1.expandOuterOrder = s2.expandOuterOrder)
    (hin : s1.expandInnerOrder = s2.expandInnerOrder)
    (hE : mergeEnabled c1.Enabled p1.Enabled = mergeEnabled c2.Enabled p2.Enabled)
    (hA : mergeAttributes c1 p1 = mergeAttributes c2 p2)
    (hM : ∀ k, GoMap.lookup (mergeAttributesMap s1 c1 p1) k =
      GoMap.lookup (mergeAttributesMap s2 c2 p2) k)
    (hD : ∀ k, (GoMap.lookup (mergeDescriptors s1 c1 p1) k).map Descriptor.definition =
      (GoMap.lookup (mergeDescriptors s2 c2 p2) k).map Descriptor.definition)
    (h2 : Read lib s2 c2 p2 = some r2) :
    ∃ r1, Read lib s1 c1 p1 = some r1 ∧ r1.Enabled = r2.Enabled ∧
      r1.Attributes = r2.Attributes ∧
      (∀ k, GoMap.lookup r1.AttributesMap k = GoMap.lookup r2.AttributesMap k) ∧
      (∀ k, GoMap.lookup r1.Descriptors k = GoMap.lookup r2.Descriptors k) ∧
      r1.Id = r2.Id ∧ r1.Namespace = r2.Namespace := by
  obtain ⟨ev2, hev2, e2E, e2A, e2M, e2D, e2I, e2N, -, -⟩ := Read_eq_some lib s2 c2 p2 r2 h2
  have ham : ∀ k, GoMap.lookup (attributesMapOf s1 c1 p1) k =
      GoMap.lookup (attributesMapOf s2 c2 p2) k := by
    intro k
    rw [lookup_attributesMapOf s1 c1 p1 hv1.2.2.1, lookup_attributesMapOf s2 c2 p2 hv2.2.2.1, hM]
  have hat : attributesOf c1 p1 = attributesOf c2 p2 := by
    unfold attributesOf
    rw [hA]
  -- every call of `Compute` in the first run returns what it returns in the second
  have hcomp : ∀ k d1, GoMap.lookup (mergeDescriptors s1 c1 p1) k = some d1 →
      ∃ d2, GoMap.lookup (mergeDescriptors s2 c2 p2) k = some d2 ∧
        d1.Compute lib (attributesMapOf s1 c1 p1) (attributesOf c1 p1) =
          d2.Compute lib (attributesMapOf s2 c2 p2) (attributesOf c2 p2) := by
    intro k d1 hd1
    have := hD k
    rw [hd1] at this
    cases hd2 : GoMap.lookup (mergeDescriptors s2 c2 p2) k with
    | none => simp [hd2] at this
    | some d2 =>
      refine ⟨d2, rfl, ?_⟩
      rw [hd2] at this
      simp only [Option.map_some', Option.some.injEq] at this
      rw [hat]
      exact Compute_congr lib d1 d2 _ _ _ this ham
  obtain ⟨ev1, hev1⟩ : ∃ ev1, evaluate lib s1 c1 p1 = some ev1 := by
    apply computeAll_isSome_of_Compute
    intro k d1 hd1
    obtain ⟨d2, hd2, hc⟩ := hcomp k d1 hd1
    rw [hc]
    exact computeAll_Compute_isSome lib _ _ _ _ _ hv2.2.2.2.1.1 hev2 k
      (hv2.2.2.2.1.covers hd2) d2 hd2
  have hev : ∀ k, GoMap.lookup ev1.descs k = GoMap.lookup ev2.descs k := by
    intro k
    rw [evaluate_lookup lib s1 c1 p1 ev1 hv1.2.2.2.1 hev1,
      evaluate_lookup lib s2 c2 p2 ev2 hv2.2.2.2.1 hev2]
    cases hd1 : GoMap.lookup (mergeDescriptors s1 c1 p1) k with
    | none =>
      have := hD k
      rw [hd1] at this
      cases hd2 : GoMap.lookup (mergeDescriptors s2 c2 p2) k with
      | none => rfl
      | some d2 => simp [hd2] at this
    | some d1 =>
      obtain ⟨d2, hd2, hc⟩ := hcomp k d1 hd1
      simp only [hd2, hc]
  have hfin : ∀ k, GoMap.lookup (expandAll lib s1.expandOuterOrder s1.expandInnerOrder ev1.descs) k
      = GoMap.lookup (expandAll lib s2.expandOuterOrder s2.expandInnerOrder ev2.descs) k := by
    intro k
    rw [hout, hin]
    exact expandAll_congr lib _ _ _ _ hev k
  have hr1 : ∃ r1, Read lib s1 c1 p1 = some r1 := by
    unfold Read
    rw [hev1]
    exact ⟨_, rfl⟩
  obtain ⟨r1, hr1⟩ := hr1
  obtain ⟨ev1', hev1', e1E, e1A, e1M, e1D, e1I, e1N, -, -⟩ := Read_eq_some lib s1 c1 p1 r1 hr1
  rw [hev1] at hev1'
  simp only [Option.some.injEq] at hev1'
  subst hev1'
  have hDD : ∀ k, GoMap.lookup r1.Descriptors k = GoMap.lookup r2.Descriptors k := by
    intro k
    rw [e1D, e2D]
    exact hfin k
  refine ⟨r1, hr1, ?_, ?_, ?_, hDD, ?_, ?_⟩
  · rw [e1E, e2E, hE]
  · rw [e1A, e2A, hA]
  · intro k
    rw [e1M, e2M]
    exact hM k
  · rw [e1I, e2I]
    unfold valueOf
    rw [hDD]
  · rw [e1N, e2N]
    unfold valueOf
    rw [hDD]

/-- In the schedule in list order the inner loop follows the outer order. -/
theorem Sched.listOrder_expandInnerOrder (child parent : Model) :
    (Sched.listOrder child parent).expandInnerOrder =
      fun _ => (Sched.listOrder child parent).expandOuterOrder := rfl

/-- Every string is its bytewise trim between two runs of bytes of the
cutset. -/
theorem trimBytes_decompose (s cutset : Str) :
    ∃ pre suf : Str, (∀ x ∈ pre, x ∈ cutset) ∧ (∀ x ∈ suf, x ∈ cutset) ∧
      s = pre ++ trimBytes s cutset ++ suf := by
  let p : Fin 256 → Bool := fun b => decide (b ∈ cutset)
  refine ⟨s.takeWhile p, ((s.dropWhile p).reverse.takeWhile p).reverse, ?_, ?_, ?_⟩
  · intro x hx
    have := List.mem_takeWhile_imp hx
    simpa [p] using this
  · intro x hx
    have := List.mem_takeWhile_imp (List.mem_reverse.mp hx)
    simpa [p] using this
  · have h1 : (s.dropWhile p).reverse =
        (s.dropWhile p).reverse.takeWhile p ++ (s.dropWhile p).reverse.dropWhile p :=
      (List.takeWhile_append_dropWhile p _).symm
    have h2 : s.dropWhile p =
        ((s.dropWhile p).reverse.dropWhile p).reverse ++
          ((s.dropWhile p).reverse.takeWhile p).reverse := by
      have := congrArg List.reverse h1
      rw [List.reverse_reverse, List.reverse_append] at this
      exact this
    have h3 : s = s.takeWhile p ++ s.dropWhile p := (List.takeWhile_append_dropWhile p s).symm
    unfold trimBytes
    rw [List.append_assoc, ← h2]
    exact h3

/-- Bytes of the cutset around a string do not change its bytewise trim. -/
theorem trimBytes_append (pre a suf cutset : Str) (hp : ∀ x ∈ pre, x ∈ cutset)
    (hs : ∀ x ∈ suf, x ∈ cutset) :
    trimBytes (pre ++ a ++ suf) cutset = trimBytes a cutset := by
  let p : Fin 256 → Bool := fun b => decide (b ∈ cutset)
  have hp' : ∀ x ∈ pre, p x = true := fun x hx => by simpa [p] using hp x hx
  have hs' : ∀ x ∈ suf, p x = true := fun x hx => by simpa [p] using hs x hx
  have h1 : (pre ++ a ++ suf).dropWhile p = (a ++ suf).dropWhile p := by
    rw [List.append_assoc, List.dropWhile_append_of_pos hp']
  show (((pre ++ a ++ suf).dropWhile p).reverse.dropWhile p).reverse =
    ((a.dropWhile p).reverse.dropWhile p).reverse
  rw [h1, List.dropWhile_append]
  by_cases he : (a.dropWhile p).isEmpty = true
  · have he' : a.dropWhile p = [] := List.isEmpty_iff.mp he
    have hsuf : suf.dropWhile p = [] := List.dropWhile_eq_nil_iff.mpr hs'
    simp [he', hsuf]
  · simp only [he]
    have hr : ∀ x ∈ suf.reverse, p x = true := fun x hx => hs' x (List.mem_reverse.mp hx)
    simp only [Bool.false_eq_true, if_false, List.reverse_append,
      List.dropWhile_append_of_pos hr]

theorem replaceScan_zero_cons (old new : Str) (c : Fin 256) (t : Str) :
    replaceScan old new 0 (c :: t) =
      if old.isPrefixOf (c :: t) then new ++ replaceScan old new (old.length - 1) t
      else c :: replaceScan old new 0 t := rfl

theorem replaceScan_succ_cons (old new : Str) (n : Nat) (c : Fin 256) (t : Str) :
    replaceScan old new (n + 1) (c :: t) = replaceScan old new n t := rfl

theorem replaceScan_append_left (old new : Str) (o : Fin 256) (os : Str) (ho : old = o :: os)
    (pre x : Str) (hpre : o ∉ pre) :
    replaceScan old new 0 (pre ++ x) = pre ++ replaceScan old new 0 x := by
  induction pre with
  | nil => rfl
  | cons c pre ih =>
    have hc : o ≠ c := fun e => hpre (e ▸ List.mem_cons_self _ _)
    have hpre' : o ∉ pre := fun h => hpre (List.mem_cons_of_mem _ h)
    have hnp : old.isPrefixOf (c :: (pre ++ x)) = false := by
      rw [ho]
      simp [List.isPrefixOf, hc]
    rw [List.cons_append, replaceScan_zero_cons, hnp]
    simp only [Bool.false_eq_true, if_false]
    rw [ih hpre', List.cons_append]

theorem prefix_of_prefix_append (l : Str) (e : Fin 256) (x suf : Str) (he : e ∉ suf)
    (h : l ++ [e] <+: x ++ suf) : l ++ [e] <+: x := by
  induction l generalizing x with
  | nil =>
    cases x with
    | nil =>
      exfalso
      apply he
      have : e ∈ ([] : Str) ++ [e] := by simp
      simpa using h.subset this
    | cons c x =>
      simp only [List.nil_append, List.cons_append, List.cons_prefix_cons] at h ⊢
      exact ⟨h.1, List.nil_prefix⟩
  | cons a l ih =>
    cases x with
    | nil =>
      exfalso
      apply he
      have : e ∈ a :: l ++ [e] := by simp
      simpa using h.subset this
    | cons c x =>
      simp only [List.cons_append, List.cons_prefix_cons] at h ⊢
      exact ⟨h.1, ih x h.2⟩

theorem replaceScan_append_right (old new : Str) (o e : Fin 256) (mid : Str)
    (ho : old = o :: (mid ++ [e])) (suf : Str) (h1 : o ∉ suf) (h2 : e ∉ suf) (n : Nat)
    (x : Str) (hn : n ≤ x.length) :
    replaceScan old new n (x ++ suf) = replaceScan old new n x ++ suf := by
  induction x generalizing n with
  | nil =>
    have hn0 : n = 0 := by simpa using hn
    subst hn0
    have := replaceScan_append_left old new o (mid ++ [e]) ho suf [] h1
    simpa [replaceScan] using this
  | cons c x ih =>
    cases n with
    | succ m =>
      rw [List.cons_append, replaceScan_succ_cons, replaceScan_succ_cons]
      exact ih m (by simpa using hn)
    | zero =>
      rw [List.cons_append, replaceScan_zero_cons, replaceScan_zero_cons]
      by_cases hp : old.isPrefixOf (c :: (x ++ suf)) = true
      · have hp1 : old <+: c :: x ++ suf := by
          simpa using List.isPrefixOf_iff_prefix.mp hp
        have hp2 : old <+: c :: x := by
          have := prefix_of_prefix_append (o :: mid) e (c :: x) suf h2 (by simpa [ho] using hp1)
          simpa [ho] using this
        have hp3 : old.isPrefixOf (c :: x) = true := List.isPrefixOf_iff_prefix.mpr hp2
        have hlen : old.length - 1 ≤ x.length := by
          have := hp2.length_le
          simp only [List.length_cons] at this
          omega
        simp only [hp, hp3, if_true]
        rw [ih _ hlen, List.append_assoc]
      · have hp3 : ¬ old.isPrefixOf (c :: x) = true := by
          intro h
          apply hp
          have h' : old <+: c :: x := List.isPrefixOf_iff_prefix.mp h
          exact List.isPrefixOf_iff_prefix.mpr (h'.trans (List.prefix_append (c :: x) suf))
        simp only [hp, hp3, if_false]
        rw [ih 0 (Nat.zero_le _)]
        simp

/-- Replacing a placeholder passes over leading and trailing bytes that are
neither `$` nor the closing brace. -/
theorem ReplaceAll_placeholder_append (name new pre a suf : Str)
    (hp1 : (36 : Fin 256) ∉ pre) (hs1 : (36 : Fin 256) ∉ suf) (hs2 : (125 : Fin 256) ∉ suf) :
    ReplaceAll (pre ++ a ++ suf) (SprintfPlaceholder name) new =
      pre ++ ReplaceAll a (SprintfPlaceholder name) new ++ suf := by
  have ho : SprintfPlaceholder name = 36 :: ((123 :: name) ++ [125]) := by
    have e1 : str "$\x7b" = [36, 123] := by decide
    have e2 : str "\x7d" = [125] := by decide
    simp [SprintfPlaceholder, e1, e2]
  unfold ReplaceAll
  rw [List.append_assoc,
    replaceScan_append_left _ new 36 _ ho pre (a ++ suf) hp1,
    replaceScan_append_right _ new 36 125 _ ho suf hs1 hs2 0 a (Nat.zero_le _),
    List.append_assoc]

theorem expandStep_eq (lib : Strings) (D : GoMap Descriptor) (pd : Descriptor) (v sk : Str) :
    expandStep lib D pd v sk =
      match valueIn D sk with
      | none => v
      | some x => lib.Trim (ReplaceAll v (SprintfPlaceholder sk) x) pd.Delimiter.ValueString := by
  unfold expandStep valueIn
  cases GoMap.lookup D sk <;> rfl

/-- Once the running value is the trim of the untrimmed one, it stays so. -/
theorem foldl_expandStep_of_trimmed (lib : Strings) (D : GoMap Descriptor) (pd : Descriptor)
    (hT : ∀ v, lib.Trim v pd.Delimiter.ValueString = trimBytes v pd.Delimiter.ValueString)
    (h36 : (36 : Fin 256) ∉ pd.Delimiter.ValueString)
    (h125 : (125 : Fin 256) ∉ pd.Delimiter.ValueString) (ks : List Str) (a b : Str)
    (hab : a = trimBytes b pd.Delimiter.ValueString) :
    ks.foldl (expandStep lib D pd) a =
      trimBytes (substitute (valueIn D) ks b) pd.Delimiter.ValueString := by
  induction ks generalizing a b with
  | nil => exact hab
  | cons sk ks ih =>
    simp only [List.foldl_cons, substitute]
    rw [expandStep_eq]
    cases hc : valueIn D sk with
    | none => exact ih a b hab
    | some x =>
      simp only
      apply ih
      obtain ⟨pre, suf, hpre, hsuf, hb⟩ := trimBytes_decompose b pd.Delimiter.ValueString
      have e1 : ReplaceAll b (SprintfPlaceholder sk) x =
          pre ++ ReplaceAll a (SprintfPlaceholder sk) x ++ suf := by
        rw [hab]
        conv_lhs => rw [hb]
        exact ReplaceAll_placeholder_append sk x pre _ suf
          (fun h => h36 (hpre _ h)) (fun h => h36 (hsuf _ h)) (fun h => h125 (hsuf _ h))
      rw [hT, e1, trimBytes_append _ _ _ _ hpre hsuf]

/-- The inner loop of the interpolation pass, with a bytewise trim by a
delimiter without `$` and closing brace: as soon as one of the names it
visits is in the map, its result is the substitution without trims, trimmed
once at the end. -/
theorem foldl_expandStep (lib : Strings) (D : GoMap Descriptor) (pd : Descriptor)
    (hT : ∀ v, lib.Trim v pd.Delimiter.ValueString = trimBytes v pd.Delimiter.ValueString)
    (h36 : (36 : Fin 256) ∉ pd.Delimiter.ValueString)
    (h125 : (125 : Fin 256) ∉ pd.Delimiter.ValueString) (ks : List Str) (v : Str)
    (hhit : ∃ sk ∈ ks, (valueIn D sk).isSome = true) :
    ks.foldl (expandStep lib D pd) v =
      lib.Trim (substitute (valueIn D) ks v) pd.Delimiter.ValueString := by
  rw [hT]
  induction ks generalizing v with
  | nil =>
    obtain ⟨sk, hsk, -⟩ := hhit
    cases hsk
  | cons sk ks ih =>
    simp only [List.foldl_cons, substitute]
    rw [expandStep_eq]
    cases hc : valueIn D sk with
    | none =>
      simp only
      apply ih
      obtain ⟨sk', hsk', hs⟩ := hhit
      rcases List.mem_cons.mp hsk' with e | hmem
      · rw [e, hc] at hs
        cases hs
      · exact ⟨sk', hmem, hs⟩
    | some x =>
      simp only
      exact foldl_expandStep_of_trimmed lib D pd hT h36 h125 ks _ _ (hT _)

theorem substitute_congr (cur cur' : Str → Option Str) (ks : List Str) (v : Str)
    (h : ∀ sk, cur sk = cur' sk) : substitute cur ks v = substitute cur' ks v := by
  have : cur = cur' := funext h
  rw [this]

theorem expandAll_append (lib : Strings) (l1 l2 : List Str) (inner : Str → List Str)
    (D : GoMap Descriptor) :
    expandAll lib (l1 ++ l2) inner D = expandAll lib l2 inner (expandAll lib l1 inner D) := by
  unfold expandAll
  rw [List.foldl_append]

theorem expandAll_lookup_of_not_mem (lib : Strings) (outer : List Str) (inner : Str → List Str)
    (D : GoMap Descriptor) (k : Str) (hk : k ∉ outer) :
    GoMap.lookup (expandAll lib outer inner D) k = GoMap.lookup D k := by
  induction outer generalizing D with
  | nil => rfl
  | cons pk outer ih =>
    have e : expandAll lib (pk :: outer) inner D =
        expandAll lib outer inner (expandOne lib inner D pk) := rfl
    have h1 : k ∉ outer := fun h => hk (List.mem_cons_of_mem _ h)
    have h2 : ¬ pk = k := fun h => hk (h ▸ List.mem_cons_self _ _)
    rw [e, ih _ h1, expandOne_lookup]
    simp only [h2, if_false]

theorem split_at_mem (outer : List Str) (pk : Str) (h : pk ∈ outer) :
    ∃ after, outer = outer.takeWhile (fun k => decide (k ≠ pk)) ++ pk :: after := by
  induction outer with
  | nil => cases h
  | cons a l ih =>
    by_cases ha : a = pk
    · subst ha
      exact ⟨l, by simp [List.takeWhile]⟩
    · have hmem : pk ∈ l := by
        rcases List.mem_cons.mp h with e | hm
        · exact absurd e.symm ha
        · exact hm
      obtain ⟨after, hafter⟩ := ih hmem
      refine ⟨after, ?_⟩
      have : (a :: l).takeWhile (fun k => decide (k ≠ pk)) =
          a :: l.takeWhile (fun k => decide (k ≠ pk)) := by
        simp [List.takeWhile, ha]
      rw [this, List.cons_append, ← hafter]

/-- The outer loop at the key `pk`: the final descriptor of `pk` comes from
one run of the inner loop over the map as the keys before `pk` left it, and
that map holds the final descriptors of the keys before `pk` and the
evaluated ones of all others. -/
theorem expandAll_lookup_at (lib : Strings) (outer : List Str) (inner : Str → List Str)
    (E : GoMap Descriptor) (pk : Str) (hnd : outer.Nodup) (hmem : pk ∈ outer) :
    GoMap.lookup (expandAll lib outer inner E) pk =
      (GoMap.lookup E pk).map (fun pd =>
        { pd with
          Value := StringValue ((inner pk).foldl
            (expandStep lib (expandAll lib (outer.takeWhile (fun k => decide (k ≠ pk))) inner E) pd)
            pd.Value.ValueString) }) ∧
    ∀ sk, GoMap.lookup (expandAll lib (outer.takeWhile (fun k => decide (k ≠ pk))) inner E) sk =
      if sk ∈ outer.takeWhile (fun k => decide (k ≠ pk)) then
        GoMap.lookup (expandAll lib outer inner E) sk
      else GoMap.lookup E sk := by
  obtain ⟨after, hsplit⟩ := split_at_mem outer pk hmem
  generalize hb : outer.takeWhile (fun k => decide (k ≠ pk)) = before at hsplit ⊢
  have hpkb : pk ∉ before := by
    intro h
    rw [← hb] at h
    have := List.mem_takeWhile_imp h
    simp at this
  rw [hsplit] at hnd
  have hnd2 := List.nodup_append.mp hnd
  have hpka : pk ∉ after := (List.nodup_cons.mp hnd2.2.1).1
  have hfinal : expandAll lib outer inner E =
      expandAll lib after inner (expandOne lib inner (expandAll lib before inner E) pk) := by
    rw [hsplit, expandAll_append]
    rfl
  constructor
  · rw [hfinal, expandAll_lookup_of_not_mem lib after inner _ pk hpka, expandOne_lookup,
      expandAll_lookup_of_not_mem lib before inner E pk hpkb]
    simp
  · intro sk
    by_cases hsk : sk ∈ before
    · have hska : sk ∉ pk :: after := fun h => hnd2.2.2 hsk h
      have hne : ¬ pk = sk := fun e => hska (e ▸ List.mem_cons_self _ _)
      have hska' : sk ∉ after := fun h => hska (List.mem_cons_of_mem _ h)
      simp only [hsk, if_true]
      rw [hfinal, expandAll_lookup_of_not_mem lib after inner _ sk hska', expandOne_lookup]
      simp only [hne, if_false]
    · simp only [hsk, if_false]
      exact expandAll_lookup_of_not_mem lib before inner E sk hsk

/-- The evaluated map holds the evaluated values. -/
theorem valueIn_evaluate (lib : Strings) (s : Sched) (child parent : Model) (ev : Evaluated)
    (hv : GoMap.Traversal (mergeDescriptors s child parent) s.computeOrder)
    (h : evaluate lib s child parent = some ev) (sk : Str) :
    valueIn ev.descs sk = evaluatedValue lib s child parent sk := by
  unfold valueIn evaluatedValue
  rw [evaluate_lookup lib s child parent ev hv h sk]
  cases GoMap.lookup (mergeDescriptors s child parent) sk with
  | none => rfl
  | some d =>
    dsimp only
    cases d.Compute lib (attributesMapOf s child parent) (attributesOf child parent) <;> rfl

theorem specResolve_placeholder (am : GoMap Str) (at_ : List Str) (name : Str)
    (hm : GoMap.lookup am (str "$" ++ name) = none) :
    specResolve am at_ (str "$" ++ name) = [SprintfPlaceholder name] := by
  have e1 : str "$" = [36] := by decide
  have hne : ¬ (str "$" ++ name = str "attributes") := by
    intro h
    have e2 : (str "attributes").head? = some 97 := by decide
    have := congrArg List.head? h
    rw [e1, e2] at this
    simp at this
  have hp : (str "$").isPrefixOf (str "$" ++ name) = true := by
    rw [List.isPrefixOf_iff_prefix]
    exact List.prefix_append _ _
  unfold specResolve
  simp only [hm, hne, if_false, hp, if_true]
  rw [e1]
  rfl

theorem emit_placeholder (lib : Strings) (d : Descriptor) (name : Str) :
    d.emit lib (SprintfPlaceholder name) = SprintfPlaceholder name := by
  have hp : HasPrefix (SprintfPlaceholder name) (str "$") = true := by
    have e1 : str "$" = [36] := by decide
    have e2 : str "$\x7b" = [36, 123] := by decide
    unfold HasPrefix SprintfPlaceholder
    rw [e1, e2]
    rfl
  unfold Descriptor.emit
  simp only [hp, if_true]

/-- The cleaned parts of a descriptor, before the reversal, in terms of the
resolver of the specification. -/
theorem partsClean_unreversed (lib : Strings) (d : Descriptor) (am : GoMap Str)
    (at_ : List Str) (o : List (Val Str)) :
    ({ d with Order := o, Reverse := Val.known false } : Descriptor).partsClean lib am at_ =
      (((o.map Val.ValueString).flatMap (specResolve am at_)).filter
        (fun p => decide (p ≠ []))).map (d.emit lib) := by
  rw [partsClean_eq, parts_fst]
  rfl

theorem emit_eq_specTransform (lib : Strings) (d : Descriptor) (p : Str) :
    d.emit lib p = if (str "$").isPrefixOf p then p else specTransform lib d p := rfl

theorem upperByte_val (b : Fin 256) :
    (upperByte b).val = if 97 ≤ b.val ∧ b.val ≤ 122 then b.val - 32 else b.val := by
  unfold upperByte
  split
  · rename_i h
    show (b.val - 32) % 256 = b.val - 32
    have := b.isLt
    omega
  · rfl

theorem lowerByte_val (b : Fin 256) :
    (lowerByte b).val = if 65 ≤ b.val ∧ b.val ≤ 90 then b.val + 32 else b.val := by
  unfold lowerByte
  split
  · rename_i h
    show (b.val + 32) % 256 = b.val + 32
    omega
  · rfl

theorem upperByte_lowerByte (b : Fin 256) : upperByte (lowerByte b) = upperByte b := by
  apply Fin.ext
  rw [upperByte_val, upperByte_val, lowerByte_val]
  split_ifs <;> omega

theorem upperByte_upperByte (b : Fin 256) : upperByte (upperByte b) = upperByte b := by
  apply Fin.ext
  rw [upperByte_val, upperByte_val]
  split_ifs <;> omega

theorem titleScan_map_upperByte (prev : Fin 256) (l : Str) :
    titleScan prev (l.map upperByte) = l.map upperByte := by
  induction l generalizing prev with
  | nil => rfl
  | cons c l ih =>
    simp only [List.map_cons, titleScan, ih, upperByte_upperByte, ite_self]

/-- The value of `Compute` is determined by the limit and the joined string. -/
theorem Compute_value_congr (lib : Strings) (d d' : Descriptor) (am am' : GoMap Str)
    (at_ at' : List Str) (hl : d.Limit = d'.Limit)
    (hj : d.joined lib am at_ = d'.joined lib am' at') :
    (d.Compute lib am at_).map (fun c => c.d.Value) =
      (d'.Compute lib am' at').map (fun c => c.d.Value) := by
  unfold Descriptor.Compute
  simp only [hl, hj]
  split
  · split <;> rfl
  · rfl

/-- The joined string in terms of the resolver of the specification. -/
theorem joined_eq (lib : Strings) (d : Descriptor) (am : GoMap Str) (at_ : List Str) :
    d.joined lib am at_ =
      Join (if d.Reverse.ValueBool then
          ((((d.Order.map Val.ValueString).flatMap (specResolve am at_)).filter
            (fun p => decide (p ≠ []))).map (d.emit lib)).reverse
        else (((d.Order.map Val.ValueString).flatMap (specResolve am at_)).filter
            (fun p => decide (p ≠ []))).map (d.emit lib)) d.Delimiter.ValueString := by
  unfold Descriptor.joined
  rw [partsClean_eq, parts_fst]

theorem specResolve_filter_attributes (am : GoMap Str) (at_ : List Str) (key : Str) :
    (specResolve am (at_.filter (fun a => decide (a ≠ []))) key).filter
        (fun p => decide (p ≠ [])) =
      (specResolve am at_ key).filter (fun p => decide (p ≠ [])) := by
  unfold specResolve
  cases GoMap.lookup am key with
  | some v => rfl
  | none =>
    simp only
    split
    · rw [List.filter_filter]
      simp
    · rfl

theorem flatMap_specResolve_filter_attributes (am : GoMap Str) (at_ : List Str)
    (keys : List Str) :
    (keys.flatMap (specResolve am (at_.filter (fun a => decide (a ≠ []))))).filter
        (fun p => decide (p ≠ [])) =
      (keys.flatMap (specResolve am at_)).filter (fun p => decide (p ≠ [])) := by
  induction keys with
  | nil => rfl
  | cons k ks ih =>
    simp only [List.flatMap_cons, List.filter_append, ih, specResolve_filter_attributes]

theorem head?_dropWhile_false (p : Fin 256 → Bool) (l : Str) (b : Fin 256)
    (h : (l.dropWhile p).head? = some b) : p b = false := by
  have := List.head?_dropWhile_not p l
  rw [h] at this
  exact this

/-- The bytewise trim does not end with a byte of the cutset. -/
theorem trimBytes_getLast (s cutset : Str) (b : Fin 256)
    (h : (trimBytes s cutset).getLast? = some b) : b ∉ cutset := by
  unfold trimBytes at h
  rw [List.getLast?_reverse] at h
  have := head?_dropWhile_false _ _ b h
  simpa using this

/-- The bytewise trim does not begin with a byte of the cutset. -/
theorem trimBytes_head (s cutset : Str) (b : Fin 256)
    (h : (trimBytes s cutset).head? = some b) : b ∉ cutset := by
  let p : Fin 256 → Bool := fun x => decide (x ∈ cutset)
  have h2 : s.dropWhile p =
      ((s.dropWhile p).reverse.dropWhile p).reverse ++
        ((s.dropWhile p).reverse.takeWhile p).reverse := by
    have h1 : (s.dropWhile p).reverse =
        (s.dropWhile p).reverse.takeWhile p ++ (s.dropWhile p).reverse.dropWhile p :=
      (List.takeWhile_append_dropWhile p _).symm
    have := congrArg List.reverse h1
    rw [List.reverse_reverse, List.reverse_append] at this
    exact this
  have h3 : (s.dropWhile p).head? = some b := by
    rw [h2, List.head?_append]
    have h' : (((s.dropWhile p).reverse.dropWhile p).reverse).head? = some b := h
    rw [h']
    rfl
  have := head?_dropWhile_false p s b h3
  simpa [p] using this

/-- The bytewise trim is idempotent. -/
theorem trimBytes_idem (s cutset : Str) :
    trimBytes (trimBytes s cutset) cutset = trimBytes s cutset := by
  obtain ⟨pre, suf, hpre, hsuf, hs⟩ := trimBytes_decompose s cutset
  have := trimBytes_append pre (trimBytes s cutset) suf cutset hpre hsuf
  rw [← hs] at this
  exact this.symm

/-- The inner loop ends with a trim as soon as it visits a name of the map. -/
theorem foldl_expandStep_is_trim (lib : Strings) (D : GoMap Descriptor) (pd : Descriptor)
    (ks : List Str) (v : Str)
    (h : (∃ z, v = lib.Trim z pd.Delimiter.ValueString) ∨
      ∃ sk ∈ ks, (valueIn D sk).isSome = true) :
    ∃ z, ks.foldl (expandStep lib D pd) v = lib.Trim z pd.Delimiter.ValueString := by
  induction ks generalizing v with
  | nil =>
    rcases h with h | ⟨sk, hsk, -⟩
    · exact h
    · cases hsk
  | cons sk ks ih =>
    simp only [List.foldl_cons]
    apply ih
    rw [expandStep_eq]
    cases hc : valueIn D sk with
    | none =>
      simp only
      rcases h with h | ⟨sk', hsk', hs⟩
      · exact Or.inl h
      · rcases List.mem_cons.mp hsk' with e | hmem
        · rw [e, hc] at hs
          cases hs
        · exact Or.inr ⟨sk', hmem, hs⟩
    | some x => exact Or.inl ⟨_, rfl⟩

/-- Under a valid schedule every final value is the result of a trim by the
delimiter of its descriptor: the last thing the inner loop does. -/
theorem Read_final_is_trim (lib : Strings) (s : Sched) (child parent : Model)
    (hv : s.Valid child parent) (r : ReadResponse) (hr : Read lib s child parent = some r)
    (pk : Str) (pd : Descriptor) (hpd : GoMap.lookup r.Descriptors pk = some pd) :
    ∃ z, pd.Value = Val.known (lib.Trim z pd.Delimiter.ValueString) := by
  obtain ⟨hv1, hv2, hv3, hv4, hv5, hv6⟩ := hv
  obtain ⟨ev, hev, -, -, -, hD, -⟩ := Read_eq_some lib s child parent r hr
  have hdef := Read_definition lib s child parent r hr pk
  rw [hpd] at hdef
  obtain ⟨d0, hd0⟩ : ∃ d0, GoMap.lookup (mergeDescriptors s child parent) pk = some d0 := by
    cases hm : GoMap.lookup (mergeDescriptors s child parent) pk with
    | none => simp [hm] at hdef
    | some d0 => exact ⟨d0, rfl⟩
  have hevdef := computeAll_definition lib _ _ _ _ _ hev pk
  obtain ⟨e, he⟩ : ∃ e, GoMap.lookup ev.descs pk = some e := by
    cases hm : GoMap.lookup ev.descs pk with
    | none =>
      rw [hm] at hevdef
      have : GoMap.lookup (mergeDescriptors s child parent) pk = none := by
        simpa using hevdef.symm
      rw [this] at hd0
      cases hd0
    | some e => exact ⟨e, rfl⟩
  have hmemO : pk ∈ s.expandOuterOrder := hv5.covers hd0
  have hmemI : pk ∈ s.expandInnerOrder pk := (hv6 pk).covers hd0
  obtain ⟨hat, hstate⟩ := expandAll_lookup_at lib s.expandOuterOrder s.expandInnerOrder ev.descs
    pk hv5.1 hmemO
  rw [← hD, hpd, he] at hat
  simp only [Option.map_some', Option.some.injEq] at hat
  have hpkb : pk ∉ s.expandOuterOrder.takeWhile (fun k => decide (k ≠ pk)) := by
    intro h
    have := List.mem_takeWhile_imp h
    simp at this
  have hhit : ∃ sk ∈ s.expandInnerOrder pk, (valueIn (expandAll lib
      (s.expandOuterOrder.takeWhile (fun k => decide (k ≠ pk))) s.expandInnerOrder ev.descs)
      sk).isSome = true := by
    refine ⟨pk, hmemI, ?_⟩
    unfold valueIn
    rw [hstate pk, if_neg hpkb, he]
    rfl
  obtain ⟨z, hz⟩ := foldl_expandStep_is_trim lib _ e (s.expandInnerOrder pk)
    e.Value.ValueString (Or.inr hhit)
  refine ⟨z, ?_⟩
  rw [hat]
  simp only [StringValue, hz]

/-- Replacing a string that does not occur changes nothing. -/
theorem ReplaceAll_of_not_occurs (old new s : Str) (h : occursIn old s = false) :
    ReplaceAll s old new = s := by
  unfold ReplaceAll
  induction s with
  | nil => rfl
  | cons c t ih =>
    simp only [occursIn, Bool.or_eq_false_iff] at h
    rw [replaceScan_zero_cons, h.1]
    simp only [Bool.false_eq_true, if_false]
    rw [ih h.2]

/-- On a resolved map whose values are fixed by the trim of their delimiter,
one iteration of the outer loop changes no lookup. -/
theorem expandOne_of_resolved (lib : Strings) (inner : Str → List Str) (D : GoMap Descriptor)
    (hres : ∀ p pd sk sd, GoMap.lookup D p = some pd → GoMap.lookup D sk = some sd →
      occursIn (SprintfPlaceholder sk) pd.Value.ValueString = false)
    (htrim : ∀ p pd, GoMap.lookup D p = some pd →
      lib.Trim pd.Value.ValueString pd.Delimiter.ValueString = pd.Value.ValueString)
    (hknown : ∀ p pd, GoMap.lookup D p = some pd → pd.Value = Val.known pd.Value.ValueString)
    (pk k : Str) :
    GoMap.lookup (expandOne lib inner D pk) k = GoMap.lookup D k := by
  rw [expandOne_lookup]
  split
  · rename_i hk
    subst hk
    cases hl : GoMap.lookup D pk with
    | none => rfl
    | some pd =>
      have hfold : ∀ ks : List Str,
          ks.foldl (expandStep lib D pd) pd.Value.ValueString = pd.Value.ValueString := by
        intro ks
        induction ks with
        | nil => rfl
        | cons sk ks ih =>
          rw [List.foldl_cons]
          have hstep : expandStep lib D pd pd.Value.ValueString sk = pd.Value.ValueString := by
            unfold expandStep
            cases hs : GoMap.lookup D sk with
            | none => rfl
            | some sd =>
              simp only
              rw [ReplaceAll_of_not_occurs _ _ _ (hres pk pd sk sd hl hs), htrim pk pd hl]
          rw [hstep, ih]
      simp only [Option.map_some', hfold, StringValue]
      have hk := hknown pk pd hl
      obtain ⟨o, dl, u, l, t, r, lim, v⟩ := pd
      simp only at hk
      simp only [← hk]
  · rfl

/-- On a resolved map whose values are fixed by the trim of their delimiter,
the interpolation pass changes no lookup. -/
theorem expandAll_of_resolved (lib : Strings) (outer : List Str) (inner : Str → List Str)
    (D : GoMap Descriptor)
    (hres : ∀ p pd sk sd, GoMap.lookup D p = some pd → GoMap.lookup D sk = some sd →
      occursIn (SprintfPlaceholder sk) pd.Value.ValueString = false)
    (htrim : ∀ p pd, GoMap.lookup D p = some pd →
      lib.Trim pd.Value.ValueString pd.Delimiter.ValueString = pd.Value.ValueString)
    (hknown : ∀ p pd, GoMap.lookup D p = some pd → pd.Value = Val.known pd.Value.ValueString)
    (k : Str) :
    GoMap.lookup (expandAll lib outer inner D) k = GoMap.lookup D k := by
  induction outer with
  | nil => rfl
  | cons pk outer ih =>
    have e : expandAll lib (pk :: outer) inner D =
        expandAll lib outer inner (expandOne lib inner D pk) := rfl
    rw [e, expandAll_congr lib outer inner _ D
      (fun k' => expandOne_of_resolved lib inner D hres htrim hknown pk k') k]
    exact ih

/-- A schedule whose inner order is the same list at every key is valid as
soon as its lists are traversals. -/
theorem Sched.valid_of_inner_const {s : Sched} {child parent : Model}
    (h1 : GoMap.Traversal child.AttributesMap s.mergeAttributesMapOrder)
    (h2 : GoMap.Traversal child.Descriptors s.mergeDescriptorsOrder)
    (h3 : GoMap.Traversal (mergeAttributesMap s child parent) s.copyAttributesMapOrder)
    (h4 : GoMap.Traversal (mergeDescriptors s child parent) s.computeOrder)
    (h5 : GoMap.Traversal (mergeDescriptors s child parent) s.expandOuterOrder)
    (ks : List Str) (h6 : GoMap.Traversal (mergeDescriptors s child parent) ks)
    (h7 : ∀ pk, s.expandInnerOrder pk = ks) : s.Valid child parent :=
  ⟨h1, h2, h3, h4, h5, fun pk => (h7 pk).symm ▸ h6⟩

theorem first_size (c : Fin 256) (sz lo hi : Nat) (h : first c = some (sz, lo, hi)) :
    194 ≤ c.val ∧ 2 ≤ sz ∧ sz ≤ 4 ∧ 128 ≤ lo ∧ hi ≤ 191 ∧ (sz = 2 → c.val ≤ 223) ∧
      (sz = 3 → c.val % 16 = 0 → 160 ≤ lo) ∧ (sz = 4 → c.val % 8 = 0 → 144 ≤ lo) := by
  unfold first at h
  split_ifs at h <;> simp only [Option.some.injEq, Prod.mk.injEq, reduceCtorEq] at h <;>
    (obtain ⟨rfl, rfl, rfl⟩ := h; omega)

theorem RuneStart_false_of (c : Fin 256) (h1 : 128 ≤ c.val) (h2 : c.val ≤ 191) :
    RuneStart c = false := by
  simp [RuneStart, h1, h2]

/-- The shapes of a result of `DecodeRuneInString`. -/
theorem Decode_cases (s : Str) :
    (s = [] ∧ DecodeRuneInString s = (RuneError, 0)) ∨
    (∃ b t, s = b :: t ∧ b.val < 128 ∧ DecodeRuneInString s = (b.val, 1)) ∨
    (∃ b t, s = b :: t ∧ 128 ≤ b.val ∧ DecodeRuneInString s = (RuneError, 1)) ∨
    (∃ s0 s1 t, s = s0 :: s1 :: t ∧ 194 ≤ s0.val ∧ RuneStart s1 = false ∧
      (DecodeRuneInString s).2 = 2 ∧ 128 ≤ (DecodeRuneInString s).1) ∨
    (∃ s0 s1 s2 t, s = s0 :: s1 :: s2 :: t ∧ 194 ≤ s0.val ∧ RuneStart s1 = false ∧
      RuneStart s2 = false ∧ (DecodeRuneInString s).2 = 3 ∧ 128 ≤ (DecodeRuneInString s).1) ∨
    (∃ s0 s1 s2 s3 t, s = s0 :: s1 :: s2 :: s3 :: t ∧ 194 ≤ s0.val ∧ RuneStart s1 = false ∧
      RuneStart s2 = false ∧ RuneStart s3 = false ∧ (DecodeRuneInString s).2 = 4 ∧
      128 ≤ (DecodeRuneInString s).1) := by
  cases s with
  | nil => exact Or.inl ⟨rfl, rfl⟩
  | cons s0 t =>
    right
    by_cases h0 : s0.val < 128
    · exact Or.inl ⟨s0, t, rfl, h0, by simp [DecodeRuneInString, h0]⟩
    · right
      have h128 : 128 ≤ s0.val := by omega
      cases hf : first s0 with
      | none => exact Or.inl ⟨s0, t, rfl, h128, by simp [DecodeRuneInString, h0, hf]⟩
      | some x =>
        obtain ⟨sz, lo, hi⟩ := x
        obtain ⟨hs0, hsz2, hsz4, hlo, hhi, hC2, hE0, hF0⟩ := first_size s0 sz lo hi hf
        cases t with
        | nil =>
          have hlen : 1 < sz := by omega
          exact Or.inl ⟨s0, [], rfl, h128, by simp [DecodeRuneInString, h0, hf, hlen]⟩
        | cons s1 t1 =>
          by_cases hlen : t1.length + 1 + 1 < sz
          · exact Or.inl ⟨s0, _, rfl, h128, by simp [DecodeRuneInString, h0, hf, hlen]⟩
          by_cases h1 : s1.val < lo ∨ hi < s1.val
          · exact Or.inl ⟨s0, _, rfl, h128, by simp [DecodeRuneInString, h0, hf, hlen, h1]⟩
          have hc1 : RuneStart s1 = false := RuneStart_false_of s1 (by omega) (by omega)
          by_cases h2 : sz ≤ 2
          · right; left
            refine ⟨s0, s1, t1, rfl, hs0, hc1, ?_, ?_⟩ <;>
              simp [DecodeRuneInString, h0, hf, hlen, h1, h2]
            have := hC2 (by omega)
            omega
          cases t1 with
          | nil =>
            have hlen2 : 1 + 1 < sz := by omega
            exact Or.inl ⟨s0, _, rfl, h128, by simp [DecodeRuneInString, h0, hf, hlen2]⟩
          | cons s2 t2 =>
            replace hlen : ¬ t2.length + 1 + 1 + 1 < sz := by simpa using hlen
            by_cases h3 : s2.val < 128 ∨ 191 < s2.val
            · exact Or.inl ⟨s0, _, rfl, h128,
                by simp [DecodeRuneInString, h0, hf, hlen, h1, h2, h3]⟩
            have hc2 : RuneStart s2 = false := RuneStart_false_of s2 (by omega) (by omega)
            by_cases h4 : sz ≤ 3
            · right; right; left
              refine ⟨s0, s1, s2, t2, rfl, hs0, hc1, hc2, ?_, ?_⟩ <;>
                simp [DecodeRuneInString, h0, hf, hlen, h1, h2, h3, h4]
              have := hE0 (by omega)
              omega
            cases t2 with
            | nil =>
              have hlen3 : 1 + 1 + 1 < sz := by omega
              exact Or.inl ⟨s0, _, rfl, h128, by simp [DecodeRuneInString, h0, hf, hlen3]⟩
            | cons s3 t3 =>
              replace hlen : ¬ t3.length + 1 + 1 + 1 + 1 < sz := by simpa using hlen
              by_cases h5 : s3.val < 128 ∨ 191 < s3.val
              · exact Or.inl ⟨s0, _, rfl, h128,
                  by simp [DecodeRuneInString, h0, hf, hlen, h1, h2, h3, h4, h5]⟩
              have hc3 : RuneStart s3 = false := RuneStart_false_of s3 (by omega) (by omega)
              right; right; right
              refine ⟨s0, s1, s2, s3, t3, rfl, hs0, hc1, hc2, hc3, ?_, ?_⟩ <;>
                simp [DecodeRuneInString, h0, hf, hlen, h1, h2, h3, h4, h5]
              have := hF0 (by omega)
              omega

theorem Decode_size_le (s : Str) : (DecodeRuneInString s).2 ≤ s.length := by
  rcases Decode_cases s with ⟨rfl, h⟩ | ⟨b, t, rfl, -, h⟩ | ⟨b, t, rfl, -, h⟩ |
    ⟨s0, s1, t, rfl, -, -, h, -⟩ | ⟨s0, s1, s2, t, rfl, -, -, -, h, -⟩ |
    ⟨s0, s1, s2, s3, t, rfl, -, -, -, -, h, -⟩ <;> rw [h] <;> simp

theorem Decode_size_pos (s : Str) (hs : s ≠ []) : 1 ≤ (DecodeRuneInString s).2 := by
  rcases Decode_cases s with ⟨rfl, -⟩ | ⟨b, t, rfl, -, h⟩ | ⟨b, t, rfl, -, h⟩ |
    ⟨s0, s1, t, rfl, -, -, h, -⟩ | ⟨s0, s1, s2, t, rfl, -, -, -, h, -⟩ |
    ⟨s0, s1, s2, s3, t, rfl, -, -, -, -, h, -⟩
  · exact absurd rfl hs
  all_goals rw [h]
  all_goals omega

theorem Decode_rune_ge (b : Fin 256) (t : Str) (hb : 128 ≤ b.val) :
    128 ≤ (DecodeRuneInString (b :: t)).1 := by
  rcases Decode_cases (b :: t) with ⟨h, -⟩ | ⟨b1, t1, he, hlt, -⟩ | ⟨b1, t1, -, -, h⟩ |
    ⟨s0, s1, t1, -, -, -, -, h⟩ | ⟨s0, s1, s2, t1, -, -, -, -, -, h⟩ |
    ⟨s0, s1, s2, s3, t1, -, -, -, -, -, -, h⟩
  · cases h
  · cases he
    omega
  · rw [h]
    decide
  · exact h
  · exact h
  · exact h

/-- Behind the lead byte, the bytes of a decoded rune are continuation bytes. -/
theorem Decode_cont (s : Str) (p : Nat) (h1 : 1 ≤ p) (h2 : p < (DecodeRuneInString s).2) :
    ∃ c t, s.drop p = c :: t ∧ RuneStart c = false := by
  rcases Decode_cases s with ⟨rfl, h⟩ | ⟨b, t, rfl, -, h⟩ | ⟨b, t, rfl, -, h⟩ |
    ⟨s0, s1, t, rfl, -, c1, h, -⟩ | ⟨s0, s1, s2, t, rfl, -, c1, c2, h, -⟩ |
    ⟨s0, s1, s2, s3, t, rfl, -, c1, c2, c3, h, -⟩ <;> rw [h] at h2
  · simp at h2
  · simp at h2; omega
  · simp at h2; omega
  · obtain rfl : p = 1 := by omega
    exact ⟨s1, t, rfl, c1⟩
  · have : p = 1 ∨ p = 2 := by omega
    rcases this with rfl | rfl
    · exact ⟨s1, _, rfl, c1⟩
    · exact ⟨s2, _, rfl, c2⟩
  · have : p = 1 ∨ p = 2 ∨ p = 3 := by omega
    rcases this with rfl | rfl | rfl
    · exact ⟨s1, _, rfl, c1⟩
    · exact ⟨s2, _, rfl, c2⟩
    · exact ⟨s3, _, rfl, c3⟩

theorem Decode_not_start (c : Fin 256) (t : Str) (h : RuneStart c = false) :
    DecodeRuneInString (c :: t) = (RuneError, 1) := by
  have hc : 128 ≤ c.val ∧ c.val ≤ 191 := by simpa [RuneStart] using h
  have h1 : ¬ c.val < 128 := by omega
  have h2 : first c = none := by
    simp [first]
    omega
  simp [DecodeRuneInString, h1, h2]

theorem Decode_single (b : Fin 256) (h : 128 ≤ b.val) :
    DecodeRuneInString [b] = (RuneError, 1) := by
  rcases Decode_cases [b] with ⟨h, -⟩ | ⟨b1, t1, he, hlt, -⟩ | ⟨b1, t1, -, -, h⟩ |
    ⟨s0, s1, t1, he, -⟩ | ⟨s0, s1, s2, t1, he, -⟩ | ⟨s0, s1, s2, s3, t1, he, -⟩
  · cases h
  · cases he
    omega
  · exact h
  · cases he
  · cases he
  · cases he

theorem lastRuneSpan_pos (r : Str) (hr : r ≠ []) : 1 ≤ lastRuneSpan r := by
  rcases r with _ | ⟨b, _ | ⟨b2, _ | ⟨b3, _ | ⟨b4, r4⟩⟩⟩⟩
  · exact absurd rfl hr
  all_goals simp only [lastRuneSpan]
  all_goals first
    | omega
    | (split_ifs <;> omega)

theorem lastRuneSpan_le (r : Str) : lastRuneSpan r ≤ r.length := by
  rcases r with _ | ⟨b, _ | ⟨b2, _ | ⟨b3, _ | ⟨b4, r4⟩⟩⟩⟩
  all_goals simp only [lastRuneSpan, List.length_cons, List.length_nil]
  all_goals first
    | omega
    | (split_ifs <;> omega)

theorem lastRuneSpan_eq_one (r : Str) (h : lastRuneSpan r = 1) : ∃ b, r = [b] := by
  rcases r with _ | ⟨b, _ | ⟨b2, _ | ⟨b3, _ | ⟨b4, r4⟩⟩⟩⟩
  · simp [lastRuneSpan] at h
  · exact ⟨b, rfl⟩
  all_goals simp only [lastRuneSpan] at h
  all_goals split_ifs at h
  all_goals omega

/-- The scan finds the lead byte of a well-formed sequence at the end. -/
theorem DecodeLast_of_suffix (pre x : Str) (hk : 2 ≤ x.length)
    (hx : (DecodeRuneInString x).2 = x.length) :
    DecodeLastRuneInString (pre ++ x) = DecodeRuneInString x := by
  rcases Decode_cases x with ⟨rfl, h⟩ | ⟨b, t, rfl, -, h⟩ | ⟨b, t, rfl, -, h⟩ |
    ⟨s0, s1, t, rfl, h0, c1, h, -⟩ | ⟨s0, s1, s2, t, rfl, h0, c1, c2, h, -⟩ |
    ⟨s0, s1, s2, s3, t, rfl, h0, c1, c2, c3, h, -⟩
  · simp at hk
  · rw [h] at hx
    simp only [List.length_cons] at hx hk
    omega
  · rw [h] at hx
    simp only [List.length_cons] at hx hk
    omega
  · rw [h] at hx
    obtain rfl : t = [] := by
      simp only [List.length_cons] at hx
      exact List.length_eq_zero.mp (by omega)
    have hs0 : RuneStart s0 = true := by simp [RuneStart]; omega
    have hc : ¬ s1.val < 128 := by
      have : 128 ≤ s1.val ∧ s1.val ≤ 191 := by simpa [RuneStart] using c1
      omega
    have hd : (pre ++ [s0, s1]).drop ((pre ++ [s0, s1]).length - 2) = [s0, s1] := by
      simp
    simp only [DecodeLastRuneInString, List.reverse_append, List.reverse_cons, List.reverse_nil,
      List.nil_append, List.cons_append, hc, if_false, lastRuneSpan, hs0, if_true, hd, h]
    simp
  · rw [h] at hx
    obtain rfl : t = [] := by
      simp only [List.length_cons] at hx
      exact List.length_eq_zero.mp (by omega)
    have hs0 : RuneStart s0 = true := by simp [RuneStart]; omega
    have hc : ¬ s2.val < 128 := by
      have : 128 ≤ s2.val ∧ s2.val ≤ 191 := by simpa [RuneStart] using c2
      omega
    have hd : (pre ++ [s0, s1, s2]).drop ((pre ++ [s0, s1, s2]).length - 3) = [s0, s1, s2] := by
      simp
    simp only [DecodeLastRuneInString, List.reverse_append, List.reverse_cons, List.reverse_nil,
      List.nil_append, List.cons_append, hc, if_false, lastRuneSpan, hs0, if_true, hd, h, c1]
    simp [h]
  · rw [h] at hx
    obtain rfl : t = [] := by
      simp only [List.length_cons] at hx
      exact List.length_eq_zero.mp (by omega)
    have hc : ¬ s3.val < 128 := by
      have : 128 ≤ s3.val ∧ s3.val ≤ 191 := by simpa [RuneStart] using c3
      omega
    have hd : (pre ++ [s0, s1, s2, s3]).drop ((pre ++ [s0, s1, s2, s3]).length - 4)
        = [s0, s1, s2, s3] := by
      simp
    simp only [DecodeLastRuneInString, List.reverse_append, List.reverse_cons, List.reverse_nil,
      List.nil_append, List.cons_append, hc, if_false, lastRuneSpan, hd, h, c1, c2]
    simp [h]

/-- Without a well-formed sequence at the end, the last rune is `RuneError`. -/
theorem DecodeLast_invalid (s : Str) (b : Fin 256) (q : Str) (hs : s.reverse = b :: q)
    (hb : 128 ≤ b.val)
    (h : ∀ k, 2 ≤ k → k ≤ s.length → (DecodeRuneInString (s.drop (s.length - k))).2 ≠ k) :
    (DecodeLastRuneInString s).1 = RuneError := by
  have hc : ¬ b.val < 128 := by omega
  simp only [DecodeLastRuneInString, hs, hc, if_false]
  rw [← hs]
  split_ifs with hne
  · rfl
  · have hne : (DecodeRuneInString (s.drop (s.length - lastRuneSpan s.reverse))).2
        = lastRuneSpan s.reverse := by simpa using hne
    have hle : lastRuneSpan s.reverse ≤ s.length := by
      simpa using lastRuneSpan_le s.reverse
    by_cases h2 : 2 ≤ lastRuneSpan s.reverse
    · exact absurd hne (h _ h2 hle)
    · have hpos : 1 ≤ lastRuneSpan s.reverse := lastRuneSpan_pos _ (by rw [hs]; simp)
      have h1 : lastRuneSpan s.reverse = 1 := by omega
      obtain ⟨b1, hb1⟩ := lastRuneSpan_eq_one _ h1
      have hsb : s = [b] := by
        have : s.reverse = [b1] := hb1
        rw [hs] at this
        have hs2 : s = (b :: q).reverse := by rw [← hs, List.reverse_reverse]
        rw [hs2, this]
        cases this
        rfl
      subst hsb
      rw [h1]
      simp [Decode_single b hb]

theorem DecodeLast_ascii (s : Str) (b : Fin 256) (q : Str) (hs : s.reverse = b :: q)
    (hb : b.val < 128) : DecodeLastRuneInString s = (b.val, 1) := by
  simp [DecodeLastRuneInString, hs, hb]

/-- Taking the first rune off a string leaves its last rune as it is, as long
as something is left. -/
theorem DecodeLast_drop_first (s : Str) (hs : s.drop (DecodeRuneInString s).2 ≠ []) :
    (DecodeLastRuneInString (s.drop (DecodeRuneInString s).2)).1
      = (DecodeLastRuneInString s).1 := by
  obtain ⟨n, hn⟩ : ∃ n, (DecodeRuneInString s).2 = n := ⟨_, rfl⟩
  rw [hn] at hs ⊢
  have hnle : n ≤ s.length := hn ▸ Decode_size_le s
  have hlen : (s.drop n).length = s.length - n := List.length_drop n s
  have hsplit : s = s.take n ++ s.drop n := (List.take_append_drop n s).symm
  obtain ⟨b, q, hbq⟩ : ∃ b q, (s.drop n).reverse = b :: q := by
    cases h : (s.drop n).reverse with
    | nil => exact absurd (List.reverse_eq_nil_iff.mp h) hs
    | cons b q => exact ⟨b, q, rfl⟩
  have hrev : s.reverse = b :: (q ++ (s.take n).reverse) := by
    conv_lhs => rw [hsplit]
    rw [List.reverse_append, hbq]
    rfl
  by_cases hb : b.val < 128
  · rw [DecodeLast_ascii _ b q hbq hb, DecodeLast_ascii _ b _ hrev hb]
  have hb128 : 128 ≤ b.val := by omega
  have hdrop : ∀ k, k ≤ (s.drop n).length →
      s.drop (s.length - k) = (s.drop n).drop ((s.drop n).length - k) := by
    intro k hk
    rw [List.drop_drop, hlen]
    congr 1
    omega
  by_cases hex : ∃ k, 2 ≤ k ∧ k ≤ (s.drop n).length ∧
      (DecodeRuneInString ((s.drop n).drop ((s.drop n).length - k))).2 = k
  · obtain ⟨k, hk2, hkle, hk⟩ := hex
    have hxlen : ((s.drop n).drop ((s.drop n).length - k)).length = k := by
      rw [List.length_drop]
      omega
    have h1 := DecodeLast_of_suffix ((s.drop n).take ((s.drop n).length - k))
      ((s.drop n).drop ((s.drop n).length - k)) (by omega) (by omega)
    rw [List.take_append_drop] at h1
    have h2 := DecodeLast_of_suffix (s.take n ++ (s.drop n).take ((s.drop n).length - k))
      ((s.drop n).drop ((s.drop n).length - k)) (by omega) (by omega)
    rw [List.append_assoc, List.take_append_drop, List.take_append_drop] at h2
    rw [h1, h2]
  · have h1 : (DecodeLastRuneInString (s.drop n)).1 = RuneError :=
      DecodeLast_invalid _ b q hbq hb128 (fun k hk2 hkle hk => hex ⟨k, hk2, hkle, hk⟩)
    rw [h1]
    symm
    apply DecodeLast_invalid s b _ hrev hb128
    intro k hk2 hkle hk
    by_cases hks : k ≤ (s.drop n).length
    · exact hex ⟨k, hk2, hks, by rw [← hdrop k hks]; exact hk⟩
    · by_cases hp : s.length - k = 0
      · rw [hp, List.drop_zero, hn] at hk
        have : (s.drop n).length = 0 := by omega
        exact hs (List.length_eq_zero.mp this)
      · obtain ⟨c, t, hct, hc⟩ := Decode_cont s (s.length - k) (by omega) (by rw [hn]; omega)
        rw [hct, Decode_not_start c t hc] at hk
        simp at hk
        omega

theorem Decode_rune_ge_of_size (x : Str) (h : 2 ≤ (DecodeRuneInString x).2) :
    128 ≤ (DecodeRuneInString x).1 := by
  rcases Decode_cases x with ⟨rfl, h1⟩ | ⟨b, t, rfl, -, h1⟩ | ⟨b, t, rfl, -, h1⟩ |
    ⟨s0, s1, t, rfl, -, -, -, h1⟩ | ⟨s0, s1, s2, t, rfl, -, -, -, -, h1⟩ |
    ⟨s0, s1, s2, s3, t, rfl, -, -, -, -, -, h1⟩
  · rw [h1] at h; simp at h
  · rw [h1] at h; simp at h
  · rw [h1]; decide
  · exact h1
  · exact h1
  · exact h1

theorem DecodeLast_rune_ge (s : Str) (b : Fin 256) (q : Str) (hs : s.reverse = b :: q)
    (hb : 128 ≤ b.val) : 128 ≤ (DecodeLastRuneInString s).1 := by
  by_cases hex : ∃ k, 2 ≤ k ∧ k ≤ s.length ∧
      (DecodeRuneInString (s.drop (s.length - k))).2 = k
  · obtain ⟨k, hk2, hkle, hk⟩ := hex
    have hxlen : (s.drop (s.length - k)).length = k := by
      rw [List.length_drop]
      omega
    have h1 := DecodeLast_of_suffix (s.take (s.length - k)) (s.drop (s.length - k))
      (by omega) (by omega)
    rw [List.take_append_drop] at h1
    rw [h1]
    exact Decode_rune_ge_of_size _ (by omega)
  · rw [DecodeLast_invalid s b q hs hb (fun k hk2 hkle hk => hex ⟨k, hk2, hkle, hk⟩)]
    decide

theorem DecodeLast_size_pos (s : Str) (hs : s ≠ []) : 1 ≤ (DecodeLastRuneInString s).2 := by
  cases h : s.reverse with
  | nil => exact absurd (List.reverse_eq_nil_iff.mp h) hs
  | cons b q =>
    simp only [DecodeLastRuneInString, h]
    have hpos : 1 ≤ lastRuneSpan (b :: q) := lastRuneSpan_pos _ (by simp)
    split_ifs with h1 h2
    · simp
    · simp
    · have h2 : (DecodeRuneInString (s.drop (s.length - lastRuneSpan (b :: q)))).2
          = lastRuneSpan (b :: q) := by simpa using h2
      omega

theorem Decode_ascii (b : Fin 256) (t : Str) (h : b.val < 128) :
    DecodeRuneInString (b :: t) = (b.val, 1) := by
  simp [DecodeRuneInString, h]

theorem runesAux_ascii : ∀ (fuel : Nat) (s : Str), (∀ b ∈ s, b.val < 128) →
    ∀ r ∈ runesAux fuel s, ∃ b ∈ s, b.val = r
  | 0, _, _, r, hr => by simp [runesAux] at hr
  | fuel + 1, [], _, r, hr => by simp [runesAux] at hr
  | fuel + 1, b :: t, h, r, hr => by
    have hb : b.val < 128 := h b (List.mem_cons_self _ _)
    simp only [runesAux, Decode_ascii b t hb, List.drop_succ_cons, List.drop_zero,
      List.mem_cons] at hr
    simp only [reduceCtorEq, if_false, List.mem_cons] at hr
    rcases hr with rfl | hr
    · exact ⟨b, List.mem_cons_self _ _, rfl⟩
    · obtain ⟨b1, hb1, h1⟩ := runesAux_ascii fuel t
        (fun x hx => h x (List.mem_cons_of_mem _ hx)) r hr
      exact ⟨b1, List.mem_cons_of_mem _ hb1, h1⟩

theorem ContainsRune_ascii (cutset : Str) (hc : makeASCIISet cutset = true) (r : Nat)
    (h : ContainsRune cutset r = true) : ∃ b ∈ cutset, b.val = r := by
  have hall : ∀ b ∈ cutset, b.val < 128 := by
    simpa [makeASCIISet] using hc
  have hr : r ∈ runes cutset := by simpa [ContainsRune] using h
  exact runesAux_ascii _ _ hall r hr

theorem ContainsRune_nil (r : Nat) : ContainsRune [] r = false := by
  simp [ContainsRune, runes, runesAux]

theorem trimLeftUnicodeAux_nil (cutset : Str) : ∀ fuel, trimLeftUnicodeAux cutset fuel [] = []
  | 0 => rfl
  | _ + 1 => by simp [trimLeftUnicodeAux]

/-- The loop of `trimLeftUnicode` stops at a first rune that is not in the
cutset, and leaves the last rune of what remains as it was. -/
theorem trimLeftUnicodeAux_spec (cutset : Str) : ∀ (fuel : Nat) (s : Str), s.length ≤ fuel →
    beginsWithRuneOf (trimLeftUnicodeAux cutset fuel s) cutset = false ∧
    (trimLeftUnicodeAux cutset fuel s ≠ [] →
      (DecodeLastRuneInString (trimLeftUnicodeAux cutset fuel s)).1
        = (DecodeLastRuneInString s).1)
  | 0, s, h => by
    have : s = [] := List.length_eq_zero.mp (by omega)
    subst this
    exact ⟨rfl, fun _ => rfl⟩
  | fuel + 1, s, h => by
    by_cases hs : s = []
    · subst hs
      exact ⟨rfl, fun _ => rfl⟩
    by_cases hc : ContainsRune cutset (DecodeRuneInString s).1 = true
    · have hstep : trimLeftUnicodeAux cutset (fuel + 1) s
          = trimLeftUnicodeAux cutset fuel (s.drop (DecodeRuneInString s).2) := by
        simp [trimLeftUnicodeAux, hs, hc]
      rw [hstep]
      have hpos := Decode_size_pos s hs
      have hlen : (s.drop (DecodeRuneInString s).2).length ≤ fuel := by
        rw [List.length_drop]
        omega
      obtain ⟨ih1, ih2⟩ := trimLeftUnicodeAux_spec cutset fuel _ hlen
      refine ⟨ih1, fun hne => ?_⟩
      rw [ih2 hne]
      apply DecodeLast_drop_first
      intro h0
      rw [h0, trimLeftUnicodeAux_nil] at hne
      exact hne rfl
    · have hstep : trimLeftUnicodeAux cutset (fuel + 1) s = s := by
        simp [trimLeftUnicodeAux, hs, hc]
      rw [hstep]
      refine ⟨?_, fun _ => rfl⟩
      simpa [beginsWithRuneOf] using fun _ => hc

/-- The loop of `trimRightUnicode` stops at a last rune that is not in the cutset. -/
theorem trimRightUnicodeAux_spec (cutset : Str) : ∀ (fuel : Nat) (s : Str), s.length ≤ fuel →
    endsWithRuneOf (trimRightUnicodeAux cutset fuel s) cutset = false
  | 0, s, h => by
    have : s = [] := List.length_eq_zero.mp (by omega)
    subst this
    rfl
  | fuel + 1, s, h => by
    by_cases hs : s = []
    · subst hs
      rfl
    by_cases hc : ContainsRune cutset (DecodeLastRuneInString s).1 = true
    · have hstep : trimRightUnicodeAux cutset (fuel + 1) s
          = trimRightUnicodeAux cutset fuel
            (s.take (s.length - (DecodeLastRuneInString s).2)) := by
        simp [trimRightUnicodeAux, hs, hc]
      rw [hstep]
      have hpos := DecodeLast_size_pos s hs
      have hlen : (s.take (s.length - (DecodeLastRuneInString s).2)).length ≤ fuel := by
        rw [List.length_take]
        have : 0 < s.length := List.length_pos.mpr hs
        omega
      exact trimRightUnicodeAux_spec cutset fuel _ hlen
    · have hstep : trimRightUnicodeAux cutset (fuel + 1) s = s := by
        simp [trimRightUnicodeAux, hs, hc]
      rw [hstep]
      simpa [endsWithRuneOf] using fun _ => hc

theorem trimBytes_nil_cutset (s : Str) : trimBytes s [] = s := by
  have h : ∀ l : Str, l.dropWhile (fun b => decide (b ∈ ([] : Str))) = l := by
    intro l
    cases l with
    | nil => rfl
    | cons a t => simp [List.dropWhile]
  simp only [trimBytes, h, List.reverse_reverse]

/-- With an ASCII cutset `strings.Trim` is the bytewise trim. -/
theorem Trim_ascii (s cutset : Str) (hc : makeASCIISet cutset = true) :
    Trim s cutset = trimBytes s cutset := by
  unfold Trim
  split_ifs with h
  · rcases h with rfl | rfl
    · rfl
    · exact (trimBytes_nil_cutset s).symm
  · rfl

/-- A result of the bytewise trim by an ASCII cutset has no rune of the
cutset at its ends. -/
theorem trimBytes_edges (z cutset : Str) (hc : makeASCIISet cutset = true) :
    beginsWithRuneOf (trimBytes z cutset) cutset = false ∧
    endsWithRuneOf (trimBytes z cutset) cutset = false := by
  have hall : ∀ b ∈ cutset, b.val < 128 := by simpa [makeASCIISet] using hc
  constructor
  · cases hT : trimBytes z cutset with
    | nil => rfl
    | cons h t =>
      have hh : h ∉ cutset := trimBytes_head z cutset h (by rw [hT]; rfl)
      simp only [beginsWithRuneOf, List.isEmpty_cons, Bool.not_false, Bool.true_and]
      cases hcr : ContainsRune cutset (DecodeRuneInString (h :: t)).1 with
      | false => rfl
      | true =>
        exfalso
        obtain ⟨b, hb, hbr⟩ := ContainsRune_ascii cutset hc _ hcr
        by_cases hlt : h.val < 128
        · rw [Decode_ascii h t hlt] at hbr
          have : b = h := Fin.ext hbr
          exact hh (this ▸ hb)
        · have := Decode_rune_ge h t (by omega)
          have := hall b hb
          omega
  · cases hT : (trimBytes z cutset).reverse with
    | nil =>
      have : trimBytes z cutset = [] := List.reverse_eq_nil_iff.mp hT
      rw [this]
      rfl
    | cons l q =>
      have hne : trimBytes z cutset ≠ [] := by
        intro h0
        rw [h0] at hT
        cases hT
      have hlast : (trimBytes z cutset).getLast? = some l := by
        rw [List.getLast?_eq_head?_reverse, hT]
        rfl
      have hl : l ∉ cutset := trimBytes_getLast z cutset l hlast
      have hemp : (trimBytes z cutset).isEmpty = false := by
        cases h : trimBytes z cutset with
        | nil => exact absurd h hne
        | cons _ _ => rfl
      simp only [endsWithRuneOf, hemp, Bool.not_false, Bool.true_and]
      cases hcr : ContainsRune cutset (DecodeLastRuneInString (trimBytes z cutset)).1 with
      | false => rfl
      | true =>
        exfalso
        obtain ⟨b, hb, hbr⟩ := ContainsRune_ascii cutset hc _ hcr
        by_cases hlt : l.val < 128
        · rw [DecodeLast_ascii _ l q hT hlt] at hbr
          have : b = l := Fin.ext hbr
          exact hl (this ▸ hb)
        · have := DecodeLast_rune_ge _ l q hT (by omega)
          have := hall b hb
          omega

/-- A result of `strings.Trim` neither begins nor ends with a rune of the
cutset, whatever the bytes of the string and of the cutset. -/
theorem Trim_edges (z cutset : Str) :
    beginsWithRuneOf (Trim z cutset) cutset = false ∧
    endsWithRuneOf (Trim z cutset) cutset = false := by
  unfold Trim
  split_ifs with h1 h2
  · rcases h1 with rfl | rfl
    · exact ⟨rfl, rfl⟩
    · simp [beginsWithRuneOf, endsWithRuneOf, ContainsRune_nil]
  · exact trimBytes_edges z cutset h2
  · obtain ⟨hb, hl⟩ := trimLeftUnicodeAux_spec cutset (trimRightUnicode z cutset).length
      (trimRightUnicode z cutset) (le_refl _)
    have hr := trimRightUnicodeAux_spec cutset z.length z (le_refl _)
    refine ⟨hb, ?_⟩
    cases hT : trimLeftUnicode (trimRightUnicode z cutset) cutset with
    | nil => rfl
    | cons a t =>
      have hne : trimLeftUnicodeAux cutset (trimRightUnicode z cutset).length
          (trimRightUnicode z cutset) ≠ [] := by
        intro h0
        rw [trimLeftUnicode, h0] at hT
        cases hT
      have hl2 := hl hne
      have hRne : trimRightUnicode z cutset ≠ [] := by
        intro h0
        rw [h0] at hne
        exact hne (trimLeftUnicodeAux_nil _ _)
      rw [← hT]
      have hr2 : ContainsRune cutset (DecodeLastRuneInString (trimRightUnicode z cutset)).1
          = false := by
        have hemp : (trimRightUnicode z cutset).isEmpty = false := by
          cases h : trimRightUnicode z cutset with
          | nil => exact absurd h hRne
          | cons _ _ => rfl
        have := hr
        rw [← trimRightUnicode] at this
        simpa [endsWithRuneOf, hemp] using this
      have hemp2 : (trimLeftUnicode (trimRightUnicode z cutset) cutset).isEmpty = false := by
        rw [hT]
        rfl
      simp only [endsWithRuneOf, hemp2, Bool.not_false, Bool.true_and]
      rw [trimLeftUnicode, hl2]
      exact hr2

/-- The interpolation pass in closed form: under a valid schedule, for a
descriptor `pk` whose delimiter is trimmed bytewise (as Go does for an ASCII
cutset) and holds neither `$` nor the closing brace, the final value that
`Read` returns is the evaluated value of `pk` (the output of `Compute`) in
which, for each descriptor name in the order of the inner loop, every
occurrence of the placeholder of that name is replaced by the value the map
holds for the name at that moment (the value written back by the outer loop
if it has visited the name before `pk`, the evaluated value otherwise),
trimmed once at the end by the delimiter of `pk`; and `Read` returns
whenever no limit is negative. -/
theorem Read_interpolation (lib : Strings) (s : Sched) (child parent : Model)
    (hv : s.Valid child parent) :
    (∀ r, Read lib s child parent = some r → ∀ pk pd,
      GoMap.lookup r.Descriptors pk = some pd →
      (∀ v, lib.Trim v pd.Delimiter.ValueString = trimBytes v pd.Delimiter.ValueString) →
      (36 : Fin 256) ∉ pd.Delimiter.ValueString →
      (125 : Fin 256) ∉ pd.Delimiter.ValueString →
      ∃ v0, evaluatedValue lib s child parent pk = some v0 ∧
        pd.Value = Val.known (lib.Trim
          (substitute
            (valueWhen s.expandOuterOrder pk (evaluatedValue lib s child parent)
              (valueIn r.Descriptors))
            (s.expandInnerOrder pk) v0)
          pd.Delimiter.ValueString)) ∧
    (SaneLimits child.Descriptors → SaneLimits parent.Descriptors →
      ∃ r, Read lib s child parent = some r) := by
  refine ⟨?_, Read_isSome lib s child parent⟩
  intro r hr pk pd hpd hT h36 h125
  obtain ⟨hv1, hv2, hv3, hv4, hv5, hv6⟩ := hv
  obtain ⟨ev, hev, -, -, -, hD, -⟩ := Read_eq_some lib s child parent r hr
  -- `pk` is a key of the merged and of the evaluated descriptors
  have hdef := Read_definition lib s child parent r hr pk
  rw [hpd] at hdef
  obtain ⟨d0, hd0⟩ : ∃ d0, GoMap.lookup (mergeDescriptors s child parent) pk = some d0 := by
    cases hm : GoMap.lookup (mergeDescriptors s child parent) pk with
    | none => simp [hm] at hdef
    | some d0 => exact ⟨d0, rfl⟩
  have hevdef := computeAll_definition lib _ _ _ _ _ hev pk
  obtain ⟨e, he⟩ : ∃ e, GoMap.lookup ev.descs pk = some e := by
    cases hm : GoMap.lookup ev.descs pk with
    | none =>
      rw [hm] at hevdef
      have : GoMap.lookup (mergeDescriptors s child parent) pk = none := by
        simpa using hevdef.symm
      rw [this] at hd0
      cases hd0
    | some e => exact ⟨e, rfl⟩
  have hmemO : pk ∈ s.expandOuterOrder := hv5.covers hd0
  have hmemI : pk ∈ s.expandInnerOrder pk := (hv6 pk).covers hd0
  obtain ⟨hat, hstate⟩ := expandAll_lookup_at lib s.expandOuterOrder s.expandInnerOrder ev.descs
    pk hv5.1 hmemO
  rw [← hD, hpd, he] at hat
  simp only [Option.map_some', Option.some.injEq] at hat
  have hdelim : pd.Delimiter = e.Delimiter := by rw [hat]
  have hval : pd.Value = StringValue ((s.expandInnerOrder pk).foldl
      (expandStep lib (expandAll lib
        (s.expandOuterOrder.takeWhile (fun k => decide (k ≠ pk))) s.expandInnerOrder ev.descs) e)
      e.Value.ValueString) := by rw [hat]
  have hpkb : pk ∉ s.expandOuterOrder.takeWhile (fun k => decide (k ≠ pk)) := by
    intro h
    have := List.mem_takeWhile_imp h
    simp at this
  have hcur : ∀ sk, valueIn (expandAll lib
      (s.expandOuterOrder.takeWhile (fun k => decide (k ≠ pk))) s.expandInnerOrder ev.descs) sk =
      valueWhen s.expandOuterOrder pk (evaluatedValue lib s child parent)
        (valueIn r.Descriptors) sk := by
    intro sk
    unfold valueWhen
    rw [← valueIn_evaluate lib s child parent ev hv4 hev sk]
    unfold valueIn
    rw [hstate sk, hD]
    split <;> rfl
  have hhit : ∃ sk ∈ s.expandInnerOrder pk, (valueIn (expandAll lib
      (s.expandOuterOrder.takeWhile (fun k => decide (k ≠ pk))) s.expandInnerOrder ev.descs)
      sk).isSome = true := by
    refine ⟨pk, hmemI, ?_⟩
    unfold valueIn
    rw [hstate pk, if_neg hpkb, he]
    rfl
  refine ⟨e.Value.ValueString, ?_, ?_⟩
  · rw [← valueIn_evaluate lib s child parent ev hv4 hev pk]
    unfold valueIn
    rw [he]
    rfl
  · rw [hval, hdelim]
    rw [hdelim] at hT h36 h125
    rw [foldl_expandStep lib _ e hT h36 h125 _ _ hhit,
      substitute_congr _ _ _ _ hcur]
    rfl

/-- The closed form on `fqdn2` of the tests over the attributes `fizz`,
`buzz`. -/
theorem Read_interpolation_fqdn2 :
    ∃ r pd, Read goStrings (Sched.listOrder exBuzz Model.absent) exBuzz Model.absent = some r ∧
      GoMap.lookup r.Descriptors (str "fqdn2") = some pd ∧
      pd.Value = Val.known (str "fizz-buzz.example.com") := by
  have h := Read_interpolation goStrings (Sched.listOrder exBuzz Model.absent) exBuzz
    Model.absent
    (Sched.valid_of_inner_eq_outer (by decide) (by decide) (by decide) (by decide) (by decide)
      (fun _ => rfl))
  obtain ⟨v0, hv0, hval⟩ := h.1 _ rfl (str "fqdn2") _ rfl (fun _ => rfl) (by decide) (by decide)
  refine ⟨_, _, rfl, rfl, ?_⟩
  have e0 : v0 = str "$\x7bfqdn2_prefix\x7d.example.com" :=
    Option.some.inj (hv0.symm.trans (by decide))
  subst e0
  rw [hval]
  decide

/-- Inheritance through an evaluated parent, for two runs whose interpolation
passes visit the descriptors in the same orders: let `Read` return `rp` for
the context `p` without a parent, and let `parent` carry the outputs `rp`
(enabled, attributes, the lookups of the attribute map, the definition fields
of the descriptors, defaults included), whatever stands in its `Value`
fields. When `Read` returns for the child `c` directly against `p`, it
returns for `c` against `parent` as well, with the same enabled flag,
attributes, attribute map and descriptors, values included. -/
theorem Read_inherits_of_same_interpolation_orders (lib : Strings) (sp s1 s2 : Sched)
    (c p parent : Model) (rp r2 : ReadResponse)
    (hvp : sp.Valid p Model.absent) (hv1 : s1.Valid c parent) (hv2 : s2.Valid c p)
    (hout : s1.expandOuterOrder = s2.expandOuterOrder)
    (hin : s1.expandInnerOrder = s2.expandInnerOrder)
    (hp : Read lib sp p Model.absent = some rp)
    (hE : parent.Enabled = rp.Enabled) (hA : parent.Attributes = rp.Attributes)
    (hM : ∀ k, GoMap.lookup parent.AttributesMap k = GoMap.lookup rp.AttributesMap k)
    (hD : ∀ k, (GoMap.lookup parent.Descriptors k).map Descriptor.definition =
      (GoMap.lookup rp.Descriptors k).map Descriptor.definition)
    (h2 : Read lib s2 c p = some r2) :
    ∃ r1, Read lib s1 c parent = some r1 ∧ r1.Enabled = r2.Enabled ∧
      r1.Attributes = r2.Attributes ∧
      (∀ k, GoMap.lookup r1.AttributesMap k = GoMap.lookup r2.AttributesMap k) ∧
      (∀ k, GoMap.lookup r1.Descriptors k = GoMap.lookup r2.Descriptors k) ∧
      r1.Id = r2.Id ∧ r1.Namespace = r2.Namespace := by
  obtain ⟨evp, -, pE, pA, pM, -⟩ := Read_eq_some lib sp p Model.absent rp hp
  have pD := Read_definition lib sp p Model.absent rp hp
  apply Read_congr lib s1 s2 c parent c p r2 hv1 hv2 hout hin ?_ ?_ ?_ ?_ h2
  · rw [hE, pE, mergeEnabled_eq, mergeEnabled_eq, mergeEnabled_eq]
    cases flagOrTrue c.Enabled <;> cases flagOrTrue p.Enabled <;> rfl
  · unfold mergeAttributes
    rw [hA, pA]
    unfold mergeAttributes
    simp [Model.absent]
  · intro k
    rw [lookup_mergeAttributesMap s1 c parent hv1.1, lookup_mergeAttributesMap s2 c p hv2.1,
      hM, pM, lookup_mergeAttributesMap sp p Model.absent hvp.1]
    cases GoMap.lookup c.AttributesMap k with
    | some v => rfl
    | none =>
      cases GoMap.lookup p.AttributesMap k with
      | some v => rfl
      | none => rfl
  · intro k
    rw [lookup_mergeDescriptors s1 c parent hv1.2.1, lookup_mergeDescriptors s2 c p hv2.2.1]
    cases GoMap.lookup c.Descriptors k with
    | some d => rfl
    | none =>
      have h3 := hD k
      rw [pD k, lookup_mergeDescriptors sp p Model.absent hvp.2.1] at h3
      have h4 : GoMap.lookup Model.absent.Descriptors k = none := rfl
      rw [h4] at h3
      cases hpk : GoMap.lookup p.Descriptors k with
      | some d =>
        rw [hpk] at h3
        cases hq : GoMap.lookup parent.Descriptors k with
        | none => simp [hq] at h3
        | some q => simpa [hq] using h3
      | none =>
        rw [hpk] at h3
        cases hq : GoMap.lookup parent.Descriptors k with
        | none => rfl
        | some q =>
          rw [hq] at h3
          simp only at h3 ⊢
          by_cases h5 : k = str "id"
          · simpa [h5] using h3
          · by_cases h6 : k = str "namespace"
            · simpa [h5, h6] using h3
            · simp [h5, h6] at h3

/-- The test `fizz` over the outputs of `base`, and over `base` itself. -/
theorem Read_inherits_fizz_over_base :
    ∃ r1, Read goStrings (Sched.listOrder exFizz exBaseOut) exFizz exBaseOut = some r1 ∧
      r1.Id = Val.known (str "dev-bar-foo-fizz") ∧
      r1.Namespace = Val.known (str "dev-bar-foo") := by
  obtain ⟨r1, h1, -, -, -, -, hI, hN⟩ := Read_inherits_of_same_interpolation_orders goStrings
    (Sched.listOrder exBase Model.absent) (Sched.listOrder exFizz exBaseOut)
    (Sched.listOrder exFizz exBase) exFizz exBase exBaseOut _ _
    (Sched.valid_of_inner_eq_outer (by decide) (by decide) (by decide) (by decide) (by decide)
      (fun _ => rfl))
    (Sched.valid_of_inner_eq_outer (by decide) (by decide) (by decide) (by decide) (by decide)
      (fun _ => rfl))
    (Sched.valid_of_inner_eq_outer (by decide) (by decide) (by decide) (by decide) (by decide)
      (fun _ => rfl))
    (by decide)
    (by
      rw [Sched.listOrder_expandInnerOrder, Sched.listOrder_expandInnerOrder]
      exact congrArg (fun (l : List Str) (_ : Str) => l) (by decide))
    rfl rfl rfl (fun _ => rfl) (fun _ => rfl) rfl
  exact ⟨r1, h1, hI, hN⟩

/-- The orders of the merge loops and of the evaluation loop do not matter:
for one child and one parent, two valid schedules that visit the descriptors
in the same orders in the outer and in the inner loop of the interpolation
pass give every descriptor the same final value; when `Read` returns under
one of them it returns under the other. -/
theorem Read_independent_of_merge_and_compute_orders (lib : Strings) (s1 s2 : Sched)
    (child parent : Model) (r2 : ReadResponse)
    (hv1 : s1.Valid child parent) (hv2 : s2.Valid child parent)
    (hout : s1.expandOuterOrder = s2.expandOuterOrder)
    (hin : s1.expandInnerOrder = s2.expandInnerOrder)
    (h2 : Read lib s2 child parent = some r2) :
    ∃ r1, Read lib s1 child parent = some r1 ∧
      (∀ k, GoMap.lookup r1.Descriptors k = GoMap.lookup r2.Descriptors k) ∧
      r1.Id = r2.Id ∧ r1.Namespace = r2.Namespace := by
  obtain ⟨r1, h1, -, -, -, hD, hI, hN⟩ := Read_congr lib s1 s2 child parent child parent r2
    hv1 hv2 hout hin rfl rfl
    (fun k => by
      rw [lookup_mergeAttributesMap s1 child parent hv1.1,
        lookup_mergeAttributesMap s2 child parent hv2.1])
    (fun k => by
      rw [lookup_mergeDescriptors s1 child parent hv1.2.1,
        lookup_mergeDescriptors s2 child parent hv2.2.1])
    h2
  exact ⟨r1, h1, hD, hI, hN⟩

/-- The test `buzz` with the evaluation loop run backwards. -/
theorem Read_buzz_compute_reversed :
    ∃ r1, Read goStrings exComputeReversed exBuzz Model.absent = some r1 ∧
      r1.Id = Val.known (str "dev-bar-foo-fizz-buzz") := by
  obtain ⟨r1, h1, -, hI, -⟩ := Read_independent_of_merge_and_compute_orders goStrings
    exComputeReversed (Sched.listOrder exBuzz Model.absent) exBuzz Model.absent _
    (Sched.valid_of_inner_const (by decide) (by decide) (by decide) (by decide) (by decide)
      (Sched.listOrder exBuzz Model.absent).expandOuterOrder (by decide) (fun _ => rfl))
    (Sched.valid_of_inner_eq_outer (by decide) (by decide) (by decide) (by decide) (by decide)
      (fun _ => rfl))
    rfl rfl rfl
  exact ⟨r1, h1, hI⟩

/-! ## The claims -/

/-- C1, enable AND law: the `enabled` that `Read` returns is true exactly when
the flag of the child and the flag of the parent are both true, a null or
unknown flag counting as true; without a parent it is the flag of the child;
and `Read` returns whenever no limit is negative. -/
theorem Read_enabled_and_law (lib : Strings) (s : Sched) (child parent : Model) :
    (∀ r, Read lib s child parent = some r →
      r.Enabled = Val.known (flagOrTrue child.Enabled && flagOrTrue parent.Enabled)) ∧
    (∀ r, Read lib s child Model.absent = some r →
      r.Enabled = Val.known (flagOrTrue child.Enabled)) ∧
    (SaneLimits child.Descriptors → SaneLimits parent.Descriptors →
      ∃ r, Read lib s child parent = some r) := by
  have key : ∀ a b : Val Bool,
      mergeEnabled a b = Val.known (flagOrTrue a && flagOrTrue b) := by
    intro a b
    cases a with
    | known x => cases b with
      | known y => cases x <;> cases y <;> rfl
      | null => cases x <;> rfl
      | unknown => cases x <;> rfl
    | null => cases b with
      | known y => cases y <;> rfl
      | null => rfl
      | unknown => rfl
    | unknown => cases b with
      | known y => cases y <;> rfl
      | null => rfl
      | unknown => rfl
  refine ⟨?_, ?_, Read_isSome lib s child parent⟩
  · intro r hr
    obtain ⟨ev, -, he, -⟩ := Read_eq_some lib s child parent r hr
    rw [he, key]
  · intro r hr
    obtain ⟨ev, -, he, -⟩ := Read_eq_some lib s child Model.absent r hr
    rw [he, key]
    simp [Model.absent, flagOrTrue]

/-- Witness of C1: a child with `enabled = true` under a parent with
`enabled = false` is disabled. -/
theorem Read_enabled_and_law_witness :
    ∃ r, Read goStrings (Sched.listOrder exEnabledChild exEnabledParent)
      exEnabledChild exEnabledParent = some r ∧ r.Enabled = Val.known false := by
  have h := Read_enabled_and_law goStrings (Sched.listOrder exEnabledChild exEnabledParent)
    exEnabledChild exEnabledParent
  obtain ⟨r, hr⟩ := h.2.2 (SaneLimits_of_entries (by decide)) (SaneLimits_of_entries (by decide))
  exact ⟨r, hr, h.1 r hr⟩

/-- C2, attribute order: the `attributes` that `Read` returns are the
attributes of the parent followed by those of the child, nothing dropped and
nothing reordered; and `Read` returns whenever no limit is negative. -/
theorem Read_attributes_parent_then_child (lib : Strings) (s : Sched) (child parent : Model) :
    (∀ r, Read lib s child parent = some r →
      r.Attributes = parent.Attributes ++ child.Attributes) ∧
    (SaneLimits child.Descriptors → SaneLimits parent.Descriptors →
      ∃ r, Read lib s child parent = some r) := by
  refine ⟨?_, Read_isSome lib s child parent⟩
  intro r hr
  obtain ⟨ev, -, -, ha, -⟩ := Read_eq_some lib s child parent r hr
  rw [ha]
  rfl

/-- Witness of C2: duplicates and the empty string are kept. -/
theorem Read_attributes_parent_then_child_witness :
    ∃ r, Read goStrings (Sched.listOrder exAttrsChild exAttrsParent)
      exAttrsChild exAttrsParent = some r ∧
      r.Attributes = [Val.known (str "a"), Val.known (str ""), Val.known (str "a"),
        Val.known (str "a"), Val.known (str "b")] := by
  have h := Read_attributes_parent_then_child goStrings
    (Sched.listOrder exAttrsChild exAttrsParent) exAttrsChild exAttrsParent
  obtain ⟨r, hr⟩ := h.2 (SaneLimits_of_entries (by decide)) (SaneLimits_of_entries (by decide))
  exact ⟨r, hr, h.1 r hr⟩

/-- C3, right-biased attribute map: under a traversal of the map of the
child, the `attributes_map` that `Read` returns has a key exactly when the
parent or the child has it, with the value of the child when the child has
the key and the value of the parent otherwise; and `Read` returns whenever no
limit is negative. -/
theorem Read_attributesMap_right_biased (lib : Strings) (s : Sched) (child parent : Model)
    (hv : GoMap.Traversal child.AttributesMap s.mergeAttributesMapOrder) :
    (∀ r, Read lib s child parent = some r → ∀ k,
      ((GoMap.lookup r.AttributesMap k).isSome = true ↔
        ((GoMap.lookup parent.AttributesMap k).isSome = true ∨
          (GoMap.lookup child.AttributesMap k).isSome = true)) ∧
      (∀ v, GoMap.lookup child.AttributesMap k = some v →
        GoMap.lookup r.AttributesMap k = some v) ∧
      (GoMap.lookup child.AttributesMap k = none →
        GoMap.lookup r.AttributesMap k = GoMap.lookup parent.AttributesMap k)) ∧
    (SaneLimits child.Descriptors → SaneLimits parent.Descriptors →
      ∃ r, Read lib s child parent = some r) := by
  refine ⟨?_, Read_isSome lib s child parent⟩
  intro r hr k
  obtain ⟨ev, -, -, -, hm, -⟩ := Read_eq_some lib s child parent r hr
  have hk : GoMap.lookup r.AttributesMap k =
      (match GoMap.lookup child.AttributesMap k with
       | some v => some v
       | none => GoMap.lookup parent.AttributesMap k) := by
    rw [hm]
    unfold mergeAttributesMap
    rw [GoMap.lookup_assignAll_traversal id hv]
    cases GoMap.lookup child.AttributesMap k <;> rfl
  rw [hk]
  cases hc : GoMap.lookup child.AttributesMap k with
  | none => simp
  | some v => simp

/-- Witness of C3: on the key `y` that both define, the child wins. -/
theorem Read_attributesMap_right_biased_witness :
    ∃ r, Read goStrings (Sched.listOrder exMapChild exMapParent) exMapChild exMapParent
        = some r ∧
      GoMap.lookup r.AttributesMap (str "y") = some (Val.known (str "3")) ∧
      GoMap.lookup r.AttributesMap (str "x") = some (Val.known (str "1")) := by
  have h := Read_attributesMap_right_biased goStrings (Sched.listOrder exMapChild exMapParent)
    exMapChild exMapParent (by decide)
  obtain ⟨r, hr⟩ := h.2 (SaneLimits_of_entries (by decide)) (SaneLimits_of_entries (by decide))
  refine ⟨r, hr, (h.1 r hr (str "y")).2.1 _ (by decide), ?_⟩
  rw [(h.1 r hr (str "x")).2.2 (by decide)]
  decide

/-- C4, whole-record replacement: under a traversal of the descriptors of the
child, a name that child and parent both define comes out of `Read` with all
seven definition fields of the child, whatever the parent sets; a name that
only the parent defines keeps the fields of the parent; and `Read` returns
whenever no limit is negative. -/
theorem Read_descriptor_whole_record (lib : Strings) (s : Sched) (child parent : Model)
    (hv : GoMap.Traversal child.Descriptors s.mergeDescriptorsOrder) :
    (∀ r, Read lib s child parent = some r → ∀ n,
      (∀ dc dp, GoMap.lookup child.Descriptors n = some dc →
        GoMap.lookup parent.Descriptors n = some dp →
        ∃ d, GoMap.lookup r.Descriptors n = some d ∧ d.Order = dc.Order ∧
          d.Delimiter = dc.Delimiter ∧ d.Upper = dc.Upper ∧ d.Lower = dc.Lower ∧
          d.Title = dc.Title ∧ d.Reverse = dc.Reverse ∧ d.Limit = dc.Limit) ∧
      (∀ dp, GoMap.lookup child.Descriptors n = none →
        GoMap.lookup parent.Descriptors n = some dp →
        ∃ d, GoMap.lookup r.Descriptors n = some d ∧ d.Order = dp.Order ∧
          d.Delimiter = dp.Delimiter ∧ d.Upper = dp.Upper ∧ d.Lower = dp.Lower ∧
          d.Title = dp.Title ∧ d.Reverse = dp.Reverse ∧ d.Limit = dp.Limit)) ∧
    (SaneLimits child.Descriptors → SaneLimits parent.Descriptors →
      ∃ r, Read lib s child parent = some r) := by
  refine ⟨?_, Read_isSome lib s child parent⟩
  intro r hr n
  constructor
  · intro dc dp hc _
    have hm : GoMap.lookup (mergeDescriptors s child parent) n = some dc := by
      rw [lookup_mergeDescriptors s child parent hv, hc]
    exact Read_sameFields lib s child parent r hr n dc hm
  · intro dp hc hp
    have hm : GoMap.lookup (mergeDescriptors s child parent) n = some dp := by
      rw [lookup_mergeDescriptors s child parent hv, hc, hp]
    exact Read_sameFields lib s child parent r hr n dp hm

/-- Witness of C4: the child leaves `upper`, `reverse` and `limit` unset, the
parent sets them, and the merged descriptor has them unset. -/
theorem Read_descriptor_whole_record_witness :
    ∃ r d, Read goStrings (Sched.listOrder exRecordChild exRecordParent)
        exRecordChild exRecordParent = some r ∧
      GoMap.lookup r.Descriptors (str "name") = some d ∧
      d.Upper = Val.null ∧ d.Reverse = Val.null ∧ d.Limit = Val.null := by
  have h := Read_descriptor_whole_record goStrings
    (Sched.listOrder exRecordChild exRecordParent) exRecordChild exRecordParent (by decide)
  obtain ⟨r, hr⟩ := h.2 (SaneLimits_of_entries (by decide)) (SaneLimits_of_entries (by decide))
  obtain ⟨d, hd, -, -, hu, -, -, hrev, hlim⟩ :=
    (h.1 r hr (str "name")).1 _ _ rfl rfl
  exact ⟨r, d, hr, hd, hu, hrev, hlim⟩

/-- Counterexample to C5 as stated: with no descriptor defined at all, the
`namespace` that `Read` returns has its limit set, to `math.MaxInt64`; it is
neither null nor unknown. -/
theorem Read_builtin_namespace_limit_is_set :
    (Sched.listOrder Model.absent Model.absent).Valid Model.absent Model.absent ∧
    ∃ r d, Read goStrings (Sched.listOrder Model.absent Model.absent) Model.absent Model.absent
        = some r ∧
      GoMap.lookup r.Descriptors (str "namespace") = some d ∧
      d.Limit = Val.known 9223372036854775807 ∧
      d.Limit.IsNull = false ∧ d.Limit.IsUnknown = false :=
  ⟨Sched.valid_of_inner_eq_outer (by decide) (by decide) (by decide) (by decide) (by decide)
      (fun _ => rfl),
    _, _, rfl, rfl, rfl, rfl, rfl⟩

/-- C5 as amended, built-in descriptors: under a traversal of the descriptors
of the child, when neither child nor parent defines `id`, `Read` returns `id`
with delimiter `-`, the four flags false, limit 64 and order `[attributes]`;
when neither defines `namespace`, it returns `namespace` with delimiter `-`,
the four flags false, the limit set to `math.MaxInt64` and an empty order;
a definition of `id` or `namespace` by the child, or else by the parent, is
the one returned; and `Read` returns whenever no limit is negative. -/
theorem Read_builtin_descriptors (lib : Strings) (s : Sched) (child parent : Model)
    (hv : GoMap.Traversal child.Descriptors s.mergeDescriptorsOrder) :
    (∀ r, Read lib s child parent = some r →
      (GoMap.lookup child.Descriptors (str "id") = none →
        GoMap.lookup parent.Descriptors (str "id") = none →
        ∃ d, GoMap.lookup r.Descriptors (str "id") = some d ∧
          d.Delimiter = Val.known (str "-") ∧ d.Upper = Val.known false ∧
          d.Lower = Val.known false ∧ d.Title = Val.known false ∧
          d.Reverse = Val.known false ∧ d.Limit = Val.known 64 ∧
          d.Order = [Val.known (str "attributes")]) ∧
      (GoMap.lookup child.Descriptors (str "namespace") = none →
        GoMap.lookup parent.Descriptors (str "namespace") = none →
        ∃ d, GoMap.lookup r.Descriptors (str "namespace") = some d ∧
          d.Delimiter = Val.known (str "-") ∧ d.Upper = Val.known false ∧
          d.Lower = Val.known false ∧ d.Title = Val.known false ∧
          d.Reverse = Val.known false ∧ d.Limit = Val.known 9223372036854775807 ∧
          d.Order = []) ∧
      (∀ n, n = str "id" ∨ n = str "namespace" →
        (∀ dc, GoMap.lookup child.Descriptors n = some dc →
          ∃ d, GoMap.lookup r.Descriptors n = some d ∧ d.SameFields dc) ∧
        (∀ dp, GoMap.lookup child.Descriptors n = none →
          GoMap.lookup parent.Descriptors n = some dp →
          ∃ d, GoMap.lookup r.Descriptors n = some d ∧ d.SameFields dp))) ∧
    (SaneLimits child.Descriptors → SaneLimits parent.Descriptors →
      ∃ r, Read lib s child parent = some r) := by
  refine ⟨?_, Read_isSome lib s child parent⟩
  intro r hr
  refine ⟨?_, ?_, ?_⟩
  · intro hc hp
    have hm : GoMap.lookup (mergeDescriptors s child parent) (str "id") = some defaultId := by
      rw [lookup_mergeDescriptors s child parent hv, hc, hp]
      rfl
    obtain ⟨d, hd, h1, h2, h3, h4, h5, h6, h7⟩ :=
      Read_sameFields lib s child parent r hr _ _ hm
    exact ⟨d, hd, h2, h3, h4, h5, h6, h7, h1⟩
  · intro hc hp
    have hm : GoMap.lookup (mergeDescriptors s child parent) (str "namespace")
        = some defaultNamespace := by
      rw [lookup_mergeDescriptors s child parent hv, hc, hp]
      rfl
    obtain ⟨d, hd, h1, h2, h3, h4, h5, h6, h7⟩ :=
      Read_sameFields lib s child parent r hr _ _ hm
    exact ⟨d, hd, h2, h3, h4, h5, h6, h7, h1⟩
  · intro n _
    constructor
    · intro dc hc
      have hm : GoMap.lookup (mergeDescriptors s child parent) n = some dc := by
        rw [lookup_mergeDescriptors s child parent hv, hc]
      exact Read_sameFields lib s child parent r hr n dc hm
    · intro dp hc hp
      have hm : GoMap.lookup (mergeDescriptors s child parent) n = some dp := by
        rw [lookup_mergeDescriptors s child parent hv, hc, hp]
      exact Read_sameFields lib s child parent r hr n dp hm

/-- Witness of C5 as amended: a child that defines `name` only gets the
built-in `id` with limit 64. -/
theorem Read_builtin_descriptors_witness :
    ∃ r d, Read goStrings (Sched.listOrder exRecordChild Model.absent)
        exRecordChild Model.absent = some r ∧
      GoMap.lookup r.Descriptors (str "id") = some d ∧ d.Limit = Val.known 64 ∧
      d.Order = [Val.known (str "attributes")] := by
  have h := Read_builtin_descriptors goStrings
    (Sched.listOrder exRecordChild Model.absent) exRecordChild Model.absent (by decide)
  obtain ⟨r, hr⟩ := h.2 (SaneLimits_of_entries (by decide)) (SaneLimits_of_entries (by decide))
  obtain ⟨d, hd, -, -, -, -, -, hlim, hord⟩ := (h.1 r hr).1 (by decide) (by decide)
  exact ⟨r, d, hr, hd, hlim, hord⟩

/-- C6, evaluator reference definition: with no transform flag true and the
limit null or unknown, `Compute` returns, and it sets `Value` to the string
that the evaluator of the specification gives: the keys of `order` resolved
left to right (map value first, then `attributes`, then the placeholder of a
`$` key, else nothing), duplicates kept, empty strings removed, reversed when
`reverse` is true, joined by the delimiter. The definition fields are left as
they are. -/
theorem Compute_refines_specEvaluate (lib : Strings) (d : Descriptor) (am : GoMap Str)
    (at_ : List Str) (hl : d.Lower.ValueBool = false) (hu : d.Upper.ValueBool = false)
    (ht : d.Title.ValueBool = false)
    (hlim : d.Limit.IsNull = true ∨ d.Limit.IsUnknown = true) :
    ∃ c, d.Compute lib am at_ = some c ∧
      c.d.Value = Val.known (specEvaluate d am at_) ∧ c.d.SameFields d := by
  have hj : d.joined lib am at_ = specEvaluate d am at_ := by
    unfold Descriptor.joined specEvaluate
    rw [partsClean_eq, parts_fst]
    have hm : ∀ l : List Str, l.map (d.emit lib) = l := by
      intro l
      induction l with
      | nil => rfl
      | cons a l ih => rw [List.map_cons, ih, emit_no_transform lib d a hl hu ht]
    simp only [hm]
  have hc : (!d.Limit.IsNull && !d.Limit.IsUnknown &&
      decide (((d.joined lib am at_).length : Int) > d.Limit.ValueInt64)) = false := by
    rcases hlim with h | h <;> simp [h]
  refine ⟨_, Compute_of_not_exceeding lib d am at_ hc, ?_, ?_⟩
  · simp only [StringValue, hj]
  · exact ⟨rfl, rfl, rfl, rfl, rfl, rfl, rfl⟩

/-- Witness of C6: the descriptor `fqdn3_prefix` of the tests over the
attributes `fizz`, `buzz`. -/
theorem Compute_refines_specEvaluate_witness :
    ∃ c, exFqdn3Prefix.Compute goStrings [] [str "fizz", str "buzz"] = some c ∧
      c.d.Value = Val.known (str "buzz.fizz") := by
  obtain ⟨c, hc, hv, -⟩ := Compute_refines_specEvaluate goStrings exFqdn3Prefix []
    [str "fizz", str "buzz"] (by decide) (by decide) (by decide) (Or.inl (by decide))
  refine ⟨c, hc, ?_⟩
  rw [hv]
  decide

/-- Counterexample to C7 as stated: the limit -1 is set and the joined string
(empty, of length 0) exceeds it, yet `Compute` returns nothing: the slice
`value[:-1]` is out of range. -/
theorem Compute_negative_limit_panics :
    exNegativeLimit.Limit = Val.known (-1) ∧
    ((exNegativeLimit.joined goStrings [] []).length : Int) > -1 ∧
    exNegativeLimit.Compute goStrings [] [] = none := by
  decide

/-- C7 as amended, truncation is length-exact: with the limit set to a
non-negative `l`, `Compute` returns; when the joined string is longer than
`l` bytes the value is its first `l` bytes, of length exactly `l`, and one
warning is returned; otherwise the value is the joined string and no
diagnostic is returned. -/
theorem Compute_truncation_exact (lib : Strings) (d : Descriptor) (am : GoMap Str)
    (at_ : List Str) (l : Int) (hl : d.Limit = Val.known l) (h0 : 0 ≤ l) :
    ∃ c, d.Compute lib am at_ = some c ∧
      (l < ((d.joined lib am at_).length : Int) →
        c.d.Value = Val.known ((d.joined lib am at_).take l.toNat) ∧
        (c.d.Value.ValueString.length : Int) = l ∧
        ∃ w, c.diags = [w] ∧ w.Severity = Severity.warning) ∧
      (((d.joined lib am at_).length : Int) ≤ l →
        c.d.Value = Val.known (d.joined lib am at_) ∧ c.diags = []) := by
  by_cases hlt : l < ((d.joined lib am at_).length : Int)
  · have hs : sliceTo (d.joined lib am at_) l = some ((d.joined lib am at_).take l.toNat) := by
      unfold sliceTo
      rw [if_pos]
      exact ⟨h0, by omega⟩
    have hc : d.Compute lib am at_ = some
        { d := { d with Value := StringValue ((d.joined lib am at_).take l.toNat) }
          diags := [{
            Severity := Severity.warning
            Summary := str "Descriptor length exceeds limit. Output will be trimmed."
            Detail := str "Limit = " ++ SprintfInt l ++ str ", Length = " ++
              SprintfInt (d.joined lib am at_).length ++ str ", Value = " ++
              d.joined lib am at_ }]
          stdout := (d.parts am at_).2 } := by
      unfold Descriptor.Compute
      simp only [hl, Val.IsNull, Val.IsUnknown, Val.ValueInt64, hs]
      simp [hlt]
    refine ⟨_, hc, ?_, ?_⟩
    · intro _
      refine ⟨rfl, ?_, _, rfl, rfl⟩
      simp only [StringValue, Val.ValueString, List.length_take]
      omega
    · intro hle
      omega
  · have hc : (!d.Limit.IsNull && !d.Limit.IsUnknown &&
        decide (((d.joined lib am at_).length : Int) > d.Limit.ValueInt64)) = false := by
      simp [hl, Val.ValueInt64]
      intro _ _
      omega
    refine ⟨_, Compute_of_not_exceeding lib d am at_ hc, ?_, ?_⟩
    · intro h
      exact absurd h hlt
    · intro _
      exact ⟨rfl, rfl⟩

/-- Witness of C7 as amended: the configuration `too_long` of the tests, 17
bytes against the limit 10. -/
theorem Compute_truncation_exact_witness :
    ∃ c, exTooLong.Compute goStrings [] [str "buzzzzzzzzzzzzzzz"] = some c ∧
      c.d.Value = Val.known (str "buzzzzzzzz") ∧ c.diags.length = 1 := by
  obtain ⟨c, hc, hlong, -⟩ := Compute_truncation_exact goStrings exTooLong []
    [str "buzzzzzzzzzzzzzzz"] 10 (by decide) (by decide)
  obtain ⟨hv, -, w, hw, -⟩ := hlong (by decide)
  refine ⟨c, hc, ?_, ?_⟩
  · rw [hv]
    decide
  · rw [hw]
    rfl

/-- C8, the code at a failing input: `id` has the limit 8 and the order
`[$long]`; `Compute` leaves the 7 bytes of the placeholder untouched and
returns no warning, the interpolation pass then puts the 11 bytes
`hello-world` in their place, and `Read` exposes them, under a valid
schedule. -/
theorem Read_value_exceeds_limit :
    (Sched.listOrder exOverflow Model.absent).Valid exOverflow Model.absent ∧
    ∃ r d, Read goStrings (Sched.listOrder exOverflow Model.absent) exOverflow Model.absent
        = some r ∧
      GoMap.lookup r.Descriptors (str "id") = some d ∧
      d.Limit = Val.known 8 ∧
      d.Value = Val.known (str "hello-world") ∧
      r.Id = Val.known (str "hello-world") ∧
      (8 : Int) < (d.Value.ValueString.length : Int) ∧
      r.Diagnostics = [] :=
  ⟨Sched.valid_of_inner_eq_outer (by decide) (by decide) (by decide) (by decide) (by decide)
      (fun _ => rfl),
    _, _, rfl, rfl, rfl, by decide, by decide, by decide, by decide⟩

/-- C9, the code at a failing input: `prefix` has no `$` key and evaluates to
`-a`; `host` evaluates to the placeholder of `prefix` joined with the domain.
The outer loop visits `prefix` first, trims it to `a` and writes that back
into the map the inner loop reads, so `host` ends as `a.example.com`, while
replacing the placeholder by the evaluated value of `prefix` and trimming,
as the claim has it, gives `-a.example.com`. -/
theorem Read_interpolation_reads_final_values :
    (Sched.listOrder exLeadingDash Model.absent).Valid exLeadingDash Model.absent ∧
    referencesAreFlat
      (mergeDescriptors (Sched.listOrder exLeadingDash Model.absent) exLeadingDash Model.absent)
      = true ∧
    evaluatedValue goStrings (Sched.listOrder exLeadingDash Model.absent) exLeadingDash
      Model.absent (str "prefix") = some (str "-a") ∧
    evaluatedValue goStrings (Sched.listOrder exLeadingDash Model.absent) exLeadingDash
      Model.absent (str "host") = some (str "$\x7bprefix\x7d.example.com") ∧
    goStrings.Trim
      (substitute
        (evaluatedValue goStrings (Sched.listOrder exLeadingDash Model.absent) exLeadingDash
          Model.absent)
        ((Sched.listOrder exLeadingDash Model.absent).expandInnerOrder (str "host"))
        (str "$\x7bprefix\x7d.example.com"))
      (str ".") = str "-a.example.com" ∧
    ∃ r, Read goStrings (Sched.listOrder exLeadingDash Model.absent) exLeadingDash Model.absent
        = some r ∧
      valueIn r.Descriptors (str "host") = some (str "a.example.com") :=
  ⟨Sched.valid_of_inner_eq_outer (by decide) (by decide) (by decide) (by decide) (by decide)
      (fun _ => rfl),
    by decide, by decide, by decide, by decide, _, rfl, by decide⟩

/-- C10, the code at a failing input: the context `exLeadingDash` is
evaluated on its own, in list order, and an empty child is evaluated over
its outputs, again in list order: `host` is `a.example.com`. The same empty
child evaluated directly against `exLeadingDash`, the outer loop of the
interpolation pass visiting `host` before `prefix`, gets `host` as
`-a.example.com`. All three schedules are valid. -/
theorem Read_inheritance_depends_on_order :
    (Sched.listOrder exLeadingDash Model.absent).Valid exLeadingDash Model.absent ∧
    (Sched.listOrder Model.absent exLeadingDashOut).Valid Model.absent exLeadingDashOut ∧
    exParentHostFirst.Valid Model.absent exLeadingDash ∧
    ∃ rp r1 r2,
      Read goStrings (Sched.listOrder exLeadingDash Model.absent) exLeadingDash Model.absent
        = some rp ∧
      exLeadingDashOut = rp.toModel ∧
      Read goStrings (Sched.listOrder Model.absent exLeadingDashOut) Model.absent
        exLeadingDashOut = some r1 ∧
      Read goStrings exParentHostFirst Model.absent exLeadingDash = some r2 ∧
      valueIn r1.Descriptors (str "host") = some (str "a.example.com") ∧
      valueIn r2.Descriptors (str "host") = some (str "-a.example.com") :=
  ⟨Sched.valid_of_inner_eq_outer (by decide) (by decide) (by decide) (by decide) (by decide)
      (fun _ => rfl),
    Sched.valid_of_inner_eq_outer (by decide) (by decide) (by decide) (by decide) (by decide)
      (fun _ => rfl),
    Sched.valid_of_inner_const (by decide) (by decide) (by decide) (by decide) (by decide)
      (Sched.listOrder Model.absent exLeadingDash).expandOuterOrder (by decide) (fun _ => rfl),
    _, _, _, rfl, rfl, rfl, rfl, by decide, by decide⟩

/-- C11, the code at a failing input: the order names the key `missing`,
which is not in the attribute map, is not `attributes` and has no `$`
prefix. `Compute` returns no diagnostic at all and prints the line
`warn - no key: missing` instead; `Read`, under a valid schedule, collects no
diagnostic either. -/
theorem Compute_no_key_is_printed_not_returned :
    GoMap.lookup [(str "stage", str "dev")] (str "missing") = none ∧
    (∃ c, exMissingKey.Compute goStrings [(str "stage", str "dev")] [] = some c ∧
      c.d.Value = Val.known (str "dev") ∧ c.diags = [] ∧
      c.stdout = [str "warn - no key: missing\n"]) ∧
    (Sched.listOrder exMissingKeyModel Model.absent).Valid exMissingKeyModel Model.absent ∧
    ∃ r, Read goStrings (Sched.listOrder exMissingKeyModel Model.absent) exMissingKeyModel
        Model.absent = some r ∧
      r.Id = Val.known (str "dev") ∧ r.Diagnostics = [] ∧
      r.Stdout = [str "warn - no key: missing\n"] :=
  ⟨by decide, ⟨_, rfl, by decide, by decide, by decide⟩,
    Sched.valid_of_inner_eq_outer (by decide) (by decide) (by decide) (by decide) (by decide)
      (fun _ => rfl),
    _, rfl, by decide, by decide, by decide⟩

/-- C12, placeholder opacity: let the key at some position of `order` be
`$name`, not a key of the attribute map. Whatever the transform flags, the
cleaned part list holds the placeholder of `name` verbatim, between the
cleaned parts of the keys before it and those of the keys after it; when
`reverse` is true it holds it at the mirrored position, between the reversed
parts of the keys after it and the reversed parts of the keys before it. -/
theorem partsClean_placeholder_position (lib : Strings) (d : Descriptor) (am : GoMap Str)
    (at_ : List Str) (o1 o2 : List (Val Str)) (k : Val Str) (name : Str)
    (ho : d.Order = o1 ++ k :: o2) (hk : k.ValueString = str "$" ++ name)
    (hm : GoMap.lookup am (str "$" ++ name) = none) :
    (d.Reverse.ValueBool = false →
      d.partsClean lib am at_ =
        ({ d with Order := o1, Reverse := Val.known false } : Descriptor).partsClean lib am at_ ++
          SprintfPlaceholder name ::
            ({ d with Order := o2, Reverse := Val.known false } : Descriptor).partsClean
              lib am at_) ∧
    (d.Reverse.ValueBool = true →
      d.partsClean lib am at_ =
        (({ d with Order := o2, Reverse := Val.known false } : Descriptor).partsClean
            lib am at_).reverse ++
          SprintfPlaceholder name ::
            (({ d with Order := o1, Reverse := Val.known false } : Descriptor).partsClean
              lib am at_).reverse) := by
  have hne : SprintfPlaceholder name ≠ [] := by
    have e2 : str "$\x7b" = [36, 123] := by decide
    unfold SprintfPlaceholder
    rw [e2]
    simp
  have hall : ((d.parts am at_).1.filter (fun p => decide (p ≠ []))).map (d.emit lib) =
      ({ d with Order := o1, Reverse := Val.known false } : Descriptor).partsClean lib am at_ ++
        SprintfPlaceholder name ::
          ({ d with Order := o2, Reverse := Val.known false } : Descriptor).partsClean
            lib am at_ := by
    rw [partsClean_unreversed, partsClean_unreversed, parts_fst, ho]
    simp only [List.map_append, List.map_cons, List.flatMap_append, List.flatMap_cons,
      List.filter_append, hk, specResolve_placeholder am at_ name hm]
    simp [hne, emit_placeholder]
  constructor
  · intro hr
    rw [partsClean_eq, hall]
    simp [hr]
  · intro hr
    rw [partsClean_eq, hall]
    simp [hr]

/-- Witness of C12: `fqdn2` of the tests with all three transform flags set
and the order reversed. -/
theorem partsClean_placeholder_position_witness :
    ({ exFlagsDescriptor ["$fqdn2_prefix", "domain"] true true true with
        Reverse := Val.known true } : Descriptor).partsClean goStrings
        [(str "domain", str "example.com")] [] =
      [str "EXAMPLE.COM", str "$\x7bfqdn2_prefix\x7d"] := by
  have h := (partsClean_placeholder_position goStrings
    ({ exFlagsDescriptor ["$fqdn2_prefix", "domain"] true true true with
        Reverse := Val.known true } : Descriptor)
    [(str "domain", str "example.com")] [] [] [Val.known (str "domain")]
    (Val.known (str "$fqdn2_prefix")) (str "fqdn2_prefix") (by decide) (by decide)
    (by decide)).2 (by decide)
  rw [h]
  decide

/-- Counterexample to C13 as stated: `a` refers to `b` and `b` to `c`, so the
references are acyclic (they go down along `exChainRank`). With the outer
loop visiting `a` first and the inner loop visiting `c` before `b`, the first
run leaves `a` with the placeholder of `c`; a second run of the pass on that
output replaces it and changes the value of `a` to `x`. -/
theorem expandAll_second_run_changes_chain :
    exChainSched.Valid exChain Model.absent ∧
    ∃ ev r, evaluate goStrings exChainSched exChain Model.absent = some ev ∧
      (∀ p ∈ ev.descs, ∀ q ∈ ev.descs,
        occursIn (SprintfPlaceholder q.1) p.2.Value.ValueString = true →
          exChainRank q.1 < exChainRank p.1) ∧
      Read goStrings exChainSched exChain Model.absent = some r ∧
      valueIn r.Descriptors (str "a") = some (str "$\x7bc\x7d") ∧
      valueIn (expandAll goStrings exChainSched.expandOuterOrder exChainSched.expandInnerOrder
        r.Descriptors) (str "a") = some (str "x") :=
  ⟨Sched.valid_of_inner_const (by decide) (by decide) (by decide) (by decide) (by decide)
      [str "c", str "b", str "a", str "id", str "namespace"] (by decide) (fun _ => rfl),
    _, _, rfl, by decide, rfl, by decide, by decide⟩

/-- C13 as amended, idempotent interpolation on a resolved set: under a valid
schedule and with an idempotent `Trim`, when no value that `Read` returns
holds the placeholder of a descriptor name, running the interpolation pass
again on the returned descriptors, in any orders, leaves every descriptor as
it is; and `Read` returns whenever no limit is negative. -/
theorem Read_interpolation_idempotent (lib : Strings) (s : Sched) (child parent : Model)
    (hv : s.Valid child parent)
    (hidem : ∀ x c, lib.Trim (lib.Trim x c) c = lib.Trim x c) :
    (∀ r, Read lib s child parent = some r → Resolved r.Descriptors →
      ∀ (outer : List Str) (inner : Str → List Str) (k : Str),
        GoMap.lookup (expandAll lib outer inner r.Descriptors) k =
          GoMap.lookup r.Descriptors k) ∧
    (SaneLimits child.Descriptors → SaneLimits parent.Descriptors →
      ∃ r, Read lib s child parent = some r) := by
  refine ⟨?_, Read_isSome lib s child parent⟩
  intro r hr hres outer inner k
  apply expandAll_of_resolved
  · intro p pd sk sd hp hs
    exact hres (p, pd) (GoMap.mem_of_lookup _ _ _ hp) (sk, sd) (GoMap.mem_of_lookup _ _ _ hs)
  · intro p pd hp
    obtain ⟨z, hz⟩ := Read_final_is_trim lib s child parent hv r hr p pd hp
    rw [hz]
    exact hidem z _
  · intro p pd hp
    obtain ⟨z, hz⟩ := Read_final_is_trim lib s child parent hv r hr p pd hp
    rw [hz]
    rfl

/-- Witness of C13 as amended: `buzz` of the tests; a second run over its
outputs leaves `fqdn2` as it is. -/
theorem Read_interpolation_idempotent_witness :
    ∃ r, Read goStrings (Sched.listOrder exBuzz Model.absent) exBuzz Model.absent = some r ∧
      valueIn r.Descriptors (str "fqdn2") = some (str "fizz-buzz.example.com") ∧
      GoMap.lookup (expandAll goStrings (Sched.listOrder exBuzz Model.absent).expandOuterOrder
          (Sched.listOrder exBuzz Model.absent).expandInnerOrder r.Descriptors) (str "fqdn2") =
        GoMap.lookup r.Descriptors (str "fqdn2") := by
  have h := Read_interpolation_idempotent goStrings (Sched.listOrder exBuzz Model.absent) exBuzz
    Model.absent
    (Sched.valid_of_inner_eq_outer (by decide) (by decide) (by decide) (by decide) (by decide)
      (fun _ => rfl))
    (fun x c => trimBytes_idem x c)
  exact ⟨_, rfl, by decide, h.1 _ rfl (by decide) _ _ _⟩

/-- C14, the code at a failing input: one configuration, two valid schedules
that differ in the order of the outer loop only. Visiting `prefix` before
`host` gives `host` the value `a.example.com`, visiting `host` first gives it
`-a.example.com`. -/
theorem Read_depends_on_outer_order :
    (Sched.listOrder exLeadingDash Model.absent).Valid exLeadingDash Model.absent ∧
    exHostFirst.Valid exLeadingDash Model.absent ∧
    ∃ r1 r2,
      Read goStrings (Sched.listOrder exLeadingDash Model.absent) exLeadingDash Model.absent
        = some r1 ∧
      Read goStrings exHostFirst exLeadingDash Model.absent = some r2 ∧
      valueIn r1.Descriptors (str "host") = some (str "a.example.com") ∧
      valueIn r2.Descriptors (str "host") = some (str "-a.example.com") :=
  ⟨Sched.valid_of_inner_eq_outer (by decide) (by decide) (by decide) (by decide) (by decide)
      (fun _ => rfl),
    Sched.valid_of_inner_const (by decide) (by decide) (by decide) (by decide) (by decide)
      (Sched.listOrder exLeadingDash Model.absent).expandOuterOrder (by decide) (fun _ => rfl),
    _, _, rfl, rfl, by decide, by decide⟩

/-- Counterexample to C15 as stated: with only `lower` set, the attribute
`$Foo`, taken from the attribute sequence and not from a `$name` key, goes
into the cleaned parts and into the value unchanged, while its lower-cased
form is `$foo`; the attribute `Bar` next to it is lower-cased. -/
theorem Compute_dollar_attribute_not_transformed :
    ((exFlagsDescriptor ["attributes"] true false false).parts [] [str "$Foo", str "Bar"]).1
      = [str "$Foo", str "Bar"] ∧
    (exFlagsDescriptor ["attributes"] true false false).partsClean goStrings []
      [str "$Foo", str "Bar"] = [str "$Foo", str "bar"] ∧
    goStrings.ToLower (str "$Foo") = str "$foo" ∧
    ∃ c, (exFlagsDescriptor ["attributes"] true false false).Compute goStrings []
        [str "$Foo", str "Bar"] = some c ∧
      c.d.Value = Val.known (str "$Foo-bar") :=
  ⟨by decide, by decide, by decide, _, rfl, by decide⟩

/-- C15 as amended, transforms reach every part without a `$` prefix: the
cleaned parts of `Compute` are the resolved parts in order, the empty ones
dropped, where every part that does not start with `$` has passed through
the transforms whose flags are true (lower, then upper, then title) and every
part that starts with `$`, placeholder or not, is left as it is; the list is
reversed when `reverse` is true, and its join is the value before the limit.
With only `lower` true the transform is `ToLower`. -/
theorem partsClean_transforms (lib : Strings) (d : Descriptor) (am : GoMap Str)
    (at_ : List Str) :
    d.partsClean lib am at_ =
      (if d.Reverse.ValueBool then (specCleanParts lib d am at_).reverse
        else specCleanParts lib d am at_) ∧
    d.joined lib am at_ =
      Join (if d.Reverse.ValueBool then (specCleanParts lib d am at_).reverse
        else specCleanParts lib d am at_) d.Delimiter.ValueString ∧
    (d.Lower.ValueBool = true → d.Upper.ValueBool = false → d.Title.ValueBool = false →
      ∀ p, specTransform lib d p = lib.ToLower p) := by
  have h1 : d.partsClean lib am at_ =
      (if d.Reverse.ValueBool then (specCleanParts lib d am at_).reverse
        else specCleanParts lib d am at_) := by
    rw [partsClean_eq, parts_fst]
    rfl
  refine ⟨h1, ?_, ?_⟩
  · unfold Descriptor.joined
    rw [h1]
  · intro hl hu ht p
    unfold specTransform
    simp [hl, hu, ht]

/-- Witness of C15 as amended: `id` of the tests, lower-casing, over mixed
case values. -/
theorem partsClean_transforms_witness :
    (exFlagsDescriptor ["stage", "attributes"] true false false).joined goStrings
      [(str "stage", str "Dev")] [str "FiZZ"] = str "dev-fizz" := by
  rw [(partsClean_transforms goStrings (exFlagsDescriptor ["stage", "attributes"] true false
    false) [(str "stage", str "Dev")] [str "FiZZ"]).2.1]
  decide

/-- Counterexample to C16 as stated: with `upper` and `title` both set the
part `foo` is emitted as `FOO`, which is not title-cased; with `title` alone
it is emitted as `Foo`. -/
theorem emit_upper_title_is_upper :
    (exFlagsDescriptor [] false true true).emit goStrings (str "foo") = str "FOO" ∧
    (exFlagsDescriptor [] false false true).emit goStrings (str "foo") = str "Foo" ∧
    (exFlagsDescriptor [] false true false).emit goStrings (str "foo") = str "FOO" := by
  decide

/-- C16 as amended, the transforms are layered: a part without a `$` prefix
is emitted as `ToUpper (ToLower part)` with `lower` and `upper` set, and as
`Title (ToUpper part)` with `upper` and `title` set. On ASCII text the first
is the part emitted with `upper` alone, and so is the second: `Title` leaves
upper-case text as it is, the part does not end title-cased. -/
theorem emit_layers (lib : Strings) (d : Descriptor) (p : Str)
    (hp : HasPrefix p (str "$") = false) :
    (d.Lower.ValueBool = true → d.Upper.ValueBool = true → d.Title.ValueBool = false →
      d.emit lib p = lib.ToUpper (lib.ToLower p)) ∧
    (d.Lower.ValueBool = false → d.Upper.ValueBool = true → d.Title.ValueBool = true →
      d.emit lib p = lib.Title (lib.ToUpper p)) ∧
    (d.Lower.ValueBool = false → d.Upper.ValueBool = true → d.Title.ValueBool = false →
      d.emit lib p = lib.ToUpper p) ∧
    ((∀ b ∈ p, b.val < 128) →
      goStrings.ToUpper (goStrings.ToLower p) = goStrings.ToUpper p ∧
      goStrings.Title (goStrings.ToUpper p) = goStrings.ToUpper p) := by
  refine ⟨?_, ?_, ?_, ?_⟩
  · intro hl hu ht
    unfold Descriptor.emit
    simp [hp, hl, hu, ht]
  · intro hl hu ht
    unfold Descriptor.emit
    simp [hp, hl, hu, ht]
  · intro hl hu ht
    unfold Descriptor.emit
    simp [hp, hl, hu, ht]
  · intro _
    constructor
    · show (p.map lowerByte).map upperByte = p.map upperByte
      rw [List.map_map]
      apply List.map_congr_left
      intro b _
      exact upperByte_lowerByte b
    · exact titleScan_map_upperByte 32 p

/-- Witness of C16 as amended: `Foo Bar` with `lower` and `upper` set. -/
theorem emit_layers_witness :
    (exFlagsDescriptor [] true true false).emit goStrings (str "Foo Bar") = str "FOO BAR" := by
  rw [(emit_layers goStrings (exFlagsDescriptor [] true true false) (str "Foo Bar")
    (by decide)).1 (by decide) (by decide) (by decide)]
  decide

/-- C17, empty and unknown keys contribute nothing: the value that `Compute`
produces (and whether it produces one) is the same when a key of `order` that
is unresolved (not in the map, not `attributes`, no `$` prefix) or that maps
to the empty string is taken out of `order`, the keys before and after it
staying in place, and the same when the empty strings are taken out of the
attribute sequence. -/
theorem Compute_ignores_empty_and_unknown (lib : Strings) (d : Descriptor) (am : GoMap Str)
    (at_ : List Str) :
    (∀ (o1 o2 : List (Val Str)) (k : Val Str), d.Order = o1 ++ k :: o2 →
      ((GoMap.lookup am k.ValueString = none ∧ k.ValueString ≠ str "attributes" ∧
          HasPrefix k.ValueString (str "$") = false) ∨
        GoMap.lookup am k.ValueString = some []) →
      (({ d with Order := o1 ++ o2 } : Descriptor).Compute lib am at_).map (fun c => c.d.Value) =
        (d.Compute lib am at_).map (fun c => c.d.Value)) ∧
    (d.Compute lib am (at_.filter (fun a => decide (a ≠ [])))).map (fun c => c.d.Value) =
      (d.Compute lib am at_).map (fun c => c.d.Value) := by
  constructor
  · intro o1 o2 k ho hk
    refine Compute_value_congr lib ({ d with Order := o1 ++ o2 } : Descriptor) d am am at_ at_
      rfl ?_
    have hres : (specResolve am at_ k.ValueString).filter (fun p => decide (p ≠ [])) = [] := by
      unfold specResolve
      rcases hk with ⟨h1, h2, h3⟩ | h1
      · have h3' : (str "$").isPrefixOf k.ValueString = false := h3
        simp [h1, h2, h3']
      · simp [h1]
    rw [joined_eq, joined_eq, ho]
    have hemit : Descriptor.emit lib ({ d with Order := o1 ++ o2 } : Descriptor) =
        Descriptor.emit lib d := rfl
    simp only [hemit, List.map_append, List.map_cons, List.flatMap_append, List.flatMap_cons,
      List.filter_append, hres, List.nil_append]
  · refine Compute_value_congr lib d d am am (at_.filter (fun a => decide (a ≠ []))) at_
      rfl ?_
    rw [joined_eq, joined_eq, flatMap_specResolve_filter_attributes]

/-- Witness of C17: the key `missing` is unresolved; with it or without it
the value is `dev`. -/
theorem Compute_ignores_empty_and_unknown_witness :
    ((exPlainDescriptor ["stage"] "-" Val.null).Compute goStrings
        [(str "stage", str "dev")] []).map (fun c => c.d.Value) =
      (exMissingKey.Compute goStrings [(str "stage", str "dev")] []).map
        (fun c => c.d.Value) ∧
    (exMissingKey.Compute goStrings [(str "stage", str "dev")] []).map (fun c => c.d.Value) =
      some (Val.known (str "dev")) := by
  refine ⟨?_, by decide⟩
  exact (Compute_ignores_empty_and_unknown goStrings exMissingKey [(str "stage", str "dev")]
    []).1 [Val.known (str "stage")] [] (Val.known (str "missing")) (by decide)
    (Or.inl ⟨by decide, by decide, by decide⟩)

/-- C18, delimiter trimming invariant: under a valid schedule, with
`strings.Trim` as Go defines it for the delimiter at hand, the final value of
every descriptor that `Read` returns neither begins nor ends with a
character (a rune) that occurs in the delimiter of that descriptor, whatever
the bytes of the delimiter, ASCII or not; when the delimiter is ASCII the
value neither begins nor ends with a byte of the delimiter; and `Read`
returns whenever no limit is negative. -/
theorem Read_value_has_no_delimiter_at_its_ends (lib : Strings) (s : Sched)
    (child parent : Model) (hv : s.Valid child parent) :
    (∀ r, Read lib s child parent = some r → ∀ pk pd,
      GoMap.lookup r.Descriptors pk = some pd →
      (∀ v, lib.Trim v pd.Delimiter.ValueString = Trim v pd.Delimiter.ValueString) →
      beginsWithRuneOf pd.Value.ValueString pd.Delimiter.ValueString = false ∧
      endsWithRuneOf pd.Value.ValueString pd.Delimiter.ValueString = false ∧
      (makeASCIISet pd.Delimiter.ValueString = true →
        (∀ b, pd.Value.ValueString.head? = some b → b ∉ pd.Delimiter.ValueString) ∧
        (∀ b, pd.Value.ValueString.getLast? = some b → b ∉ pd.Delimiter.ValueString))) ∧
    (SaneLimits child.Descriptors → SaneLimits parent.Descriptors →
      ∃ r, Read lib s child parent = some r) := by
  refine ⟨?_, Read_isSome lib s child parent⟩
  intro r hr pk pd hpd hT
  obtain ⟨z, hz⟩ := Read_final_is_trim lib s child parent hv r hr pk pd hpd
  have hval : pd.Value.ValueString = Trim z pd.Delimiter.ValueString := by
    rw [hz, ← hT]
    rfl
  rw [hval]
  refine ⟨(Trim_edges z _).1, (Trim_edges z _).2, fun hA => ?_⟩
  rw [Trim_ascii z _ hA]
  exact ⟨fun b hb => trimBytes_head z _ b hb, fun b hb => trimBytes_getLast z _ b hb⟩

/-- Witness of C18, on an ASCII and on a two-byte delimiter: `fqdn2` of
`base` of the tests is `example.com`, without the dot that the join put in
front; and `id` of `exAccent`, joined as `éèx` with the delimiter `é`, is
`èx`: the rune `é` is gone and the rune `è`, which shares its first byte,
is whole. -/
theorem Read_value_has_no_delimiter_at_its_ends_witness :
    (∃ r pd, Read goStrings (Sched.listOrder exBase Model.absent) exBase Model.absent = some r ∧
      GoMap.lookup r.Descriptors (str "fqdn2") = some pd ∧
      pd.Value = Val.known (str "example.com") ∧
      evaluatedValue goStrings (Sched.listOrder exBase Model.absent) exBase Model.absent
        (str "fqdn2") = some (str "$\x7bfqdn2_prefix\x7d.example.com") ∧
      beginsWithRuneOf pd.Value.ValueString (str ".") = false ∧
      (∀ b, pd.Value.ValueString.head? = some b → b ∉ str ".")) ∧
    (∃ r pd, Read goStringsRunes (Sched.listOrder exAccent Model.absent) exAccent Model.absent
        = some r ∧
      GoMap.lookup r.Descriptors (str "id") = some pd ∧
      pd.Value = Val.known (str "èx") ∧
      evaluatedValue goStringsRunes (Sched.listOrder exAccent Model.absent) exAccent
        Model.absent (str "id") = some (str "$\x7bp\x7déèx") ∧
      beginsWithRuneOf pd.Value.ValueString (str "é") = false ∧
      endsWithRuneOf pd.Value.ValueString (str "é") = false) := by
  have h := Read_value_has_no_delimiter_at_its_ends goStrings
    (Sched.listOrder exBase Model.absent) exBase Model.absent
    (Sched.valid_of_inner_eq_outer (by decide) (by decide) (by decide) (by decide) (by decide)
      (fun _ => rfl))
  have h2 := Read_value_has_no_delimiter_at_its_ends goStringsRunes
    (Sched.listOrder exAccent Model.absent) exAccent Model.absent
    (Sched.valid_of_inner_eq_outer (by decide) (by decide) (by decide) (by decide) (by decide)
      (fun _ => rfl))
  have ha := h.1 _ rfl (str "fqdn2") _ rfl
    (fun v => (Trim_ascii v (str ".") (by decide)).symm)
  have hb := h2.1 _ rfl (str "id") _ rfl (fun _ => rfl)
  exact ⟨⟨_, _, rfl, rfl, by decide, by decide, ha.1, (ha.2.2 (by decide)).1⟩,
    ⟨_, _, rfl, rfl, by decide, by decide, hb.1, hb.2.1⟩⟩

open types

end Provider
